import Mathlib

/-!
# Radix-tree router (`router.go`): embedding and verified properties

The Go program keeps its tree in heap objects linked by pointers (`children`,
`paramChild`, `parent`) and mutates them in place.  The embedding keeps that
shape: the heap is a list of `Node` records, a `*Node` is `Option Nat` (an index
into the heap, `none` for `nil`), `newNode` allocates at the end of the list and
every assignment through a pointer is an update of one heap cell.

Go strings are byte sequences; they are embedded as lists of byte values
(`Str`).  A handler is a function value that can only be called or compared with
`nil`; it is embedded as `Option Nat` (`none` is the `nil` function, `some i` is
the function with identity `i`).

A run of Go code either finishes or panics; loops may also run forever.  The
embedding returns `Except Fault _`: `nilDeref` and `nilMapWrite` are the two Go
run-time panics the program can raise, `badAddr` is a read through an index
outside the heap (an object that was never allocated, which Go cannot express),
and `outOfFuel` reports that a loop did not finish within its iteration budget.
-/

namespace MyRouter

/-- A Go string: its bytes in order. -/
abbrev Str := List Nat

/-- The byte `':'`, the parameter marker. -/
def colon : Nat := 58

/-- The byte `'/'`, the segment separator. -/
def slash : Nat := 47

/-- The string `http.MethodGet`, that is `"GET"`. -/
def MethodGet : Str := [71, 69, 84]

/-- The Go type `nodeType` with its two constants. -/
inductive nodeType where
  | static
  | param
deriving DecidableEq, Repr

/-- The Go struct `Param`. -/
structure Param where
  key : Str
  value : Str
deriving DecidableEq, Repr

/-- The Go type `CustomHandler`: `none` is the nil function. -/
abbrev CustomHandler := Option Nat

/-- The Go type `map[string]CustomHandler`: `none` is the nil map, `some l` an
allocated map holding the bindings of `l` (keys unique). -/
abbrev HandlerMap := Option (List (Str × CustomHandler))

/-- The Go struct `Node`; the field `prefix` is called `pfx`.  The defaults are
Go's zero values. -/
structure Node where
  isRoot : Bool := false
  pfx : Str := []
  children : List Nat := []
  paramChild : Option Nat := none
  parent : Option Nat := none
  nodeType : nodeType := nodeType.static
  param : Option Param := none
  handlers : HandlerMap := none
deriving DecidableEq, Repr

/-- The heap of `Node` objects; the address of an object is its index. -/
abbrev Heap := List Node

/-- What stops a run: a Go panic, a read outside the heap, or an exhausted
iteration budget. -/
inductive Fault where
  | nilDeref
  | nilMapWrite
  | badAddr
  | outOfFuel
deriving DecidableEq, Repr

/-- The Go struct `Router`: the heap its tree lives in and the pointer `tree`
to the root. -/
structure Router where
  heap : Heap
  tree : Nat
deriving DecidableEq, Repr

/-- Read of the object at address `a`. -/
def getNode (h : Heap) (a : Nat) : Except Fault Node :=
  match h[a]? with
  | some n => Except.ok n
  | none => Except.error Fault.badAddr

/-- Assignment to fields of the object at address `a`: `f` is applied to the
cell. -/
def modNode (h : Heap) (a : Nat) (f : Node → Node) : Heap :=
  match h[a]? with
  | some n => h.set a (f n)
  | none => h

/-- The field `prefix` of the object at `a` (empty for an address outside the
heap). -/
def pfxOf (h : Heap) (a : Nat) : Str :=
  match h[a]? with
  | some n => n.pfx
  | none => []

/-- Read `m[k]` of a Go map: the zero value `nil` when the key is missing or
the map is nil. -/
def mapGet (m : HandlerMap) (k : Str) : CustomHandler :=
  match m with
  | none => none
  | some l => (l.lookup k).getD none

/-- Write `m[k] = v` on an allocated Go map. -/
def mapSet : List (Str × CustomHandler) → Str → CustomHandler → List (Str × CustomHandler)
  | [], k, v => [(k, v)]
  | (k', v') :: rest, k, v =>
    if k' = k then (k, v) :: rest else (k', v') :: mapSet rest k v

/-- The Go function `newNode`. -/
def newNode (parent : Option Nat) (pfx : Str) (t : nodeType) : Node :=
  { pfx := pfx, parent := parent, children := [], nodeType := t, handlers := some [] }

/-- The inner loop `for lcpIndex < maxLen && a[lcpIndex] == b[lcpIndex]`: the
length of the longest common initial run of two strings. -/
def lcpIndex : Str → Str → Nat
  | x :: xs, y :: ys => if x = y then lcpIndex xs ys + 1 else 0
  | _, _ => 0

/-- The loop `for j < len(endpoint) && endpoint[j] != c`: index of the first
byte `c`, or the length. -/
def indexByte (c : Nat) : Str → Nat
  | [] => 0
  | x :: xs => if x = c then 0 else indexByte c xs + 1

/-- Loop of `Node.longestCommonChild` over the remaining children, carrying
`maxLcpIndex` and `nextChild`. -/
def longestCommonChildLoop (h : Heap) (e : Str) : List Nat → Nat → Option Nat → Option Nat
  | [], _, next => next
  | c :: cs, maxLcp, next =>
    if maxLcp < lcpIndex e (pfxOf h c) then
      longestCommonChildLoop h e cs (lcpIndex e (pfxOf h c)) (some c)
    else
      longestCommonChildLoop h e cs maxLcp next

/-- The Go method `Node.longestCommonChild`. -/
def longestCommonChild (h : Heap) (n : Node) (e : Str) : Option Nat :=
  longestCommonChildLoop h e n.children 0 none

/-- Loop of `Node.RemoveChild` from index `i` on: on a hit the element is cut
out and the loop goes on at `i+1`, past the element that moved into place. -/
def removeChildLoop (child : Nat) : List Nat → List Nat
  | [] => []
  | [x] => if x = child then [] else [x]
  | x :: y :: ys =>
    if x = child then y :: removeChildLoop child ys
    else x :: removeChildLoop child (y :: ys)

/-- The Go method `Node.RemoveChild` on the object at `a`. -/
def RemoveChild (h : Heap) (a : Nat) (child : Nat) : Heap :=
  modNode h a (fun n => { n with children := removeChildLoop child n.children })

/-- The Go function `NewRouter`: one root object, whose `handlers` map is nil. -/
def NewRouter : Router :=
  { heap := [{ isRoot := true, handlers := none }], tree := 0 }

/-- One pass through the body of the `for` loop of `Router.insert`, entered
with a non-empty `endpoint`: the new heap, `currentNode` and `endpoint`. -/
def insertStep (h : Heap) (cur : Nat) (e : Str) : Except Fault (Heap × Nat × Str) := do
  let n ← getNode h cur
  if e.head? = some colon then
    let j := indexByte slash e
    match n.paramChild with
    | some child => pure (h, child, e.drop j)
    | none =>
      let a := h.length
      let node : Node :=
        { newNode (some cur) (e.take j) nodeType.param with
          param := some { key := (e.take j).drop 1, value := [] } }
      let h1 := h ++ [node]
      let h2 := modNode h1 cur (fun c => { c with paramChild := some a })
      pure (h2, a, e.drop j)
  else
    let j := indexByte colon e
    match longestCommonChild h n e with
    | none =>
      let a := h.length
      let h1 := h ++ [newNode (some cur) (e.take j) nodeType.static]
      let h2 := modNode h1 cur (fun c => { c with children := c.children ++ [a] })
      pure (h2, a, e.drop j)
    | some next => do
      let nn ← getNode h next
      let l := lcpIndex e nn.pfx
      if nn.pfx.length = l then
        pure (h, next, e.drop l)
      else
        let a := h.length
        let h1 := h ++ [newNode nn.parent (e.take l) nodeType.static]
        let h2 := modNode h1 next (fun c => { c with parent := some a })
        let h3 := modNode h2 next (fun c => { c with pfx := c.pfx.drop l })
        let h4 := modNode h3 a (fun c => { c with children := c.children ++ [next] })
        let h5 := modNode h4 cur (fun c => { c with children := c.children ++ [a] })
        let h6 := RemoveChild h5 cur next
        pure (h6, a, e.drop l)

/-- The `for` loop of `Router.insert`, with an iteration budget. -/
def insertLoop : Nat → Heap → Nat → Str → Except Fault (Heap × Nat)
  | _, h, cur, [] => pure (h, cur)
  | 0, _, _, _ :: _ => Except.error Fault.outOfFuel
  | fuel + 1, h, cur, x :: xs => do
    let (h1, cur1, e1) ← insertStep h cur (x :: xs)
    insertLoop fuel h1 cur1 e1

/-- The final statement `currentNode.handlers[method] = handler`. -/
def bindHandler (h : Heap) (cur : Nat) (method : Str) (handler : CustomHandler) :
    Except Fault Heap := do
  let n ← getNode h cur
  match n.handlers with
  | none => Except.error Fault.nilMapWrite
  | some m => pure (h.set cur { n with handlers := some (mapSet m method handler) })

/-- The Go method `Router.insert`.  Every pass of its loop consumes at least one
byte of `endpoint`, so `len(endpoint)` passes are enough. -/
def Router.insert (r : Router) (method endpoint : Str) (handler : CustomHandler) :
    Except Fault Router := do
  let (h, cur) ← insertLoop endpoint.length r.heap r.tree endpoint
  let h1 ← bindHandler h cur method handler
  pure { r with heap := h1 }

/-- The Go method `Router.GET`. -/
def Router.GET (r : Router) (endpoint : Str) (handler : CustomHandler) : Except Fault Router :=
  r.insert MethodGet endpoint handler

/-- The `for` loop of `Router.staticSearch`, with an iteration budget. -/
def staticSearchLoop : Nat → Heap → Nat → Str → Except Fault (Nat × Str)
  | 0, _, _, _ => Except.error Fault.outOfFuel
  | fuel + 1, h, cur, e => do
    let n ← getNode h cur
    match longestCommonChild h n e with
    | none => pure (cur, e)
    | some next => do
      let nn ← getNode h next
      let l := lcpIndex e nn.pfx
      if (e.drop l).length = 0 then pure (next, [])
      else staticSearchLoop fuel h next (e.drop l)

/-- The Go method `Router.staticSearch`.  Every pass consumes at least one byte,
so `len(endpoint) + 1` passes are enough. -/
def staticSearch (h : Heap) (cur : Nat) (e : Str) : Except Fault (Nat × Str) :=
  staticSearchLoop (e.length + 1) h cur e

/-- The Go method `Router.paramSearch`: it stores the captured value on the
param node. -/
def paramSearch (h : Heap) (cur : Nat) (e : Str) : Except Fault (Heap × Nat × Str) := do
  let n ← getNode h cur
  match n.paramChild with
  | none => Except.error Fault.nilDeref
  | some pc => do
    let i := indexByte slash e
    let pn ← getNode h pc
    match pn.param with
    | none => Except.error Fault.nilDeref
    | some p =>
      pure (h.set pc { pn with param := some { p with value := e.take i } }, pc, e.drop i)

/-- The `for` loop of the Go function `backTrack`, with an iteration budget.
The pointer `n` may be nil, and reading `n.paramChild` then panics. -/
def backTrackLoop : Nat → Heap → Option Nat → Str → Except Fault (Option Nat × Str)
  | 0, _, _, _ => Except.error Fault.outOfFuel
  | _ + 1, _, none, _ => Except.error Fault.nilDeref
  | fuel + 1, h, some a, e => do
    let n ← getNode h a
    match n.paramChild with
    | some _ => pure (some a, e)
    | none => backTrackLoop fuel h n.parent (n.pfx ++ e)

/-- The Go function `backTrack`.  A chain of parent pointers without a cycle
visits each object at most once and then reaches nil, so `len(heap) + 1` passes
are enough; a longer walk means the chain is cyclic and the Go loop does not
end. -/
def backTrack (h : Heap) (n : Option Nat) (e : Str) : Except Fault (Option Nat × Str) :=
  backTrackLoop (h.length + 1) h n e

/-- The `for` loop of `Router.Search`, with a budget of passes.  The result is
the pair the Go method returns together with the heap after the call. -/
def SearchLoop : Nat → Heap → Nat → Str → Str → List Param →
    Except Fault ((CustomHandler × List Param) × Heap)
  | 0, _, _, _, _, _ => Except.error Fault.outOfFuel
  | fuel + 1, h, cur, method, e, params => do
    let (cur1, e1) ← staticSearch h cur e
    if e1 = [] then
      let n ← getNode h cur1
      pure ((mapGet n.handlers method, params), h)
    else
      let (cur2, e2) ← backTrack h (some cur1) e1
      match cur2 with
      | none => pure ((none, params), h)
      | some a => do
        let (h1, cur3, e3) ← paramSearch h a e2
        let n ← getNode h1 cur3
        match n.param with
        | none => Except.error Fault.nilDeref
        | some p =>
          let params1 := params ++ [{ key := p.key, value := p.value }]
          if e3 = [] then pure ((mapGet n.handlers method, params1), h1)
          else SearchLoop fuel h1 cur3 method e3 params1

/-- The Go method `Router.Search` run for at most `fuel` passes of its loop:
the returned `(handler, params)` and the router after the call. -/
def Router.Search (fuel : Nat) (r : Router) (method endpoint : Str) :
    Except Fault ((CustomHandler × List Param) × Router) := do
  let (res, h) ← SearchLoop fuel r.heap r.tree method endpoint []
  pure (res, { r with heap := h })

/-- The bytes of an ASCII string literal. -/
def bytes (s : String) : Str := s.toList.map Char.toNat

/-- A start-up phase: the registrations of a list, applied in order. -/
def registerAll : List (Str × Str × CustomHandler) → Router → Except Fault Router
  | [], r => pure r
  | (m, p, hd) :: rest, r => do
    let r1 ← r.insert m p hd
    registerAll rest r1

deriving instance DecidableEq for Except

/-- The object `n` with the stored value of its `param` blanked. -/
def Node.clearValue (n : Node) : Node :=
  { n with param := n.param.map (fun p => { p with value := [] }) }

/-- The heap with every stored param value blanked: everything `Search` is not
meant to depend on is removed, everything else is kept. -/
def eraseValues (h : Heap) : Heap := h.map Node.clearValue

/-- The router after `GET /users/:id` with handler 1 has been registered on a
new router. -/
def usersRouter : Router :=
  { heap :=
      [ { isRoot := true, children := [1] },
        { pfx := bytes "/users/", paramChild := some 2, parent := some 0, handlers := some [] },
        { pfx := bytes ":id", parent := some 1, nodeType := nodeType.param,
          param := some { key := bytes "id", value := [] },
          handlers := some [(MethodGet, some 1)] } ],
    tree := 0 }

/-- The router `usersRouter` after `Search("GET", "/users/42")`. -/
def usersRouterAfter : Router :=
  { heap :=
      [ { isRoot := true, children := [1] },
        { pfx := bytes "/users/", paramChild := some 2, parent := some 0, handlers := some [] },
        { pfx := bytes ":id", parent := some 1, nodeType := nodeType.param,
          param := some { key := bytes "id", value := bytes "42" },
          handlers := some [(MethodGet, some 1)] } ],
    tree := 0 }

/-- The shape every heap built by `NewRouter` and `insert` has: the root has no
parent; every static child and every param child is an allocated object whose
`parent` points back, with the node type of its kind and an allocated handler
map; a static child is another object than its parent and has a non-empty prefix
without `':'`; a param child has its `param` set; and no two static children of
one node start with the same byte. -/
structure WF (h : Heap) (root : Nat) : Prop where
  root_ok : ∃ n : Node, h[root]? = some n ∧ n.parent = none
  child_ok : ∀ (a : Nat) (n : Node) (c : Nat), h[a]? = some n → c ∈ n.children →
    c ≠ a ∧ ∃ cn : Node, h[c]? = some cn ∧ cn.parent = some a ∧
      cn.nodeType = nodeType.static ∧ cn.pfx ≠ [] ∧ colon ∉ cn.pfx ∧ cn.handlers ≠ none
  param_ok : ∀ (a : Nat) (n : Node) (c : Nat), h[a]? = some n → n.paramChild = some c →
    ∃ cn : Node, h[c]? = some cn ∧ cn.parent = some a ∧ cn.nodeType = nodeType.param ∧
      cn.handlers ≠ none ∧ cn.param ≠ none
  sibling : ∀ (a : Nat) (n : Node), h[a]? = some n →
    n.children.Pairwise (fun c d => (pfxOf h c).head? ≠ (pfxOf h d).head?)

/-- A static edge of the tree read as a move of a descent: from node `x.1` with
`x.2` left to consume, to its static child `y.1` whose whole prefix starts `x.2`,
with `y.2` left. -/
def StaticStep (h : Heap) (x y : Nat × Str) : Prop :=
  ∃ n cn : Node, h[x.1]? = some n ∧ y.1 ∈ n.children ∧ h[y.1]? = some cn ∧ x.2 = cn.pfx ++ y.2

/-- A param edge read as a move of a registration: what is left starts with
`':'`, the move goes to the param child and drops the bytes before the next
`'/'`. -/
def ParamStep (h : Heap) (x y : Nat × Str) : Prop :=
  ∃ n : Node, h[x.1]? = some n ∧ n.paramChild = some y.1 ∧ x.2.head? = some colon ∧
    y.2 = x.2.drop (indexByte slash x.2)

/-- A move along an edge: a static edge, or (when `k` is true) a param edge. -/
def Step (k : Bool) (h : Heap) (x y : Nat × Str) : Prop :=
  StaticStep h x y ∨ (k = true ∧ ParamStep h x y)

/-- A descent along static edges only: `Walk h (a, p ++ r) (b, r)` says that `b`
is reached from `a` along static edges whose prefixes concatenate to `p`. -/
def Walk (h : Heap) (x y : Nat × Str) : Prop := Relation.ReflTransGen (Step false h) x y

/-- A descent along static and param edges, as a registration follows it. -/
def Route (h : Heap) (x y : Nat × Str) : Prop := Relation.ReflTransGen (Step true h) x y

/-- How the heap `h'` after some passes of the loop of `insert` relates to the
heap `h` before them: nothing is freed; every descent of `h` is still a descent
of `h'`; a static descent of `h'` between objects of `h` was one of `h`; the
handler maps of the objects of `h` are untouched and those of new objects are
empty. -/
structure Grows (h h' : Heap) : Prop where
  len : h.length ≤ h'.length
  pres : ∀ (k : Bool) (x y : Nat × Str), Step k h x y → Relation.ReflTransGen (Step k h') x y
  refl : ∀ (x y : Nat × Str), x.1 < h.length → y.1 < h.length → Walk h' x y → Walk h x y
  old : ∀ (a : Nat) (n : Node), h[a]? = some n → ∃ n' : Node, h'[a]? = some n' ∧ n'.handlers = n.handlers
  fresh : ∀ (a : Nat) (n' : Node), h.length ≤ a → h'[a]? = some n' → n'.handlers = some []

/-- What the two allocating branches of `insert` (new param child, new static
child) have in common: a leaf `nd` is allocated with parent `cur`, and `cur`
gets it as its param child or as one more static child. -/
structure Alloc (h : Heap) (cur : Nat) (n nd n' : Node) : Prop where
  get : h[cur]? = some n
  pfx_eq : n'.pfx = n.pfx
  parent_eq : n'.parent = n.parent
  type_eq : n'.nodeType = n.nodeType
  handlers_eq : n'.handlers = n.handlers
  param_eq : n'.param = n.param
  nd_parent : nd.parent = some cur
  nd_children : nd.children = []
  nd_paramChild : nd.paramChild = none
  nd_handlers : nd.handlers = some []
  kind : (n'.children = n.children ∧ n'.paramChild = some h.length ∧ n.paramChild = none ∧
            nd.nodeType = nodeType.param ∧ nd.param ≠ none) ∨
         (n'.children = n.children ++ [h.length] ∧ n'.paramChild = n.paramChild ∧
            nd.nodeType = nodeType.static ∧ nd.pfx ≠ [] ∧ colon ∉ nd.pfx ∧
            ∀ c ∈ n.children, (pfxOf h c).head? ≠ nd.pfx.head?)

/-- The heap the split branch of `insert` leaves, in one piece: a new node with
prefix `pa` is allocated between `cur` and its child `next`; `next` keeps the
rest of its prefix and gets the new node as parent; `cur` loses the child `next`
and gains the new node. -/
def splitHeap (h : Heap) (cur next : Nat) (n nn : Node) (l : Nat) (pa : Str) : Heap :=
  ((h ++ [{ newNode nn.parent pa nodeType.static with children := [next] }]).set next
      { nn with parent := some h.length, pfx := nn.pfx.drop l }).set cur
    { n with children := n.children.erase next ++ [h.length] }

/-- The situation in which `insert` splits: in a well-formed heap, `next` is a
static child of `cur` and `l` bytes of its prefix, more than none and fewer than
all, are shared with the path; `pa` is the shared part. -/
structure Split (h : Heap) (root cur next : Nat) (n nn : Node) (l : Nat) (pa : Str) : Prop where
  wf : WF h root
  get_cur : h[cur]? = some n
  mem : next ∈ n.children
  get_next : h[next]? = some nn
  l_pos : 0 < l
  l_lt : l < nn.pfx.length
  pa_eq : pa = nn.pfx.take l

/-- What a call `insert(m, q, H)` with a non-empty path does to a well-formed
heap `h`: the heap `h2` it leaves is well-formed and holds a descent from the
root along all of `q` to a node `cur` other than the root; nothing is freed,
every descent of `h` is still there, a static descent of `h2` between objects of
`h` was already one of `h`; the handler map of `cur` is the old one (empty when
`cur` is new) with `H` written under `m`; every other object of `h` keeps its
handler map and every other new object has an empty one. -/
structure Inserted (h : Heap) (root : Nat) (m q : Str) (H : CustomHandler) (h2 : Heap)
    (cur : Nat) : Prop where
  wf : WF h2 root
  route : Route h2 (root, q) (cur, [])
  len : h.length ≤ h2.length
  pres : ∀ (k : Bool) (x y : Nat × Str), Step k h x y → Relation.ReflTransGen (Step k h2) x y
  refl : ∀ (x y : Nat × Str), x.1 < h.length → y.1 < h.length → Walk h2 x y → Walk h x y
  cur_ne : cur ≠ root
  at_cur : ∃ (n2 : Node) (hm : List (Str × CustomHandler)), h2[cur]? = some n2 ∧
    n2.handlers = some (mapSet hm m H) ∧ (∀ n : Node, h[cur]? = some n → n.handlers = some hm) ∧
    (h.length ≤ cur → hm = [])
  old : ∀ (a : Nat) (n : Node), a ≠ cur → h[a]? = some n →
    ∃ n2 : Node, h2[a]? = some n2 ∧ n2.handlers = n.handlers
  fresh : ∀ (a : Nat) (n2 : Node), a ≠ cur → h.length ≤ a → h2[a]? = some n2 →
    n2.handlers = some []

/-- The handler of the last registration of `(m, p)` in the list `regs`, `nil`
when there is none: the list is scanned in order and every match replaces what
was kept. -/
def lastHandler (regs : List (Str × Str × CustomHandler)) (m p : Str) : CustomHandler :=
  regs.foldl (fun acc x => if x.1 = m ∧ x.2.1 = p then x.2.2 else acc) none

/-- What the heap `h` records of the registrations `regs`: at every node reached
from the root by a static descent along `p`, the handler bound under each method
`m` is the one last registered for `(m, p)`; and every static path of `regs` has
such a node. -/
structure Records (regs : List (Str × Str × CustomHandler)) (h : Heap) (root : Nat) : Prop where
  bound : ∀ (p : Str) (b : Nat) (nb : Node) (m : Str), Walk h (root, p) (b, []) →
    h[b]? = some nb → mapGet nb.handlers m = lastHandler regs m p
  present : ∀ x ∈ regs, colon ∉ x.2.1 → ∃ b : Nat, Walk h (root, x.2.1) (b, [])

/-- The router after `GET /cat` (handler 1) and `GET /car` (handler 2) have been
registered on a new router. -/
def catCarRouter : Router :=
  { heap :=
      [ { isRoot := true, children := [2] },
        { pfx := bytes "t", parent := some 2, handlers := some [(MethodGet, some 1)] },
        { pfx := bytes "/ca", parent := some 0, children := [1, 3], handlers := some [] },
        { pfx := bytes "r", parent := some 2, handlers := some [(MethodGet, some 2)] } ],
    tree := 0 }

/-- The routers a program can hold: the one from `NewRouter`, and what
registrations of non-empty paths and searches that return make of such a
router. -/
inductive Reachable : Router → Prop where
  | new : Reachable NewRouter
  | insert {r r1 : Router} (m p : Str) (H : CustomHandler) : Reachable r → p ≠ [] →
      r.insert m p H = Except.ok r1 → Reachable r1
  | search {r r1 : Router} (fuel : Nat) (m p : Str) (res : CustomHandler × List Param) :
      Reachable r → r.Search fuel m p = Except.ok (res, r1) → Reachable r1

/-- The heap of `usersRouter` with `v` as the value stored on the param node. -/
def usersHeapWith (v : Str) : Heap :=
  [ { isRoot := true, children := [1] },
    { pfx := [47, 117, 115, 101, 114, 115, 47], paramChild := some 2, parent := some 0,
      handlers := some [] },
    { pfx := [58, 105, 100], parent := some 1, nodeType := nodeType.param,
      param := some { key := [105, 100], value := v },
      handlers := some [(MethodGet, some 1)] } ]

/-- What `ServeHTTP` reads of a `*http.Request`: `Method` and `URL.Path`; `id`
tells requests apart. -/
structure Request where
  id : Nat
  method : Str
  path : Str
deriving DecidableEq, Repr

/-- The Go struct `Context`; a `http.ResponseWriter` is a handle (a number), and
`w` and `r` are nil in a context fresh from the pool's `New`. -/
structure Context where
  params : List Param
  w : Option Nat
  r : Option Request
deriving DecidableEq, Repr

/-- Loop of `Context.Param` over the remaining entries; the context is handed
through as it is, the method assigns to nothing. -/
def Context.ParamLoop (c : Context) (key : Str) : List Param → Str × Context
  | [] => ([], c)
  | p :: ps => if p.key = key then (p.value, c) else Context.ParamLoop c key ps

/-- The Go method `Context.Param`: the returned string and the context after
the call. -/
def Context.Param (c : Context) (key : Str) : Str × Context :=
  Context.ParamLoop c key c.params

/-- The Go method `Context.Request`. -/
def Context.Request (c : Context) : Option Request := c.r

/-- What `ServeHTTP` does to the world outside the router, in order: a call of
a handler with a context, `w.WriteHeader(status)`, `w.Write(body)`, and the
return of the context to the pool. -/
inductive Effect where
  | invoke (handler : Nat) (ctx : Context)
  | writeHeader (w : Nat) (status : Nat)
  | write (w : Nat) (body : Str)
  | poolPut
deriving DecidableEq, Repr

/-- The constant `http.StatusNotFound`. -/
def StatusNotFound : Nat := 404

/-- The Go method `Router.ServeHTTP`, with `Search` run for at most `fuel`
passes: `pooled` is the context `r.pool.Get()` hands out (a new one or one used
before), `w` the response writer and `req` the request; the result is the list
of effects in order and the router after the call. -/
def Router.ServeHTTP (fuel : Nat) (r : Router) (pooled : Context) (w : Nat) (req : Request) :
    Except Fault (List Effect × Router) := do
  let ((handler, params), r1) ← r.Search fuel req.method req.path
  let ctx1 : Context := { pooled with r := some req }
  let ctx2 : Context := { ctx1 with w := some w }
  let ctx3 : Context := { ctx2 with params := params }
  match handler with
  | some hd => pure ([Effect.invoke hd ctx3, Effect.poolPut], r1)
  | none =>
    pure ([Effect.writeHeader w StatusNotFound, Effect.write w (bytes "404 Not Found"),
      Effect.poolPut], r1)

/-- The sibling invariant of a heap: at every node, every static child has a
non-empty prefix without `':'`, and no two entries of the list of static
children have prefixes with the same first byte (so no child is listed twice and
two different children never share their first byte). -/
def SiblingInv (h : Heap) : Prop :=
  ∀ (a : Nat) (n : Node), h[a]? = some n →
    (∀ c ∈ n.children, pfxOf h c ≠ [] ∧ colon ∉ pfxOf h c) ∧
    n.children.Pairwise (fun c d => (pfxOf h c).head? ≠ (pfxOf h d).head?) ∧
    ∀ c ∈ n.children, ∀ d ∈ n.children, c ≠ d → (pfxOf h c).head? ≠ (pfxOf h d).head?

/-- What passes of the loop of `insert` keep of the param data of a heap `h` in
the heap `h'` they leave: every object of `h` keeps its `param` and keeps a
param child it had; the capture name of a param stored on a new object contains
no `'/'`. -/
structure Keeps (h h' : Heap) : Prop where
  len : h.length ≤ h'.length
  old : ∀ (a : Nat) (n : Node), h[a]? = some n → ∃ n' : Node, h'[a]? = some n' ∧
    n'.param = n.param ∧ ∀ c, n.paramChild = some c → n'.paramChild = some c
  fresh : ∀ (a : Nat) (n' : Node) (p : Param), h.length ≤ a → h'[a]? = some n' →
    n'.param = some p → slash ∉ p.key

/-! ## Theorems -/

/-! ### Strings -/

theorem colon_ne_slash : colon ≠ slash := by decide

theorem lcpIndex_append_left (s v : Str) : lcpIndex (s ++ v) s = s.length := by
  induction s with
  | nil => cases v <;> simp [lcpIndex]
  | cons x xs ih => simp [lcpIndex, ih]

theorem lcpIndex_append_append (p u w : Str) :
    lcpIndex (p ++ u) (p ++ w) = p.length + lcpIndex u w := by
  induction p with
  | nil => simp
  | cons x xs ih => simp [lcpIndex, ih]; omega

theorem indexByte_append_of_not_mem (c : Nat) (s t : Str) (hs : c ∉ s) :
    indexByte c (s ++ c :: t) = s.length := by
  induction s with
  | nil => simp [indexByte]
  | cons x xs ih =>
    simp only [List.mem_cons, not_or] at hs
    have hx : x ≠ c := fun h => hs.1 h.symm
    simp [indexByte, hx, ih hs.2]

theorem indexByte_of_not_mem (c : Nat) (s : Str) (hs : c ∉ s) :
    indexByte c s = s.length := by
  induction s with
  | nil => simp [indexByte]
  | cons x xs ih =>
    simp only [List.mem_cons, not_or] at hs
    have hx : x ≠ c := fun h => hs.1 h.symm
    simp [indexByte, hx, ih hs.2]

theorem take_indexByte_of_not_mem (c : Nat) (s : Str) (hs : c ∉ s) :
    s.take (indexByte c s) = s := by
  rw [indexByte_of_not_mem c s hs]; simp

theorem drop_indexByte_of_not_mem (c : Nat) (s : Str) (hs : c ∉ s) :
    s.drop (indexByte c s) = [] := by
  rw [indexByte_of_not_mem c s hs]; simp

/-! ### Two routes on a new router, evaluated symbolically -/

/-- C1. Param round trip: on a new router whose only registration is
`GET s + ":" + k` with handler `H` (`s` without `':'`, `k` without `'/'`),
`Search("GET", s + v)` for a non-empty `v` without `'/'` returns within one pass
of its loop, with handler `H` and the parameter list `[{k, v}]`. -/
theorem param_round_trip (s k v : Str) (H : CustomHandler) (fuel : Nat)
    (hs : colon ∉ s) (hk : slash ∉ k) (hv : v ≠ []) (hv2 : slash ∉ v) :
    ∃ r, NewRouter.GET (s ++ colon :: k) H = Except.ok r ∧
      (Router.Search (fuel + 1) r MethodGet (s ++ v)).map Prod.fst
        = Except.ok (H, [{ key := k, value := v }]) := by
  have h1 : indexByte slash (colon :: k) = k.length + 1 := by
    simp [indexByte, indexByte_of_not_mem _ _ hk, colon_ne_slash]
  cases s with
  | nil =>
    simp [Router.GET, Router.insert, insertLoop, insertStep, NewRouter, getNode, h1, bind,
      Except.bind, pure, Except.pure, modNode, newNode, bindHandler, mapSet]
    simp [Router.Search, SearchLoop, staticSearch, staticSearchLoop, getNode,
      longestCommonChild, longestCommonChildLoop, bind, Except.bind, pure, Except.pure, hv,
      backTrack, backTrackLoop, paramSearch, indexByte_of_not_mem _ _ hv2, Except.map, mapGet]
  | cons x xs =>
    simp only [List.mem_cons, not_or] at hs
    have hx : x ≠ colon := fun h => hs.1 h.symm
    have h2 : indexByte colon (x :: (xs ++ colon :: k)) = xs.length + 1 := by
      simp [indexByte, hx, indexByte_append_of_not_mem _ _ _ hs.2]
    have h3 : lcpIndex (x :: (xs ++ v)) (x :: xs) = xs.length + 1 := by
      simp [lcpIndex, lcpIndex_append_left]
    have h5 : (x :: (xs ++ colon :: k)).length = (xs.length + k.length + 1) + 1 := by
      simp; omega
    simp [Router.GET, Router.insert, h5, insertLoop, insertStep, NewRouter, getNode, h1, h2, hx,
      bind, Except.bind, pure, Except.pure, modNode, newNode, bindHandler, mapSet,
      longestCommonChild, longestCommonChildLoop]
    simp [Router.Search, SearchLoop, staticSearch, staticSearchLoop, getNode,
      longestCommonChild, longestCommonChildLoop, bind, Except.bind, pure, Except.pure, hv,
      backTrack, backTrackLoop, paramSearch, indexByte_of_not_mem _ _ hv2, Except.map, mapGet,
      h3, pfxOf]

/-- The theorem `param_round_trip` at the route `/users/:id` and the request
`/users/42`. -/
theorem param_round_trip_witness :
    ∃ r, NewRouter.GET (bytes "/users/" ++ colon :: bytes "id") (some 7) = Except.ok r ∧
      (Router.Search (0 + 1) r MethodGet (bytes "/users/" ++ bytes "42")).map Prod.fst
        = Except.ok (some 7, [{ key := bytes "id", value := bytes "42" }]) :=
  param_round_trip (bytes "/users/") (bytes "id") (bytes "42") (some 7) 0
    (by decide) (by decide) (by decide) (by decide)

/-- Registering `p + x` and then `p + y` on a new router: the heap that results
and the two searches. -/
theorem split_in_order (p x y mx my : Str) (Hx Hy : CustomHandler) (fuel : Nat)
    (hp : p ≠ []) (hpc : colon ∉ p) (hx : x ≠ []) (hxc : colon ∉ x)
    (hy : y ≠ []) (hyc : colon ∉ y) (hxy : x.head? ≠ y.head?) :
    ∃ r, registerAll [(mx, p ++ x, Hx), (my, p ++ y, Hy)] NewRouter = Except.ok r ∧
      r.heap =
        [ { isRoot := true, children := [2] },
          { pfx := x, parent := some 2, handlers := some [(mx, Hx)] },
          { pfx := p, parent := some 0, children := [1, 3], handlers := some [] },
          { pfx := y, parent := some 2, handlers := some [(my, Hy)] } ] ∧
      r.tree = 0 ∧
      (Router.Search (fuel + 1) r mx (p ++ x)).map Prod.fst = Except.ok (Hx, []) ∧
      (Router.Search (fuel + 1) r my (p ++ y)).map Prod.fst = Except.ok (Hy, []) := by
  obtain ⟨a, ps, rfl⟩ := List.exists_cons_of_ne_nil hp
  obtain ⟨b, xs, rfl⟩ := List.exists_cons_of_ne_nil hx
  obtain ⟨c, ys, rfl⟩ := List.exists_cons_of_ne_nil hy
  simp only [List.mem_cons, not_or] at hpc hxc hyc
  have hbc : b ≠ c := by simpa using hxy
  have ha : a ≠ colon := fun h => hpc.1 h.symm
  have hb : b ≠ colon := fun h => hxc.1 h.symm
  have hc : c ≠ colon := fun h => hyc.1 h.symm
  have n1 : colon ∉ a :: (ps ++ b :: xs) := by simp [hpc.2, hxc.2, Ne.symm hb, Ne.symm ha]
  have n2 : colon ∉ c :: ys := by simp [hyc.2, Ne.symm hc]
  have i1 := take_indexByte_of_not_mem _ _ n1
  have i2 := drop_indexByte_of_not_mem _ _ n1
  have i3 := take_indexByte_of_not_mem _ _ n2
  have i4 := drop_indexByte_of_not_mem _ _ n2
  have l1 : lcpIndex (a :: (ps ++ c :: ys)) (a :: (ps ++ b :: xs)) = ps.length + 1 := by
    have := lcpIndex_append_append (a :: ps) (c :: ys) (b :: xs)
    simpa [lcpIndex, Ne.symm hbc] using this
  have l2 : lcpIndex (c :: ys) (b :: xs) = 0 := by simp [lcpIndex, Ne.symm hbc]
  have l3 : lcpIndex (b :: xs) (c :: ys) = 0 := by simp [lcpIndex, hbc]
  have l4 : ∀ w : Str, lcpIndex (a :: (ps ++ w)) (a :: ps) = ps.length + 1 := by
    intro w
    simpa using lcpIndex_append_left (a :: ps) w
  have l5 : ∀ w : Str, lcpIndex w w = w.length := by
    intro w
    simpa using lcpIndex_append_left w []
  have f1 : (a :: (ps ++ b :: xs)).length = (ps.length + xs.length + 1) + 1 := by
    simp; omega
  have f2 : (a :: (ps ++ c :: ys)).length = (ps.length + ys.length + 1) + 1 := by
    simp; omega
  have hne : ¬ (ps.length + xs.length + 1 = ps.length) := by omega
  simp [registerAll, Router.insert, f1, f2, insertLoop, insertStep, NewRouter, getNode, i1, i2,
    i3, i4, l1, l2, ha, hb, hc, hne, bind, Except.bind, pure, Except.pure, modNode, newNode,
    bindHandler, mapSet, longestCommonChild, longestCommonChildLoop, pfxOf, RemoveChild,
    removeChildLoop]
  simp [Router.Search, SearchLoop, staticSearch, staticSearchLoop, getNode,
    longestCommonChild, longestCommonChildLoop, bind, Except.bind, pure, Except.pure,
    Except.map, mapGet, l2, l3, l4, l5, pfxOf]

/-- C3. Split correctness independent of order: for a non-empty static `p` and
non-empty static `x`, `y` with different first bytes, registering `p + x` and
`p + y` on a new router, in this order or in the other, gives a root whose only
static child (at address 2) has prefix `p`, no param child and an empty handler
map, and has exactly the two static children with prefixes `x` and `y` (listed
in registration order), each holding its own handler; `Search` resolves `p + x`
and `p + y` each to its own handler with no parameters. -/
theorem split_either_order (p x y mx my : Str) (Hx Hy : CustomHandler) (fuel : Nat)
    (hp : p ≠ []) (hpc : colon ∉ p) (hx : x ≠ []) (hxc : colon ∉ x)
    (hy : y ≠ []) (hyc : colon ∉ y) (hxy : x.head? ≠ y.head?) :
    (∃ r, registerAll [(mx, p ++ x, Hx), (my, p ++ y, Hy)] NewRouter = Except.ok r ∧
      r.heap =
        [ { isRoot := true, children := [2] },
          { pfx := x, parent := some 2, handlers := some [(mx, Hx)] },
          { pfx := p, parent := some 0, children := [1, 3], handlers := some [] },
          { pfx := y, parent := some 2, handlers := some [(my, Hy)] } ] ∧
      r.tree = 0 ∧
      (Router.Search (fuel + 1) r mx (p ++ x)).map Prod.fst = Except.ok (Hx, []) ∧
      (Router.Search (fuel + 1) r my (p ++ y)).map Prod.fst = Except.ok (Hy, [])) ∧
    (∃ r, registerAll [(my, p ++ y, Hy), (mx, p ++ x, Hx)] NewRouter = Except.ok r ∧
      r.heap =
        [ { isRoot := true, children := [2] },
          { pfx := y, parent := some 2, handlers := some [(my, Hy)] },
          { pfx := p, parent := some 0, children := [1, 3], handlers := some [] },
          { pfx := x, parent := some 2, handlers := some [(mx, Hx)] } ] ∧
      r.tree = 0 ∧
      (Router.Search (fuel + 1) r mx (p ++ x)).map Prod.fst = Except.ok (Hx, []) ∧
      (Router.Search (fuel + 1) r my (p ++ y)).map Prod.fst = Except.ok (Hy, [])) := by
  refine ⟨split_in_order p x y mx my Hx Hy fuel hp hpc hx hxc hy hyc hxy, ?_⟩
  obtain ⟨r, h1, h2, h3, h4, h5⟩ :=
    split_in_order p y x my mx Hy Hx fuel hp hpc hy hyc hx hxc (fun h => hxy h.symm)
  exact ⟨r, h1, h2, h3, h5, h4⟩

/-- The theorem `split_either_order` at `/cat` and `/car`. -/
theorem split_either_order_witness :
    (∃ r, registerAll [(MethodGet, bytes "/ca" ++ bytes "t", some 1),
        (MethodGet, bytes "/ca" ++ bytes "r", some 2)] NewRouter = Except.ok r ∧
      r.heap =
        [ { isRoot := true, children := [2] },
          { pfx := bytes "t", parent := some 2, handlers := some [(MethodGet, some 1)] },
          { pfx := bytes "/ca", parent := some 0, children := [1, 3], handlers := some [] },
          { pfx := bytes "r", parent := some 2, handlers := some [(MethodGet, some 2)] } ] ∧
      r.tree = 0 ∧
      (Router.Search (0 + 1) r MethodGet (bytes "/ca" ++ bytes "t")).map Prod.fst
        = Except.ok (some 1, []) ∧
      (Router.Search (0 + 1) r MethodGet (bytes "/ca" ++ bytes "r")).map Prod.fst
        = Except.ok (some 2, [])) ∧
    (∃ r, registerAll [(MethodGet, bytes "/ca" ++ bytes "r", some 2),
        (MethodGet, bytes "/ca" ++ bytes "t", some 1)] NewRouter = Except.ok r ∧
      r.heap =
        [ { isRoot := true, children := [2] },
          { pfx := bytes "r", parent := some 2, handlers := some [(MethodGet, some 2)] },
          { pfx := bytes "/ca", parent := some 0, children := [1, 3], handlers := some [] },
          { pfx := bytes "t", parent := some 2, handlers := some [(MethodGet, some 1)] } ] ∧
      r.tree = 0 ∧
      (Router.Search (0 + 1) r MethodGet (bytes "/ca" ++ bytes "t")).map Prod.fst
        = Except.ok (some 1, []) ∧
      (Router.Search (0 + 1) r MethodGet (bytes "/ca" ++ bytes "r")).map Prod.fst
        = Except.ok (some 2, [])) :=
  split_either_order (bytes "/ca") (bytes "t") (bytes "r") MethodGet MethodGet (some 1) (some 2) 0
    (by decide) (by decide) (by decide) (by decide) (by decide) (by decide) (by decide)

/-! ### Requests that stop inside an edge, and requests that match nothing -/

/-- C4 at a failing input: with the routes `GET /a/bc` (handler 1) and
`GET /a/:id` (handler 2), `Search("GET", "/a/b")` returns the static handler 1
with no parameters, and `Search("GET", "/a/bd")` returns the param handler with
`id = "bcd"`; the claim asks for handler 2 with `id = "b"` and `id = "bd"`. -/
theorem static_before_param_short_segment :
    (registerAll [(MethodGet, bytes "/a/bc", some 1), (MethodGet, bytes "/a/:id", some 2)]
        NewRouter >>= fun r => (r.Search 3 MethodGet (bytes "/a/b")).map Prod.fst)
      = Except.ok (some 1, []) ∧
    (registerAll [(MethodGet, bytes "/a/bc", some 1), (MethodGet, bytes "/a/:id", some 2)]
        NewRouter >>= fun r => (r.Search 3 MethodGet (bytes "/a/bd")).map Prod.fst)
      = Except.ok (some 2, [{ key := bytes "id", value := bytes "bcd" }]) := by
  decide

/-- C5 at a failing input: with the single route `GET /cat` (handler 1),
`Search("GET", "/ca")` returns handler 1. -/
theorem strict_prefix_of_route_resolves :
    (registerAll [(MethodGet, bytes "/cat", some 1)] NewRouter >>= fun r =>
        (r.Search 3 MethodGet (bytes "/ca")).map Prod.fst) = Except.ok (some 1, []) := by
  decide

/-- On a new router every search for a non-empty path panics: `backTrack` goes
from the root to its nil parent and reads `paramChild` through it. -/
theorem search_new_router_panics (fuel : Nat) (m q : Str) (hq : q ≠ []) :
    NewRouter.Search (fuel + 1) m q = Except.error Fault.nilDeref := by
  simp [Router.Search, SearchLoop, staticSearch, staticSearchLoop, NewRouter, getNode,
    longestCommonChild, longestCommonChildLoop, bind, Except.bind, pure, Except.pure, hq,
    backTrack, backTrackLoop]

/-- C6 at a failing input: on the router from `NewRouter`,
`Search("GET", "/nope")` panics with a nil dereference, for every budget of
passes. -/
theorem search_unmatched_panics (fuel : Nat) :
    NewRouter.Search (fuel + 1) MethodGet (bytes "/nope") = Except.error Fault.nilDeref :=
  search_new_router_panics fuel MethodGet (bytes "/nope") (by decide)

/-! ### What `Search` reads and writes -/

theorem clearValue_eq {n1 n2 : Node} (h : n1.clearValue = n2.clearValue) :
    n1.isRoot = n2.isRoot ∧ n1.pfx = n2.pfx ∧ n1.children = n2.children ∧
    n1.paramChild = n2.paramChild ∧ n1.parent = n2.parent ∧ n1.nodeType = n2.nodeType ∧
    n1.handlers = n2.handlers ∧ n1.param.map Param.key = n2.param.map Param.key := by
  cases n1 with
  | mk r1 p1 c1 pc1 pa1 t1 pm1 hd1 =>
  cases n2 with
  | mk r2 p2 c2 pc2 pa2 t2 pm2 hd2 =>
  simp only [Node.clearValue, Node.mk.injEq] at h
  obtain ⟨h1, h2, h3, h4, h5, h6, h7, h8⟩ := h
  refine ⟨h1, h2, h3, h4, h5, h6, h8, ?_⟩
  cases pm1 <;> cases pm2 <;> simp_all

theorem eraseValues_getElem? (h : Heap) (a : Nat) :
    (eraseValues h)[a]? = (h[a]?).map Node.clearValue := by
  simp [eraseValues]

theorem getNode_of_eraseValues_eq {h1 h2 : Heap} (heq : eraseValues h1 = eraseValues h2)
    (a : Nat) :
    (∃ n1 n2, h1[a]? = some n1 ∧ h2[a]? = some n2 ∧ n1.clearValue = n2.clearValue) ∨
    (h1[a]? = none ∧ h2[a]? = none) := by
  have h := congrArg (fun l => l[a]?) heq
  simp only [eraseValues_getElem?] at h
  cases e1 : h1[a]? with
  | none =>
    cases e2 : h2[a]? with
    | none => exact Or.inr ⟨rfl, rfl⟩
    | some n2 => simp [e1, e2] at h
  | some n1 =>
    cases e2 : h2[a]? with
    | none => simp [e1, e2] at h
    | some n2 =>
      simp [e1, e2] at h
      exact Or.inl ⟨n1, n2, rfl, rfl, h⟩

theorem pfxOf_of_eraseValues_eq {h1 h2 : Heap} (heq : eraseValues h1 = eraseValues h2)
    (a : Nat) : pfxOf h1 a = pfxOf h2 a := by
  rcases getNode_of_eraseValues_eq heq a with ⟨n1, n2, e1, e2, hc⟩ | ⟨e1, e2⟩
  · simp [pfxOf, e1, e2, (clearValue_eq hc).2.1]
  · simp [pfxOf, e1, e2]

theorem longestCommonChildLoop_of_eraseValues_eq {h1 h2 : Heap}
    (heq : eraseValues h1 = eraseValues h2) (e : Str) (cs : List Nat) (m : Nat)
    (nx : Option Nat) :
    longestCommonChildLoop h1 e cs m nx = longestCommonChildLoop h2 e cs m nx := by
  induction cs generalizing m nx with
  | nil => rfl
  | cons c cs ih =>
    simp only [longestCommonChildLoop, pfxOf_of_eraseValues_eq heq c, ih]

theorem staticSearchLoop_of_eraseValues_eq {h1 h2 : Heap}
    (heq : eraseValues h1 = eraseValues h2) (fuel cur : Nat) (e : Str) :
    staticSearchLoop fuel h1 cur e = staticSearchLoop fuel h2 cur e := by
  induction fuel generalizing cur e with
  | zero => rfl
  | succ fuel ih =>
    rcases getNode_of_eraseValues_eq heq cur with ⟨n1, n2, e1, e2, hc⟩ | ⟨e1, e2⟩
    · have hl : longestCommonChild h1 n1 e = longestCommonChild h2 n2 e := by
        simp [longestCommonChild, (clearValue_eq hc).2.2.1,
          longestCommonChildLoop_of_eraseValues_eq heq]
      cases hn : longestCommonChild h2 n2 e with
      | none =>
        simp [staticSearchLoop, getNode, e1, e2, hl, hn, bind, Except.bind]
      | some c =>
        rcases getNode_of_eraseValues_eq heq c with ⟨m1, m2, f1, f2, hd⟩ | ⟨f1, f2⟩
        · simp [staticSearchLoop, getNode, e1, e2, hl, hn, f1, f2, bind, Except.bind,
            (clearValue_eq hd).2.1, ih]
        · simp [staticSearchLoop, getNode, e1, e2, hl, hn, f1, f2, bind, Except.bind]
    · simp [staticSearchLoop, getNode, e1, e2, bind, Except.bind]

theorem length_of_eraseValues_eq {h1 h2 : Heap} (heq : eraseValues h1 = eraseValues h2) :
    h1.length = h2.length := by
  have := congrArg List.length heq
  simpa [eraseValues] using this

theorem backTrackLoop_of_eraseValues_eq {h1 h2 : Heap}
    (heq : eraseValues h1 = eraseValues h2) (fuel : Nat) (n : Option Nat) (e : Str) :
    backTrackLoop fuel h1 n e = backTrackLoop fuel h2 n e := by
  induction fuel generalizing n e with
  | zero => rfl
  | succ fuel ih =>
    cases n with
    | none => rfl
    | some a =>
      rcases getNode_of_eraseValues_eq heq a with ⟨n1, n2, e1, e2, hc⟩ | ⟨e1, e2⟩
      · obtain ⟨-, hp, -, hpc, hpa, -⟩ := clearValue_eq hc
        simp [backTrackLoop, getNode, e1, e2, bind, Except.bind, hp, hpc, hpa, ih]
      · simp [backTrackLoop, getNode, e1, e2, bind, Except.bind]

theorem eraseValues_set {h : Heap} {a : Nat} {n n' : Node} (ha : h[a]? = some n)
    (hn : n'.clearValue = n.clearValue) : eraseValues (h.set a n') = eraseValues h := by
  apply List.ext_getElem?
  intro i
  simp only [eraseValues_getElem?, List.getElem?_set]
  by_cases hi : a = i
  · subst hi
    have hlt : a < h.length := by
      rcases Nat.lt_or_ge a h.length with hlt | hge
      · exact hlt
      · rw [List.getElem?_eq_none hge] at ha; cases ha
    simp [hlt, ha, hn]
  · simp [hi]

theorem lt_length_of_getElem? {h : Heap} {a : Nat} {n : Node} (ha : h[a]? = some n) :
    a < h.length := by
  rcases Nat.lt_or_ge a h.length with hlt | hge
  · exact hlt
  · rw [List.getElem?_eq_none hge] at ha; cases ha

theorem getElem?_set_same {h : Heap} {a : Nat} {n : Node} (ha : h[a]? = some n) (x : Node) :
    (h.set a x)[a]? = some x := by
  simp [lt_length_of_getElem? ha]

theorem paramSearch_ok {h h' : Heap} {a pc : Nat} {e e' : Str}
    (hp : paramSearch h a e = Except.ok (h', pc, e')) :
    ∃ n pn p, h[a]? = some n ∧ n.paramChild = some pc ∧ h[pc]? = some pn ∧ pn.param = some p ∧
      h' = h.set pc { pn with param := some { p with value := e.take (indexByte slash e) } } ∧
      e' = e.drop (indexByte slash e) := by
  unfold paramSearch getNode at hp
  cases e1 : h[a]? with
  | none => simp [e1, bind, Except.bind] at hp
  | some n =>
    cases e2 : n.paramChild with
    | none => simp [e1, e2, bind, Except.bind] at hp
    | some c =>
      cases e3 : h[c]? with
      | none => simp [e1, e2, e3, bind, Except.bind] at hp
      | some pn =>
        cases e4 : pn.param with
        | none => simp [e1, e2, e3, e4, bind, Except.bind] at hp
        | some p =>
          simp [e1, e2, e3, e4, bind, Except.bind, pure, Except.pure] at hp
          obtain ⟨h1, h2, h3⟩ := hp
          subst h2
          exact ⟨n, pn, p, rfl, e2, e3, e4, h1.symm, h3.symm⟩

theorem paramSearch_eraseValues {h h' : Heap} {a pc : Nat} {e e' : Str}
    (hp : paramSearch h a e = Except.ok (h', pc, e')) : eraseValues h' = eraseValues h := by
  obtain ⟨n, pn, p, -, -, h3, h4, rfl, -⟩ := paramSearch_ok hp
  apply eraseValues_set h3
  simp [Node.clearValue, h4]

/-- The loop of `Search` changes nothing in the heap but stored param values. -/
theorem SearchLoop_eraseValues (fuel : Nat) (h : Heap) (cur : Nat) (m e : Str)
    (ps : List Param) (res : CustomHandler × List Param) (h' : Heap)
    (hs : SearchLoop fuel h cur m e ps = Except.ok (res, h')) :
    eraseValues h' = eraseValues h := by
  induction fuel generalizing h cur e ps with
  | zero => simp [SearchLoop] at hs
  | succ fuel ih =>
    unfold SearchLoop at hs
    cases e1 : staticSearch h cur e with
    | error err => simp [e1, bind, Except.bind] at hs
    | ok v1 =>
      obtain ⟨cur1, r1⟩ := v1
      by_cases hr : r1 = []
      · cases e2 : getNode h cur1 with
        | error err => simp [e1, hr, e2, bind, Except.bind] at hs
        | ok n =>
          simp [e1, hr, e2, bind, Except.bind, pure, Except.pure] at hs
          rw [hs.2]
      · cases e2 : backTrack h (some cur1) r1 with
        | error err => simp [e1, hr, e2, bind, Except.bind] at hs
        | ok v2 =>
          obtain ⟨cur2, r2⟩ := v2
          cases cur2 with
          | none =>
            simp [e1, hr, e2, bind, Except.bind, pure, Except.pure] at hs
            rw [hs.2]
          | some a =>
            cases e3 : paramSearch h a r2 with
            | error err => simp [e1, hr, e2, e3, bind, Except.bind] at hs
            | ok v3 =>
              obtain ⟨h1, cur3, r3⟩ := v3
              have hh := paramSearch_eraseValues e3
              cases e4 : getNode h1 cur3 with
              | error err => simp [e1, hr, e2, e3, e4, bind, Except.bind] at hs
              | ok n =>
                cases e5 : n.param with
                | none => simp [e1, hr, e2, e3, e4, e5, bind, Except.bind] at hs
                | some p =>
                  by_cases h3 : r3 = []
                  · simp [e1, hr, e2, e3, e4, e5, h3, bind, Except.bind, pure, Except.pure] at hs
                    rw [← hs.2, hh]
                  · simp [e1, hr, e2, e3, e4, e5, h3, bind, Except.bind] at hs
                    rw [ih _ _ _ _ hs, hh]

theorem staticSearch_of_eraseValues_eq {h1 h2 : Heap}
    (heq : eraseValues h1 = eraseValues h2) (cur : Nat) (e : Str) :
    staticSearch h1 cur e = staticSearch h2 cur e :=
  staticSearchLoop_of_eraseValues_eq heq _ cur e

theorem backTrack_of_eraseValues_eq {h1 h2 : Heap}
    (heq : eraseValues h1 = eraseValues h2) (n : Option Nat) (e : Str) :
    backTrack h1 n e = backTrack h2 n e := by
  unfold backTrack
  rw [length_of_eraseValues_eq heq, backTrackLoop_of_eraseValues_eq heq]

theorem getNode_handlers_of_eraseValues_eq {h1 h2 : Heap}
    (heq : eraseValues h1 = eraseValues h2) (a : Nat) :
    (getNode h1 a).map Node.handlers = (getNode h2 a).map Node.handlers := by
  rcases getNode_of_eraseValues_eq heq a with ⟨n1, n2, e1, e2, hc⟩ | ⟨e1, e2⟩
  · simp [getNode, e1, e2, Except.map, (clearValue_eq hc).2.2.2.2.2.2.1]
  · simp [getNode, e1, e2, Except.map]

/-- What `Search` does after `backTrack` has found a node with a param child,
up to the test `endpoint == ""`: the captured parameter, the handler map of the
param node and the rest of the path. -/
theorem paramSearch_read_of_eraseValues_eq {h1 h2 : Heap}
    (heq : eraseValues h1 = eraseValues h2) (a : Nat) (e : Str) :
    (∃ err, paramSearch h1 a e = Except.error err ∧ paramSearch h2 a e = Except.error err) ∨
    (∃ g1 g2 pc e' n1 n2 p, paramSearch h1 a e = Except.ok (g1, pc, e') ∧
      paramSearch h2 a e = Except.ok (g2, pc, e') ∧
      getNode g1 pc = Except.ok n1 ∧ getNode g2 pc = Except.ok n2 ∧
      n1.param = some p ∧ n2.param = some p ∧ n1.handlers = n2.handlers ∧
      eraseValues g1 = eraseValues g2) := by
  rcases getNode_of_eraseValues_eq heq a with ⟨n1, n2, e1, e2, hc⟩ | ⟨e1, e2⟩
  · have hpc := (clearValue_eq hc).2.2.2.1
    cases e3 : n2.paramChild with
    | none =>
      left
      exact ⟨Fault.nilDeref, by simp [paramSearch, getNode, e1, hpc, e3, bind, Except.bind],
        by simp [paramSearch, getNode, e2, e3, bind, Except.bind]⟩
    | some pc =>
      rcases getNode_of_eraseValues_eq heq pc with ⟨m1, m2, f1, f2, hd⟩ | ⟨f1, f2⟩
      · obtain ⟨-, -, -, -, -, -, hhd, hk⟩ := clearValue_eq hd
        cases e4 : m1.param with
        | none =>
          have e5 : m2.param = none := by
            cases e5 : m2.param with
            | none => rfl
            | some q => simp [e4, e5] at hk
          left
          exact ⟨Fault.nilDeref,
            by simp [paramSearch, getNode, e1, hpc, e3, f1, e4, bind, Except.bind],
            by simp [paramSearch, getNode, e2, e3, f2, e5, bind, Except.bind]⟩
        | some p1 =>
          cases e5 : m2.param with
          | none => simp [e4, e5] at hk
          | some p2 =>
            have hkey : p1.key = p2.key := by simpa [e4, e5] using hk
            right
            refine ⟨h1.set pc { m1 with param := some { p1 with value := e.take (indexByte slash e) } },
              h2.set pc { m2 with param := some { p2 with value := e.take (indexByte slash e) } },
              pc, e.drop (indexByte slash e),
              { m1 with param := some { p1 with value := e.take (indexByte slash e) } },
              { m2 with param := some { p2 with value := e.take (indexByte slash e) } },
              { key := p1.key, value := e.take (indexByte slash e) }, ?_, ?_, ?_, ?_, rfl, ?_, ?_, ?_⟩
            · simp [paramSearch, getNode, e1, hpc, e3, f1, e4, bind, Except.bind, pure,
                Except.pure]
            · simp [paramSearch, getNode, e2, e3, f2, e5, bind, Except.bind, pure,
                Except.pure]
            · simp [getNode, getElem?_set_same f1]
            · simp [getNode, getElem?_set_same f2]
            · simp [hkey]
            · exact hhd
            · rw [eraseValues_set f1 (by simp [Node.clearValue, e4]),
                eraseValues_set f2 (by simp [Node.clearValue, e5])]
              exact heq
      · left
        exact ⟨Fault.badAddr,
          by simp [paramSearch, getNode, e1, hpc, e3, f1, bind, Except.bind],
          by simp [paramSearch, getNode, e2, e3, f2, bind, Except.bind]⟩
  · left
    exact ⟨Fault.badAddr, by simp [paramSearch, getNode, e1, bind, Except.bind],
      by simp [paramSearch, getNode, e2, bind, Except.bind]⟩

/-- The pair `Search` returns does not depend on the param values stored in
the heap. -/
theorem SearchLoop_of_eraseValues_eq (fuel : Nat) (h1 h2 : Heap)
    (heq : eraseValues h1 = eraseValues h2) (cur : Nat) (m e : Str) (ps : List Param) :
    (SearchLoop fuel h1 cur m e ps).map Prod.fst = (SearchLoop fuel h2 cur m e ps).map Prod.fst := by
  induction fuel generalizing h1 h2 cur e ps with
  | zero => rfl
  | succ fuel ih =>
    unfold SearchLoop
    rw [staticSearch_of_eraseValues_eq heq]
    cases e1 : staticSearch h2 cur e with
    | error err => rfl
    | ok v1 =>
      obtain ⟨cur1, r1⟩ := v1
      by_cases hr : r1 = []
      · have hh := getNode_handlers_of_eraseValues_eq heq cur1
        cases f1 : getNode h1 cur1 <;> cases f2 : getNode h2 cur1 <;>
          simp [f1, f2, Except.map] at hh <;>
          simp [hr, f1, f2, hh, bind, Except.bind, pure, Except.pure, Except.map]
      · simp only [hr, if_false, bind, Except.bind]
        rw [backTrack_of_eraseValues_eq heq]
        cases e2 : backTrack h2 (some cur1) r1 with
        | error err => rfl
        | ok v2 =>
          obtain ⟨cur2, r2⟩ := v2
          cases cur2 with
          | none => rfl
          | some a =>
            rcases paramSearch_read_of_eraseValues_eq heq a r2 with
              ⟨err, g1, g2⟩ | ⟨g1, g2, pc, e', n1, n2, p, q1, q2, q3, q4, q5, q6, q7, q8⟩
            · simp [g1, g2, Except.map]
            · by_cases h3 : e' = []
              · simp [q1, q2, q3, q4, q5, q6, q7, h3, Except.map, pure, Except.pure]
              · simp only [q1, q2, q3, q4, q5, q6, h3, if_false]
                exact ih g1 g2 q8 pc e' _

/-! ### Search and the stored param values -/

theorem usersRouter_registered :
    NewRouter.GET (bytes "/users/:id") (some 1) = Except.ok usersRouter := by decide

theorem Search_of_eraseValues_eq (fuel : Nat) (r1 r2 : Router) (ht : r1.tree = r2.tree)
    (heq : eraseValues r1.heap = eraseValues r2.heap) (m e : Str) :
    (r1.Search fuel m e).map Prod.fst = (r2.Search fuel m e).map Prod.fst := by
  have h := SearchLoop_of_eraseValues_eq fuel r1.heap r2.heap heq r1.tree m e []
  rw [ht] at h
  unfold Router.Search
  cases f1 : SearchLoop fuel r1.heap r2.tree m e [] <;>
    cases f2 : SearchLoop fuel r2.heap r2.tree m e [] <;>
    simp [f1, f2, Except.map] at h <;>
    simp [ht, f1, f2, h, bind, Except.bind, pure, Except.pure, Except.map]

theorem Search_eraseValues (fuel : Nat) (r r' : Router) (m e : Str)
    (res : CustomHandler × List Param) (hs : r.Search fuel m e = Except.ok (res, r')) :
    r'.tree = r.tree ∧ eraseValues r'.heap = eraseValues r.heap := by
  unfold Router.Search at hs
  cases f : SearchLoop fuel r.heap r.tree m e [] with
  | error err => simp [f, bind, Except.bind] at hs
  | ok v =>
    obtain ⟨res1, h1⟩ := v
    simp [f, bind, Except.bind, pure, Except.pure] at hs
    obtain ⟨-, rfl⟩ := hs
    exact ⟨rfl, SearchLoop_eraseValues fuel r.heap r.tree m e [] res1 h1 f⟩

/-- C9, as the code has it: when `Search` returns, the root pointer is unchanged
and every object of the heap is what it was before the call up to the value
stored in its `param` (prefix, children, param child, parent, node type, handlers
and param key are unchanged; no object is added or removed). -/
theorem search_changes_only_param_values (fuel : Nat) (r r' : Router) (m e : Str)
    (res : CustomHandler × List Param) (hs : r.Search fuel m e = Except.ok (res, r')) :
    r'.tree = r.tree ∧ eraseValues r'.heap = eraseValues r.heap :=
  Search_eraseValues fuel r r' m e res hs

/-- The theorem `search_changes_only_param_values` at `usersRouter` and the
request `GET /users/42`. -/
theorem search_changes_only_param_values_witness :
    usersRouter.Search 1 MethodGet (bytes "/users/42")
        = Except.ok ((some 1, [{ key := bytes "id", value := bytes "42" }]), usersRouterAfter) ∧
      usersRouterAfter.tree = usersRouter.tree ∧
      eraseValues usersRouterAfter.heap = eraseValues usersRouter.heap :=
  ⟨by decide, search_changes_only_param_values 1 usersRouter usersRouterAfter MethodGet
    (bytes "/users/42") (some 1, [{ key := bytes "id", value := bytes "42" }]) (by decide)⟩

/-- C9 as stated fails: on the router with the single route `GET /users/:id`,
`Search("GET", "/users/42")` returns and leaves a router different from the one
before the call: the param node at address 2 now stores the value `42`. -/
theorem search_stores_value_on_node :
    (NewRouter.GET (bytes "/users/:id") (some 1) >>= fun r =>
      (r.Search 1 MethodGet (bytes "/users/42")).map fun out =>
        (decide (out.2 = r), (getNode r.heap 2).map Node.param,
          (getNode out.2.heap 2).map Node.param))
      = Except.ok (false, Except.ok (some { key := bytes "id", value := [] }),
          Except.ok (some { key := bytes "id", value := bytes "42" })) := by
  decide

/-- C10. No residual state between resolutions: if `Search(m', q)` returns on
router `r` and leaves router `r1`, then `Search(m, p)` run after it (on `r1`)
gives exactly what it gives when run instead of it (on `r`): the same handler
and parameter list, or the same failure, for every budget of passes. -/
theorem search_unaffected_by_earlier_search (fuel1 fuel2 : Nat) (r r1 : Router)
    (m' q m p : Str) (res1 : CustomHandler × List Param)
    (h1 : r.Search fuel1 m' q = Except.ok (res1, r1)) :
    (r1.Search fuel2 m p).map Prod.fst = (r.Search fuel2 m p).map Prod.fst := by
  obtain ⟨ht, hh⟩ := Search_eraseValues fuel1 r r1 m' q res1 h1
  exact Search_of_eraseValues_eq fuel2 r1 r ht hh m p

/-- The theorem `search_unaffected_by_earlier_search` at `usersRouter`:
`Search("GET", "/users/7")` after `Search("GET", "/users/42")`. -/
theorem search_unaffected_by_earlier_search_witness :
    usersRouter.Search 1 MethodGet (bytes "/users/42")
        = Except.ok ((some 1, [{ key := bytes "id", value := bytes "42" }]), usersRouterAfter) ∧
      (usersRouterAfter.Search 1 MethodGet (bytes "/users/7")).map Prod.fst
        = (usersRouter.Search 1 MethodGet (bytes "/users/7")).map Prod.fst :=
  ⟨by decide, search_unaffected_by_earlier_search 1 1 usersRouter usersRouterAfter MethodGet
    (bytes "/users/42") MethodGet (bytes "/users/7")
    (some 1, [{ key := bytes "id", value := bytes "42" }]) (by decide)⟩

/-! ### Heap cells -/

theorem getElem?_append_old {h : Heap} {x : Nat} (n : Node) (hx : x < h.length) :
    (h ++ [n])[x]? = h[x]? :=
  List.getElem?_append_left hx

theorem getElem?_append_new (h : Heap) (n : Node) : (h ++ [n])[h.length]? = some n := by
  simp

theorem modNode_length (h : Heap) (a : Nat) (f : Node → Node) :
    (modNode h a f).length = h.length := by
  unfold modNode
  cases h[a]? <;> simp

theorem modNode_same {h : Heap} {a : Nat} {n : Node} (ha : h[a]? = some n) (f : Node → Node) :
    (modNode h a f)[a]? = some (f n) := by
  unfold modNode
  simp [ha, lt_length_of_getElem? ha]

theorem modNode_ne {h : Heap} {a b : Nat} (hab : a ≠ b) (f : Node → Node) :
    (modNode h a f)[b]? = h[b]? := by
  unfold modNode
  cases h[a]? <;> simp [hab]

theorem getNode_eq_ok {h : Heap} {a : Nat} {n : Node} (ha : h[a]? = some n) :
    getNode h a = Except.ok n := by
  simp [getNode, ha]

theorem pfxOf_eq {h : Heap} {a : Nat} {n : Node} (ha : h[a]? = some n) : pfxOf h a = n.pfx := by
  simp [pfxOf, ha]

/-! ### Common initial runs and byte search -/

theorem lcpIndex_le_left (a b : Str) : lcpIndex a b ≤ a.length := by
  induction a generalizing b with
  | nil => simp [lcpIndex]
  | cons x xs ih =>
    cases b with
    | nil => simp [lcpIndex]
    | cons y ys =>
      by_cases hxy : x = y
      · simp [lcpIndex, hxy, ih ys]
      · simp [lcpIndex, hxy]

theorem lcpIndex_le_right (a b : Str) : lcpIndex a b ≤ b.length := by
  induction a generalizing b with
  | nil => simp [lcpIndex]
  | cons x xs ih =>
    cases b with
    | nil => simp [lcpIndex]
    | cons y ys =>
      by_cases hxy : x = y
      · simp [lcpIndex, hxy, ih ys]
      · simp [lcpIndex, hxy]

theorem take_lcpIndex (a b : Str) : a.take (lcpIndex a b) = b.take (lcpIndex a b) := by
  induction a generalizing b with
  | nil => simp [lcpIndex]
  | cons x xs ih =>
    cases b with
    | nil => simp [lcpIndex]
    | cons y ys =>
      by_cases hxy : x = y
      · simp [lcpIndex, hxy, ih ys]
      · simp [lcpIndex, hxy]

theorem lcpIndex_pos_iff (a b : Str) :
    0 < lcpIndex a b ↔ a ≠ [] ∧ a.head? = b.head? := by
  cases a with
  | nil => simp [lcpIndex]
  | cons x xs =>
    cases b with
    | nil => simp [lcpIndex]
    | cons y ys =>
      by_cases hxy : x = y
      · simp [lcpIndex, hxy]
      · simp [lcpIndex, hxy]

theorem lcpIndex_eq_zero_iff (a b : Str) :
    lcpIndex a b = 0 ↔ (a = [] ∨ a.head? ≠ b.head?) := by
  have := lcpIndex_pos_iff a b
  constructor
  · intro h
    by_contra hc
    push_neg at hc
    have := this.mpr hc
    omega
  · intro h
    by_contra hc
    have hp : 0 < lcpIndex a b := Nat.pos_of_ne_zero hc
    have := this.mp hp
    rcases h with h | h
    · exact this.1 h
    · exact h this.2

theorem lcpIndex_eq_length_iff (e p : Str) :
    lcpIndex e p = p.length ↔ ∃ t, e = p ++ t := by
  constructor
  · intro h
    refine ⟨e.drop p.length, ?_⟩
    have h1 := take_lcpIndex e p
    rw [h] at h1
    simp only [List.take_length] at h1
    have h2 := List.take_append_drop p.length e
    rw [h1] at h2
    exact h2.symm
  · rintro ⟨t, rfl⟩
    exact lcpIndex_append_left p t

theorem indexByte_le (c : Nat) (e : Str) : indexByte c e ≤ e.length := by
  induction e with
  | nil => simp [indexByte]
  | cons x xs ih =>
    by_cases hx : x = c
    · simp [indexByte, hx]
    · simp [indexByte, hx, ih]

theorem not_mem_take_indexByte (c : Nat) (e : Str) : c ∉ e.take (indexByte c e) := by
  induction e with
  | nil => simp [indexByte]
  | cons x xs ih =>
    by_cases hx : x = c
    · simp [indexByte, hx]
    · simp [indexByte, hx, ih, Ne.symm hx]

theorem drop_indexByte_head (c : Nat) (e : Str) :
    e.drop (indexByte c e) = [] ∨ (e.drop (indexByte c e)).head? = some c := by
  induction e with
  | nil => simp [indexByte]
  | cons x xs ih =>
    by_cases hx : x = c
    · simp [indexByte, hx]
    · simpa [indexByte, hx] using ih

theorem indexByte_pos (c : Nat) (e : Str) (he : e ≠ []) (hc : e.head? ≠ some c) :
    0 < indexByte c e := by
  cases e with
  | nil => exact absurd rfl he
  | cons x xs =>
    have hx : x ≠ c := by simpa using hc
    simp [indexByte, hx]

/-! ### `longestCommonChild` -/

theorem longestCommonChildLoop_some {h : Heap} {e : Str} {cs : List Nat} {m : Nat}
    {nx : Option Nat} {c : Nat} (hl : longestCommonChildLoop h e cs m nx = some c) :
    nx = some c ∨ (c ∈ cs ∧ m < lcpIndex e (pfxOf h c)) := by
  induction cs generalizing m nx with
  | nil => left; simpa [longestCommonChildLoop] using hl
  | cons d ds ih =>
    unfold longestCommonChildLoop at hl
    by_cases hd : m < lcpIndex e (pfxOf h d)
    · simp only [hd, if_true] at hl
      rcases ih hl with h1 | ⟨h1, h2⟩
      · right
        have : d = c := by simpa using h1
        subst this
        exact ⟨List.mem_cons_self _ _, hd⟩
      · right
        exact ⟨List.mem_cons_of_mem _ h1, by omega⟩
    · simp only [hd, if_false] at hl
      rcases ih hl with h1 | ⟨h1, h2⟩
      · left; exact h1
      · right; exact ⟨List.mem_cons_of_mem _ h1, h2⟩

theorem longestCommonChildLoop_none {h : Heap} {e : Str} {cs : List Nat} {m : Nat}
    {nx : Option Nat} (hl : longestCommonChildLoop h e cs m nx = none) :
    nx = none ∧ ∀ c ∈ cs, lcpIndex e (pfxOf h c) ≤ m := by
  induction cs generalizing m nx with
  | nil => simpa [longestCommonChildLoop] using hl
  | cons d ds ih =>
    unfold longestCommonChildLoop at hl
    by_cases hd : m < lcpIndex e (pfxOf h d)
    · simp only [hd, if_true] at hl
      have := (ih hl).1
      cases this
    · simp only [hd, if_false] at hl
      obtain ⟨h1, h2⟩ := ih hl
      refine ⟨h1, ?_⟩
      intro c hc
      rcases List.mem_cons.mp hc with rfl | hc
      · omega
      · exact h2 c hc

theorem longestCommonChildLoop_all_zero {h : Heap} {e : Str} {cs : List Nat} {m : Nat}
    {nx : Option Nat} (hz : ∀ c ∈ cs, lcpIndex e (pfxOf h c) = 0) :
    longestCommonChildLoop h e cs m nx = nx := by
  induction cs generalizing m nx with
  | nil => rfl
  | cons d ds ih =>
    unfold longestCommonChildLoop
    have hd : ¬ m < lcpIndex e (pfxOf h d) := by
      rw [hz d (List.mem_cons_self _ _)]; omega
    simp only [hd, if_false]
    exact ih (fun c hc => hz c (List.mem_cons_of_mem _ hc))

/-- When exactly one child shares a first byte with `e`, it is the child
`longestCommonChild` returns. -/
theorem longestCommonChildLoop_unique {h : Heap} {e : Str} {cs : List Nat} {c : Nat}
    (hc : c ∈ cs) (hpos : 0 < lcpIndex e (pfxOf h c))
    (hz : ∀ d ∈ cs, d ≠ c → lcpIndex e (pfxOf h d) = 0) :
    longestCommonChildLoop h e cs 0 none = some c := by
  induction cs with
  | nil => cases hc
  | cons d ds ih =>
    unfold longestCommonChildLoop
    by_cases hdc : d = c
    · subst hdc
      simp only [hpos, if_true]
      have : ∀ x ∈ ds, lcpIndex e (pfxOf h x) ≤ lcpIndex e (pfxOf h d) := by
        intro x hx
        by_cases hxd : x = d
        · subst hxd; exact le_refl _
        · rw [hz x (List.mem_cons_of_mem _ hx) hxd]; omega
      clear ih hz hc
      generalize lcpIndex e (pfxOf h d) = m at this
      induction ds with
      | nil => rfl
      | cons y ys ih2 =>
        unfold longestCommonChildLoop
        have hy : ¬ m < lcpIndex e (pfxOf h y) := by
          have := this y (List.mem_cons_self _ _); omega
        simp only [hy, if_false]
        exact ih2 (fun x hx => this x (List.mem_cons_of_mem _ hx))
    · have hd0 := hz d (List.mem_cons_self _ _) hdc
      simp only [hd0, Nat.lt_irrefl, if_false]
      have hc2 : c ∈ ds := by
        rcases List.mem_cons.mp hc with h1 | h1
        · exact absurd h1.symm hdc
        · exact h1
      exact ih hc2 (fun x hx => hz x (List.mem_cons_of_mem _ hx))

theorem longestCommonChild_some {h : Heap} {n : Node} {e : Str} {c : Nat}
    (hl : longestCommonChild h n e = some c) :
    c ∈ n.children ∧ 0 < lcpIndex e (pfxOf h c) := by
  rcases longestCommonChildLoop_some hl with h1 | h1
  · cases h1
  · exact h1

theorem longestCommonChild_none {h : Heap} {n : Node} {e : Str}
    (hl : longestCommonChild h n e = none) :
    ∀ c ∈ n.children, lcpIndex e (pfxOf h c) = 0 := by
  intro c hc
  have := (longestCommonChildLoop_none hl).2 c hc
  omega

/-! ### `RemoveChild` -/

theorem removeChildLoop_of_not_mem (x : Nat) : ∀ l : List Nat, x ∉ l → removeChildLoop x l = l
  | [], _ => rfl
  | [y], h => by
    have hy : y ≠ x := by simpa [eq_comm] using h
    simp [removeChildLoop, hy]
  | y :: z :: ys, h => by
    simp only [List.mem_cons, not_or] at h
    have hy : y ≠ x := fun e => h.1 e.symm
    have h2 : x ∉ z :: ys := by simp [h.2.1, h.2.2]
    simp [removeChildLoop, hy, removeChildLoop_of_not_mem x (z :: ys) h2]

/-- On a list without repetitions `RemoveChild` removes exactly the given
pointer. -/
theorem removeChildLoop_eq_erase (x : Nat) : ∀ l : List Nat, l.Nodup → removeChildLoop x l = l.erase x
  | [], _ => rfl
  | [y], _ => by
    by_cases hy : y = x
    · simp [removeChildLoop, hy]
    · simp [removeChildLoop, hy]
  | y :: z :: ys, h => by
    have h1 := List.nodup_cons.mp h
    by_cases hy : y = x
    · subst hy
      have hz : y ∉ ys := fun hm => h1.1 (List.mem_cons_of_mem _ hm)
      simp [removeChildLoop, removeChildLoop_of_not_mem y ys hz]
    · have ih := removeChildLoop_eq_erase x (z :: ys) h1.2
      rw [removeChildLoop, if_neg hy, ih]
      exact (List.erase_cons_tail (by simpa using hy)).symm

/-! ### Descents -/

theorem Grows.rfl_grows (h : Heap) : Grows h h where
  len := le_refl _
  pres := fun _ _ _ hs => Relation.ReflTransGen.single hs
  refl := fun _ _ _ _ hw => hw
  old := fun _ n hn => ⟨n, hn, rfl⟩
  fresh := fun a n' ha hn => by
    have := lt_length_of_getElem? hn
    omega

theorem rtc_of_pres {k : Bool} {h h' : Heap}
    (hp : ∀ x y, Step k h x y → Relation.ReflTransGen (Step k h') x y) {x y : Nat × Str}
    (hw : Relation.ReflTransGen (Step k h) x y) : Relation.ReflTransGen (Step k h') x y := by
  induction hw with
  | refl => exact Relation.ReflTransGen.refl
  | tail _ hs ih => exact ih.trans (hp _ _ hs)

theorem Grows.trans_grows {h0 h1 h2 : Heap} (e1 : Grows h0 h1) (e2 : Grows h1 h2) : Grows h0 h2 where
  len := le_trans e1.len e2.len
  pres := fun k x y hs => rtc_of_pres (e2.pres k) (e1.pres k x y hs)
  refl := fun x y hx hy hw =>
    e1.refl x y hx hy (e2.refl x y (lt_of_lt_of_le hx e1.len) (lt_of_lt_of_le hy e1.len) hw)
  old := fun a n hn => by
    obtain ⟨n1, q1, g1⟩ := e1.old a n hn
    obtain ⟨n2, q2, g2⟩ := e2.old a n1 q1
    exact ⟨n2, q2, g2.trans g1⟩
  fresh := fun a n2 ha hn => by
    rcases Nat.lt_or_ge a h1.length with hlt | hge
    · obtain ⟨n1, hn1⟩ : ∃ n1, h1[a]? = some n1 := ⟨h1[a], by simp [hlt]⟩
      obtain ⟨n3, q2, g2⟩ := e2.old a n1 hn1
      rw [hn] at q2
      cases q2
      rw [g2]
      exact e1.fresh a n1 ha hn1
    · exact e2.fresh a n2 hge hn

theorem step_of_mono {h h' : Heap}
    (hm : ∀ (x : Nat) (n : Node), h[x]? = some n → ∃ n' : Node, h'[x]? = some n' ∧
      n'.pfx = n.pfx ∧ (∀ c ∈ n.children, c ∈ n'.children) ∧
      (∀ c, n.paramChild = some c → n'.paramChild = some c))
    (k : Bool) (x y : Nat × Str) (hs : Step k h x y) : Step k h' x y := by
  rcases hs with ⟨n, cn, h1, h2, h3, h4⟩ | ⟨hk, n, h1, h2, h3, h4⟩
  · obtain ⟨n', g1, -, g3, -⟩ := hm _ _ h1
    obtain ⟨cn', f1, f2, -, -⟩ := hm _ _ h3
    exact Or.inl ⟨n', cn', g1, g3 _ h2, f1, by rw [f2]; exact h4⟩
  · obtain ⟨n', g1, -, -, g4⟩ := hm _ _ h1
    exact Or.inr ⟨hk, n', g1, g4 _ h2, h3, h4⟩

theorem walk_of_conservative {h h' : Heap}
    (hc : ∀ (z : Nat) (n' : Node) (c : Nat), h'[z]? = some n' → c ∈ n'.children →
      c < h.length → ∃ n cn cn' : Node, h[z]? = some n ∧ c ∈ n.children ∧ h[c]? = some cn ∧
        h'[c]? = some cn' ∧ cn'.pfx = cn.pfx)
    (x y : Nat × Str) (hy : y.1 < h.length) (hw : Walk h' x y) : Walk h x y := by
  induction hw with
  | refl => exact Relation.ReflTransGen.refl
  | tail hxz hs ih =>
    rename_i z y
    rcases hs with ⟨n', cn', h1, h2, h3, h4⟩ | ⟨hk, -⟩
    · obtain ⟨n, cn, cn2, g1, g2, g3, g4, g5⟩ := hc _ _ _ h1 h2 hy
      rw [h3] at g4
      cases g4
      have hz : z.1 < h.length := lt_length_of_getElem? g1
      exact (ih hz).tail (Or.inl ⟨n, cn, g1, g2, g3, by rw [← g5]; exact h4⟩)
    · cases hk

/-! ### Allocation of a leaf under `currentNode` -/

theorem lookup_alloc_set {h : Heap} {cur : Nat} {n : Node} (hn : h[cur]? = some n)
    (nd n' : Node) (x : Nat) :
    ((h ++ [nd]).set cur n')[x]? =
      if x = cur then some n' else if x = h.length then some nd else h[x]? := by
  have hlt := lt_length_of_getElem? hn
  by_cases hx : x = cur
  · subst hx
    have h2 : x < (h ++ [nd]).length := by simp; omega
    simp only [if_true]
    exact List.getElem?_set_self h2
  · rw [List.getElem?_set_ne (Ne.symm hx)]
    simp only [hx, if_false]
    by_cases hx2 : x = h.length
    · subst hx2; simp
    · simp only [hx2, if_false]
      rcases Nat.lt_or_ge x h.length with h1 | h1
      · exact getElem?_append_old nd h1
      · rw [List.getElem?_eq_none (by simp; omega), List.getElem?_eq_none h1]

theorem modNode_alloc_eq {h : Heap} {cur : Nat} {n : Node} (hn : h[cur]? = some n)
    (nd : Node) (f : Node → Node) :
    modNode (h ++ [nd]) cur f = (h ++ [nd]).set cur (f n) := by
  have hlt := lt_length_of_getElem? hn
  unfold modNode
  rw [getElem?_append_old nd hlt, hn]

theorem Alloc.alloc_inv {h : Heap} {cur : Nat} {n nd n' : Node} (al : Alloc h cur n nd n')
    {x : Nat} {m : Node} (hx : ((h ++ [nd]).set cur n')[x]? = some m) :
    (x = cur ∧ m = n') ∨ (x = h.length ∧ m = nd) ∨ (x ≠ cur ∧ x ≠ h.length ∧ h[x]? = some m) := by
  rw [lookup_alloc_set al.get] at hx
  by_cases h1 : x = cur
  · simp only [h1, if_true, Option.some.injEq] at hx
    exact Or.inl ⟨h1, hx.symm⟩
  · by_cases h2 : x = h.length
    · subst h2
      simp only [h1, if_true, if_false, Option.some.injEq] at hx
      exact Or.inr (Or.inl ⟨rfl, hx.symm⟩)
    · simp only [h1, h2, if_false] at hx
      exact Or.inr (Or.inr ⟨h1, h2, hx⟩)

theorem Alloc.alloc_fwd {h : Heap} {cur : Nat} {n nd n' : Node} (al : Alloc h cur n nd n')
    {x : Nat} {m : Node} (hx : h[x]? = some m) :
    ∃ m' : Node, ((h ++ [nd]).set cur n')[x]? = some m' ∧ m'.pfx = m.pfx ∧
      m'.parent = m.parent ∧ m'.nodeType = m.nodeType ∧ m'.handlers = m.handlers ∧
      m'.param = m.param ∧ (∀ c ∈ m.children, c ∈ m'.children) ∧
      (∀ c, m.paramChild = some c → m'.paramChild = some c) := by
  rw [lookup_alloc_set al.get]
  by_cases h1 : x = cur
  · subst h1
    rw [al.get] at hx
    cases hx
    refine ⟨n', by simp, al.pfx_eq, al.parent_eq, al.type_eq, al.handlers_eq, al.param_eq, ?_, ?_⟩
    · intro c hc
      rcases al.kind with ⟨k1, -⟩ | ⟨k1, -⟩
      · rw [k1]; exact hc
      · rw [k1]; exact List.mem_append_left _ hc
    · intro c hc
      rcases al.kind with ⟨-, -, k3, -⟩ | ⟨-, k2, -⟩
      · rw [k3] at hc; cases hc
      · rw [k2]; exact hc
  · have h2 : x ≠ h.length := ne_of_lt (lt_length_of_getElem? hx)
    exact ⟨m, by simp [h1, h2, hx], rfl, rfl, rfl, rfl, rfl, fun _ hc => hc, fun _ hc => hc⟩

theorem Alloc.alloc_get_new {h : Heap} {cur : Nat} {n nd n' : Node} (al : Alloc h cur n nd n') :
    ((h ++ [nd]).set cur n')[h.length]? = some nd := by
  rw [lookup_alloc_set al.get]
  have := lt_length_of_getElem? al.get
  have h1 : h.length ≠ cur := by omega
  simp [h1]

theorem Alloc.alloc_pfxOf_old {h : Heap} {cur : Nat} {n nd n' : Node} (al : Alloc h cur n nd n')
    {x : Nat} {m : Node} (hx : h[x]? = some m) :
    pfxOf ((h ++ [nd]).set cur n') x = pfxOf h x := by
  obtain ⟨m', g1, g2, -⟩ := al.alloc_fwd hx
  rw [pfxOf_eq g1, pfxOf_eq hx, g2]

theorem Alloc.alloc_wf {h : Heap} {root cur : Nat} {n nd n' : Node} (al : Alloc h cur n nd n')
    (hw : WF h root) : WF ((h ++ [nd]).set cur n') root := by
  have hcur := lt_length_of_getElem? al.get
  have old_child : ∀ (x : Nat) (m : Node) (c : Nat), h[x]? = some m → c ∈ m.children →
      c ≠ x ∧ ∃ cn : Node, ((h ++ [nd]).set cur n')[c]? = some cn ∧ cn.parent = some x ∧
        cn.nodeType = nodeType.static ∧ cn.pfx ≠ [] ∧ colon ∉ cn.pfx ∧ cn.handlers ≠ none := by
    intro x m c hx hc
    obtain ⟨g0, cn, g1, g2, g3, g4, g5, g6⟩ := hw.child_ok x m c hx hc
    obtain ⟨cn', f1, f2, f3, f4, f5, -⟩ := al.alloc_fwd g1
    exact ⟨g0, cn', f1, by rw [f3, g2], by rw [f4, g3], by rw [f2]; exact g4,
      by rw [f2]; exact g5, by rw [f5]; exact g6⟩
  have old_param : ∀ (x : Nat) (m : Node) (c : Nat), h[x]? = some m → m.paramChild = some c →
      ∃ cn : Node, ((h ++ [nd]).set cur n')[c]? = some cn ∧ cn.parent = some x ∧
        cn.nodeType = nodeType.param ∧ cn.handlers ≠ none ∧ cn.param ≠ none := by
    intro x m c hx hc
    obtain ⟨cn, g1, g2, g3, g4, g5⟩ := hw.param_ok x m c hx hc
    obtain ⟨cn', f1, f2, f3, f4, f5, f6, -⟩ := al.alloc_fwd g1
    exact ⟨cn', f1, by rw [f3, g2], by rw [f4, g3], by rw [f5]; exact g4, by rw [f6]; exact g5⟩
  have old_sib : ∀ (x : Nat) (m : Node), h[x]? = some m →
      m.children.Pairwise (fun c d => (pfxOf ((h ++ [nd]).set cur n') c).head? ≠
        (pfxOf ((h ++ [nd]).set cur n') d).head?) := by
    intro x m hx
    refine List.Pairwise.imp_of_mem ?_ (hw.sibling x m hx)
    intro c d hc hd hcd
    obtain ⟨-, cn, g1, -⟩ := hw.child_ok x m c hx hc
    obtain ⟨-, dn, g2, -⟩ := hw.child_ok x m d hx hd
    rw [al.alloc_pfxOf_old g1, al.alloc_pfxOf_old g2]
    exact hcd
  constructor
  · obtain ⟨rn, h1, h2⟩ := hw.root_ok
    obtain ⟨m', g1, -, g3, -⟩ := al.alloc_fwd h1
    exact ⟨m', g1, by rw [g3, h2]⟩
  · intro x m c hx hc
    rcases al.alloc_inv hx with ⟨rfl, rfl⟩ | ⟨rfl, rfl⟩ | ⟨-, -, h3⟩
    · rcases al.kind with ⟨k1, -⟩ | ⟨k1, -, k3, k4, k5, -⟩
      · rw [k1] at hc
        exact old_child x n c al.get hc
      · rw [k1] at hc
        rcases List.mem_append.mp hc with hc | hc
        · exact old_child x n c al.get hc
        · have : c = h.length := by simpa using hc
          subst this
          exact ⟨by omega, nd, al.alloc_get_new, al.nd_parent, k3, k4, k5,
            by rw [al.nd_handlers]; simp⟩
    · rw [al.nd_children] at hc
      cases hc
    · exact old_child x m c h3 hc
  · intro x m c hx hc
    rcases al.alloc_inv hx with ⟨rfl, rfl⟩ | ⟨rfl, rfl⟩ | ⟨-, -, h3⟩
    · rcases al.kind with ⟨-, k2, -, k4, k5⟩ | ⟨-, k2, -⟩
      · rw [k2] at hc
        cases hc
        exact ⟨nd, al.alloc_get_new, al.nd_parent, k4, by rw [al.nd_handlers]; simp, k5⟩
      · rw [k2] at hc
        exact old_param x n c al.get hc
    · rw [al.nd_paramChild] at hc
      cases hc
    · exact old_param x m c h3 hc
  · intro x m hx
    rcases al.alloc_inv hx with ⟨rfl, rfl⟩ | ⟨rfl, rfl⟩ | ⟨-, -, h3⟩
    · rcases al.kind with ⟨k1, -⟩ | ⟨k1, -, -, -, -, k6⟩
      · rw [k1]
        exact old_sib x n al.get
      · rw [k1, List.pairwise_append]
        refine ⟨old_sib x n al.get, by simp, ?_⟩
        intro c hc d hd
        have : d = h.length := by simpa using hd
        subst this
        obtain ⟨-, cn, g1, -⟩ := hw.child_ok x n c al.get hc
        rw [al.alloc_pfxOf_old g1, pfxOf_eq al.alloc_get_new]
        exact k6 c hc
    · rw [al.nd_children]
      exact List.Pairwise.nil
    · exact old_sib x m h3

theorem Alloc.alloc_grows {h : Heap} {root cur : Nat} {n nd n' : Node} (al : Alloc h cur n nd n')
    (hw : WF h root) : Grows h ((h ++ [nd]).set cur n') where
  len := by simp
  pres := fun k x y hs =>
    Relation.ReflTransGen.single (step_of_mono (fun x m hx => by
      obtain ⟨m', g1, g2, -, -, -, -, g7, g8⟩ := al.alloc_fwd hx
      exact ⟨m', g1, g2, g7, g8⟩) k x y hs)
  refl := fun x y _ hy hwk => by
    refine walk_of_conservative ?_ x y hy hwk
    intro z m' c hz hc hlt
    have key : ∀ m : Node, h[z]? = some m → c ∈ m.children →
        ∃ n0 cn cn' : Node, h[z]? = some n0 ∧ c ∈ n0.children ∧ h[c]? = some cn ∧
          ((h ++ [nd]).set cur n')[c]? = some cn' ∧ cn'.pfx = cn.pfx := by
      intro m hm hcm
      obtain ⟨-, cn, g1, -⟩ := hw.child_ok z m c hm hcm
      obtain ⟨cn', f1, f2, -⟩ := al.alloc_fwd g1
      exact ⟨m, cn, cn', hm, hcm, g1, f1, f2⟩
    rcases al.alloc_inv hz with ⟨rfl, rfl⟩ | ⟨rfl, rfl⟩ | ⟨-, -, h3⟩
    · rcases al.kind with ⟨k1, -⟩ | ⟨k1, -⟩
      · rw [k1] at hc
        exact key n al.get hc
      · rw [k1] at hc
        rcases List.mem_append.mp hc with hc | hc
        · exact key n al.get hc
        · have : c = h.length := by simpa using hc
          omega
    · rw [al.nd_children] at hc
      cases hc
    · exact key m' h3 hc
  old := fun a m hm => by
    obtain ⟨m', g1, -, -, -, g5, -⟩ := al.alloc_fwd hm
    exact ⟨m', g1, g5⟩
  fresh := fun a m' ha hm => by
    rcases al.alloc_inv hm with ⟨rfl, rfl⟩ | ⟨rfl, rfl⟩ | ⟨-, -, h3⟩
    · have := lt_length_of_getElem? al.get
      omega
    · exact al.nd_handlers
    · have := lt_length_of_getElem? h3
      omega

/-! ### The split branch -/

theorem modNode_lookup (h : Heap) (a : Nat) (f : Node → Node) (x : Nat) :
    (modNode h a f)[x]? = if x = a then (h[a]?).map f else h[x]? := by
  by_cases hx : x = a
  · subst hx
    cases hn : h[x]? with
    | none => simp [modNode, hn]
    | some n => simp [modNode_same hn]
  · simp [hx, modNode_ne (Ne.symm hx)]

theorem splitHeap_lookup {h : Heap} {cur next : Nat} {n nn : Node}
    (hcur : h[cur]? = some n) (hnext : h[next]? = some nn) (hne : cur ≠ next)
    (l : Nat) (pa : Str) (x : Nat) :
    (splitHeap h cur next n nn l pa)[x]? =
      if x = cur then some { n with children := n.children.erase next ++ [h.length] }
      else if x = next then some { nn with parent := some h.length, pfx := nn.pfx.drop l }
      else if x = h.length then
        some { newNode nn.parent pa nodeType.static with children := [next] }
      else h[x]? := by
  have h1 := lt_length_of_getElem? hcur
  have h2 := lt_length_of_getElem? hnext
  unfold splitHeap
  by_cases hx1 : x = cur
  · subst hx1
    simp only [if_true]
    apply List.getElem?_set_self
    simp; omega
  · rw [List.getElem?_set_ne (Ne.symm hx1)]
    simp only [hx1, if_false]
    by_cases hx2 : x = next
    · subst hx2
      simp only [if_true]
      apply List.getElem?_set_self
      simp; omega
    · rw [List.getElem?_set_ne (Ne.symm hx2)]
      simp only [hx2, if_false]
      by_cases hx3 : x = h.length
      · subst hx3; simp
      · simp only [hx3, if_false]
        rcases Nat.lt_or_ge x h.length with h3 | h3
        · exact getElem?_append_old _ h3
        · rw [List.getElem?_eq_none (by simp; omega), List.getElem?_eq_none h3]

theorem split_chain_eq {h : Heap} {cur next : Nat} {n nn : Node}
    (hcur : h[cur]? = some n) (hnext : h[next]? = some nn) (hne : cur ≠ next)
    (hnd : n.children.Nodup) (hmem : next ∈ n.children) (hfresh : h.length ∉ n.children)
    (l : Nat) (pa : Str) :
    RemoveChild
      (modNode
        (modNode
          (modNode
            (modNode (h ++ [newNode nn.parent pa nodeType.static]) next
              (fun c => { c with parent := some h.length }))
            next (fun c => { c with pfx := c.pfx.drop l }))
          h.length (fun c => { c with children := c.children ++ [next] }))
        cur (fun c => { c with children := c.children ++ [h.length] }))
      cur next = splitHeap h cur next n nn l pa := by
  have h1 := lt_length_of_getElem? hcur
  have h2 := lt_length_of_getElem? hnext
  have e1 : (h ++ [newNode nn.parent pa nodeType.static])[cur]? = some n := by
    rw [getElem?_append_old _ h1, hcur]
  have e2 : (h ++ [newNode nn.parent pa nodeType.static])[next]? = some nn := by
    rw [getElem?_append_old _ h2, hnext]
  have e3 : (h ++ [newNode nn.parent pa nodeType.static])[h.length]? =
      some (newNode nn.parent pa nodeType.static) := getElem?_append_new _ _
  have n1 : cur ≠ h.length := by omega
  have n2 : next ≠ h.length := by omega
  have n3 : h.length ≠ cur := by omega
  have n4 : h.length ≠ next := by omega
  have hrem : removeChildLoop next (n.children ++ [h.length]) =
      n.children.erase next ++ [h.length] := by
    have hnd2 : (n.children ++ [h.length]).Nodup := by
      rw [List.nodup_append]
      refine ⟨hnd, by simp, ?_⟩
      intro a ha hb
      have : a = h.length := by simpa using hb
      subst this
      exact hfresh ha
    rw [removeChildLoop_eq_erase _ _ hnd2, List.erase_append_left _ hmem]
  apply List.ext_getElem?
  intro x
  rw [splitHeap_lookup hcur hnext hne]
  unfold RemoveChild
  simp only [modNode_lookup]
  by_cases hx1 : x = cur
  · subst hx1
    simp [e1, hne, n1, hrem]
  · by_cases hx2 : x = next
    · subst hx2
      simp [e2, hx1, n2]
    · by_cases hx3 : x = h.length
      · subst hx3
        simp [n3, n4, newNode]
      · simp only [hx1, hx2, hx3, if_false]
        rcases Nat.lt_or_ge x h.length with h3 | h3
        · exact getElem?_append_old _ h3
        · rw [List.getElem?_eq_none (by simp; omega), List.getElem?_eq_none h3]



theorem Split.ne {h : Heap} {root cur next : Nat} {n nn : Node} {l : Nat} {pa : Str}
    (sp : Split h root cur next n nn l pa) : cur ≠ next :=
  fun e => (sp.wf.child_ok cur n next sp.get_cur sp.mem).1 e.symm

theorem Split.next_fields {h : Heap} {root cur next : Nat} {n nn : Node} {l : Nat} {pa : Str}
    (sp : Split h root cur next n nn l pa) :
    nn.parent = some cur ∧ nn.nodeType = nodeType.static ∧ nn.pfx ≠ [] ∧ colon ∉ nn.pfx ∧
      nn.handlers ≠ none := by
  obtain ⟨-, cn, g1, g2⟩ := sp.wf.child_ok cur n next sp.get_cur sp.mem
  rw [sp.get_next] at g1
  cases g1
  exact g2

theorem Split.split_inv {h : Heap} {root cur next : Nat} {n nn : Node} {l : Nat} {pa : Str}
    (sp : Split h root cur next n nn l pa) {x : Nat} {m : Node}
    (hx : (splitHeap h cur next n nn l pa)[x]? = some m) :
    (x = cur ∧ m = { n with children := n.children.erase next ++ [h.length] }) ∨
    (x = next ∧ m = { nn with parent := some h.length, pfx := nn.pfx.drop l }) ∨
    (x = h.length ∧ m = { newNode nn.parent pa nodeType.static with children := [next] }) ∨
    (x ≠ cur ∧ x ≠ next ∧ x ≠ h.length ∧ h[x]? = some m) := by
  rw [splitHeap_lookup sp.get_cur sp.get_next sp.ne] at hx
  by_cases h1 : x = cur
  · rw [if_pos h1] at hx
    exact Or.inl ⟨h1, (Option.some.inj hx).symm⟩
  · by_cases h2 : x = next
    · rw [if_neg h1, if_pos h2] at hx
      exact Or.inr (Or.inl ⟨h2, (Option.some.inj hx).symm⟩)
    · by_cases h3 : x = h.length
      · rw [if_neg h1, if_neg h2, if_pos h3] at hx
        exact Or.inr (Or.inr (Or.inl ⟨h3, (Option.some.inj hx).symm⟩))
      · rw [if_neg h1, if_neg h2, if_neg h3] at hx
        exact Or.inr (Or.inr (Or.inr ⟨h1, h2, h3, hx⟩))

theorem Split.get_cur_new {h : Heap} {root cur next : Nat} {n nn : Node} {l : Nat} {pa : Str}
    (sp : Split h root cur next n nn l pa) :
    (splitHeap h cur next n nn l pa)[cur]? =
      some { n with children := n.children.erase next ++ [h.length] } := by
  rw [splitHeap_lookup sp.get_cur sp.get_next sp.ne]
  simp

theorem Split.get_next_new {h : Heap} {root cur next : Nat} {n nn : Node} {l : Nat} {pa : Str}
    (sp : Split h root cur next n nn l pa) :
    (splitHeap h cur next n nn l pa)[next]? =
      some { nn with parent := some h.length, pfx := nn.pfx.drop l } := by
  rw [splitHeap_lookup sp.get_cur sp.get_next sp.ne]
  simp [Ne.symm sp.ne]

theorem Split.get_mid {h : Heap} {root cur next : Nat} {n nn : Node} {l : Nat} {pa : Str}
    (sp : Split h root cur next n nn l pa) :
    (splitHeap h cur next n nn l pa)[h.length]? =
      some { newNode nn.parent pa nodeType.static with children := [next] } := by
  rw [splitHeap_lookup sp.get_cur sp.get_next sp.ne]
  have h1 := lt_length_of_getElem? sp.get_cur
  have h2 := lt_length_of_getElem? sp.get_next
  have n1 : h.length ≠ cur := by omega
  have n2 : h.length ≠ next := by omega
  simp [n1, n2]

theorem Split.split_fwd {h : Heap} {root cur next : Nat} {n nn : Node} {l : Nat} {pa : Str}
    (sp : Split h root cur next n nn l pa) {x : Nat} {m : Node} (hx : h[x]? = some m) :
    ∃ m' : Node, (splitHeap h cur next n nn l pa)[x]? = some m' ∧
      m'.nodeType = m.nodeType ∧ m'.handlers = m.handlers ∧ m'.param = m.param ∧
      m'.paramChild = m.paramChild ∧ (x ≠ next → m'.pfx = m.pfx ∧ m'.parent = m.parent) ∧
      (x ≠ cur → m'.children = m.children) := by
  by_cases h1 : x = cur
  · subst h1
    rw [sp.get_cur] at hx
    cases hx
    exact ⟨_, sp.get_cur_new, rfl, rfl, rfl, rfl, fun _ => ⟨rfl, rfl⟩, fun hc => absurd rfl hc⟩
  · by_cases h2 : x = next
    · subst h2
      rw [sp.get_next] at hx
      cases hx
      exact ⟨_, sp.get_next_new, rfl, rfl, rfl, rfl, fun hc => absurd rfl hc, fun _ => rfl⟩
    · have h3 : x ≠ h.length := ne_of_lt (lt_length_of_getElem? hx)
      refine ⟨m, ?_, rfl, rfl, rfl, rfl, fun _ => ⟨rfl, rfl⟩, fun _ => rfl⟩
      rw [splitHeap_lookup sp.get_cur sp.get_next sp.ne]
      simp [h1, h2, h3, hx]

theorem Split.split_pfxOf_old {h : Heap} {root cur next : Nat} {n nn : Node} {l : Nat} {pa : Str}
    (sp : Split h root cur next n nn l pa) {x : Nat} {m : Node} (hx : h[x]? = some m)
    (hne : x ≠ next) : pfxOf (splitHeap h cur next n nn l pa) x = pfxOf h x := by
  obtain ⟨m', g1, -, -, -, -, g2, -⟩ := sp.split_fwd hx
  rw [pfxOf_eq g1, pfxOf_eq hx, (g2 hne).1]

/-- A child of an object other than `cur` is not `next`. -/
theorem Split.child_ne_next {h : Heap} {root cur next : Nat} {n nn : Node} {l : Nat} {pa : Str}
    (sp : Split h root cur next n nn l pa) {x c : Nat} {m : Node} (hx : h[x]? = some m)
    (hc : c ∈ m.children) (hxc : x ≠ cur) : c ≠ next := by
  rintro rfl
  obtain ⟨-, cn, g1, g2, -⟩ := sp.wf.child_ok x m c hx hc
  rw [sp.get_next] at g1
  cases g1
  rw [sp.next_fields.1] at g2
  cases g2
  exact hxc rfl

theorem WF.children_nodup {h : Heap} {root : Nat} (hw : WF h root) {x : Nat} {m : Node}
    (hx : h[x]? = some m) : m.children.Nodup := by
  refine List.Pairwise.imp ?_ (hw.sibling x m hx)
  intro c d hcd hEq
  exact hcd (by rw [hEq])

theorem Split.head_pa {h : Heap} {root cur next : Nat} {n nn : Node} {l : Nat} {pa : Str}
    (sp : Split h root cur next n nn l pa) : pa.head? = nn.pfx.head? := by
  rw [sp.pa_eq]
  have hl := sp.l_pos
  cases hp : nn.pfx with
  | nil => simp
  | cons y ys =>
    cases l with
    | zero => omega
    | succ k => simp

theorem Split.wf_after {h : Heap} {root cur next : Nat} {n nn : Node} {l : Nat} {pa : Str}
    (sp : Split h root cur next n nn l pa) : WF (splitHeap h cur next n nn l pa) root := by
  have hw := sp.wf
  have hcur := lt_length_of_getElem? sp.get_cur
  have hnext := lt_length_of_getElem? sp.get_next
  obtain ⟨np, nt, nx, nc, nh⟩ := sp.next_fields
  have old_child : ∀ (x : Nat) (m : Node) (c : Nat), h[x]? = some m → c ∈ m.children →
      c ≠ next → c ≠ x ∧ ∃ cn : Node, (splitHeap h cur next n nn l pa)[c]? = some cn ∧
        cn.parent = some x ∧ cn.nodeType = nodeType.static ∧ cn.pfx ≠ [] ∧ colon ∉ cn.pfx ∧
        cn.handlers ≠ none := by
    intro x m c hx hc hcn
    obtain ⟨g0, cn, g1, g2, g3, g4, g5, g6⟩ := hw.child_ok x m c hx hc
    obtain ⟨cn', f1, f2, f3, -, -, f6, -⟩ := sp.split_fwd g1
    obtain ⟨f7, f8⟩ := f6 hcn
    exact ⟨g0, cn', f1, by rw [f8, g2], by rw [f2, g3], by rw [f7]; exact g4,
      by rw [f7]; exact g5, by rw [f3]; exact g6⟩
  have old_param : ∀ (x : Nat) (m : Node) (c : Nat), h[x]? = some m → m.paramChild = some c →
      ∃ cn : Node, (splitHeap h cur next n nn l pa)[c]? = some cn ∧ cn.parent = some x ∧
        cn.nodeType = nodeType.param ∧ cn.handlers ≠ none ∧ cn.param ≠ none := by
    intro x m c hx hc
    obtain ⟨cn, g1, g2, g3, g4, g5⟩ := hw.param_ok x m c hx hc
    have hcn : c ≠ next := by
      rintro rfl
      rw [sp.get_next] at g1
      cases g1
      rw [nt] at g3
      cases g3
    obtain ⟨cn', f1, f2, f3, f4, -, f6, -⟩ := sp.split_fwd g1
    obtain ⟨f7, f8⟩ := f6 hcn
    exact ⟨cn', f1, by rw [f8, g2], by rw [f2, g3], by rw [f3]; exact g4, by rw [f4]; exact g5⟩
  have old_sib : ∀ (x : Nat) (m : Node) (cs : List Nat), h[x]? = some m →
      cs.Sublist m.children → next ∉ cs →
      cs.Pairwise (fun c d => (pfxOf (splitHeap h cur next n nn l pa) c).head? ≠
        (pfxOf (splitHeap h cur next n nn l pa) d).head?) := by
    intro x m cs hx hsub hnot
    refine List.Pairwise.imp_of_mem ?_ ((hw.sibling x m hx).sublist hsub)
    intro c d hc hd hcd
    obtain ⟨-, cn, g1, -⟩ := hw.child_ok x m c hx (hsub.subset hc)
    obtain ⟨-, dn, g2, -⟩ := hw.child_ok x m d hx (hsub.subset hd)
    rw [sp.split_pfxOf_old g1 (fun e => hnot (e ▸ hc)), sp.split_pfxOf_old g2 (fun e => hnot (e ▸ hd))]
    exact hcd
  have hnd := WF.children_nodup hw sp.get_cur
  have hnot : next ∉ n.children.erase next := fun hm => (List.Nodup.mem_erase_iff hnd).mp hm |>.1 rfl
  constructor
  · obtain ⟨rn, h1, h2⟩ := hw.root_ok
    have hrn : root ≠ next := by
      rintro rfl
      rw [sp.get_next] at h1
      cases h1
      rw [np] at h2
      cases h2
    obtain ⟨m', g1, -, -, -, -, g6, -⟩ := sp.split_fwd h1
    exact ⟨m', g1, by rw [(g6 hrn).2, h2]⟩
  · intro x m c hx hc
    rcases sp.split_inv hx with ⟨rfl, rfl⟩ | ⟨rfl, rfl⟩ | ⟨rfl, rfl⟩ | ⟨h1, h2, h3, h4⟩
    · rcases List.mem_append.mp hc with hc | hc
      · have hc2 : c ∈ n.children := List.mem_of_mem_erase hc
        exact old_child x n c sp.get_cur hc2 (fun e => hnot (e ▸ hc))
      · have : c = h.length := by simpa using hc
        subst this
        refine ⟨by omega, _, sp.get_mid, np, rfl, ?_, ?_, by simp [newNode]⟩
        · show pa ≠ []
          intro hpa
          have := sp.head_pa
          rw [hpa] at this
          cases hp : nn.pfx with
          | nil => exact nx hp
          | cons y ys => rw [hp] at this; cases this
        · show colon ∉ pa
          rw [sp.pa_eq]
          exact fun hm => nc (List.mem_of_mem_take hm)
    · have hc2 : c ∈ nn.children := hc
      have := old_child x nn c sp.get_next hc2
        (fun e => (hw.child_ok x nn c sp.get_next hc2).1 e)
      exact this
    · have : c = next := by simpa [newNode] using hc
      subst this
      refine ⟨by omega, _, sp.get_next_new, rfl, nt, ?_, ?_, nh⟩
      · show nn.pfx.drop l ≠ []
        intro hd
        have := congrArg List.length hd
        simp at this
        have := sp.l_lt
        omega
      · show colon ∉ nn.pfx.drop l
        exact fun hm => nc (List.mem_of_mem_drop hm)
    · exact old_child x m c h4 hc (sp.child_ne_next h4 hc h1)
  · intro x m c hx hc
    rcases sp.split_inv hx with ⟨rfl, rfl⟩ | ⟨rfl, rfl⟩ | ⟨rfl, rfl⟩ | ⟨h1, h2, h3, h4⟩
    · exact old_param x n c sp.get_cur hc
    · exact old_param x nn c sp.get_next hc
    · simp [newNode] at hc
    · exact old_param x m c h4 hc
  · intro x m hx
    rcases sp.split_inv hx with ⟨rfl, rfl⟩ | ⟨rfl, rfl⟩ | ⟨rfl, rfl⟩ | ⟨h1, h2, h3, h4⟩
    · show (n.children.erase next ++ [h.length]).Pairwise _
      rw [List.pairwise_append]
      refine ⟨old_sib x n _ sp.get_cur (List.erase_sublist _ _) hnot, by simp, ?_⟩
      intro c hc d hd
      have : d = h.length := by simpa using hd
      subst this
      have hc2 : c ∈ n.children := List.mem_of_mem_erase hc
      have hcn : c ≠ next := fun e => hnot (e ▸ hc)
      obtain ⟨-, cn, g1, -⟩ := hw.child_ok x n c sp.get_cur hc2
      rw [sp.split_pfxOf_old g1 hcn, pfxOf_eq sp.get_mid]
      show (pfxOf h c).head? ≠ pa.head?
      rw [sp.head_pa, ← pfxOf_eq sp.get_next]
      have hsym : Symmetric (fun c d : Nat => (pfxOf h c).head? ≠ (pfxOf h d).head?) :=
        fun _ _ hab => Ne.symm hab
      exact (hw.sibling x n sp.get_cur).forall hsym hc2 sp.mem hcn
    · show nn.children.Pairwise _
      refine old_sib x nn _ sp.get_next (List.Sublist.refl _) ?_
      intro hm
      exact (hw.child_ok x nn x sp.get_next hm).1 rfl
    · simp [newNode]
    · refine old_sib x m _ h4 (List.Sublist.refl _) ?_
      intro hm
      exact sp.child_ne_next h4 hm h1 rfl

theorem Split.take_drop {h : Heap} {root cur next : Nat} {n nn : Node} {l : Nat} {pa : Str}
    (sp : Split h root cur next n nn l pa) : pa ++ nn.pfx.drop l = nn.pfx := by
  rw [sp.pa_eq, List.take_append_drop]

theorem Split.mid_mem {h : Heap} {root cur next : Nat} {n nn : Node} {l : Nat} {pa : Str}
    (_sp : Split h root cur next n nn l pa) :
    h.length ∈ n.children.erase next ++ [h.length] := by simp

/-- The edge the split creates: from `cur` to the new node, consuming `pa`. -/
theorem Split.new_step {h : Heap} {root cur next : Nat} {n nn : Node} {l : Nat} {pa : Str}
    (sp : Split h root cur next n nn l pa) (k : Bool) (r : Str) :
    Step k (splitHeap h cur next n nn l pa) (cur, pa ++ r) (h.length, r) :=
  Or.inl ⟨_, _, sp.get_cur_new, sp.mid_mem, sp.get_mid, rfl⟩

theorem Split.pres {h : Heap} {root cur next : Nat} {n nn : Node} {l : Nat} {pa : Str}
    (sp : Split h root cur next n nn l pa) (k : Bool) (x y : Nat × Str) (hs : Step k h x y) :
    Relation.ReflTransGen (Step k (splitHeap h cur next n nn l pa)) x y := by
  have hnd := WF.children_nodup sp.wf sp.get_cur
  rcases hs with ⟨m, cm, h1, h2, h3, h4⟩ | ⟨hk, m, h1, h2, h3, h4⟩
  · by_cases hy : y.1 = next
    · have hx : x.1 = cur := by
        by_contra hne
        exact sp.child_ne_next h1 h2 hne hy
      rw [hy, sp.get_next] at h3
      cases h3
      obtain ⟨x1, x2⟩ := x
      obtain ⟨y1, y2⟩ := y
      simp only at hx hy h4
      subst hx hy
      rw [h4, ← sp.take_drop, List.append_assoc]
      refine Relation.ReflTransGen.head (sp.new_step k _) (Relation.ReflTransGen.single ?_)
      exact Or.inl ⟨_, _, sp.get_mid, by simp [newNode], sp.get_next_new, rfl⟩
    · obtain ⟨m', g1, -, -, -, -, -, g7⟩ := sp.split_fwd h1
      obtain ⟨cm', f1, -, -, -, -, f6, -⟩ := sp.split_fwd h3
      refine Relation.ReflTransGen.single (Or.inl ⟨m', cm', g1, ?_, f1, ?_⟩)
      · by_cases hx : x.1 = cur
        · rw [hx, sp.get_cur_new] at g1
          cases g1
          rw [hx, sp.get_cur] at h1
          cases h1
          exact List.mem_append_left _ ((List.Nodup.mem_erase_iff hnd).mpr ⟨hy, h2⟩)
        · rw [g7 hx]; exact h2
      · rw [(f6 hy).1]; exact h4
  · obtain ⟨m', g1, -, -, -, g5, -⟩ := sp.split_fwd h1
    exact Relation.ReflTransGen.single (Or.inr ⟨hk, m', g1, by rw [g5]; exact h2, h3, h4⟩)

theorem Split.walk_back {h : Heap} {root cur next : Nat} {n nn : Node} {l : Nat} {pa : Str}
    (sp : Split h root cur next n nn l pa) (x y : Nat × Str) (hx : x.1 < h.length)
    (hwk : Walk (splitHeap h cur next n nn l pa) x y) :
    (y.1 < h.length → Walk h x y) ∧ (y.1 = h.length → Walk h x (cur, pa ++ y.2)) := by
  have hw := sp.wf
  have hnd := WF.children_nodup hw sp.get_cur
  have hnot : next ∉ n.children.erase next :=
    fun hm => (List.Nodup.mem_erase_iff hnd).mp hm |>.1 rfl
  induction hwk with
  | refl => exact ⟨fun _ => Relation.ReflTransGen.refl, fun e => by omega⟩
  | tail hxz hs ih =>
    rename_i z y
    obtain ⟨z1, z2⟩ := z
    obtain ⟨y1, y2⟩ := y
    rcases hs with ⟨m', cm', h1, h2, h3, h4⟩ | ⟨hk, -⟩
    · simp only at h1 h2 h3 h4 ih ⊢
      -- an edge of the old heap into an object other than `next` is still there
      have old_edge : ∀ m : Node, h[z1]? = some m → y1 ∈ m.children → y1 ≠ next →
          z1 < h.length → Walk h x (y1, y2) := by
        intro m hm hc hcn hz
        obtain ⟨-, cn, g1, -⟩ := hw.child_ok z1 m y1 hm hc
        obtain ⟨cn', f1, -, -, -, -, f6, -⟩ := sp.split_fwd g1
        rw [h3] at f1
        cases f1
        exact (ih.1 hz).tail (Or.inl ⟨m, cn, hm, hc, g1, by rw [← (f6 hcn).1]; exact h4⟩)
      rcases sp.split_inv h1 with ⟨rfl, rfl⟩ | ⟨rfl, rfl⟩ | ⟨rfl, rfl⟩ | ⟨e1, e2, e3, e4⟩
      · rcases List.mem_append.mp h2 with hc | hc
        · have hc2 : y1 ∈ n.children := List.mem_of_mem_erase hc
          have hlt : y1 < h.length := by
            obtain ⟨-, cn, g1, -⟩ := hw.child_ok z1 n y1 sp.get_cur hc2
            exact lt_length_of_getElem? g1
          refine ⟨fun _ => old_edge n sp.get_cur hc2 (fun e => hnot (e ▸ hc))
            (lt_length_of_getElem? sp.get_cur), fun e => by omega⟩
        · have hy : y1 = h.length := by simpa using hc
          subst hy
          rw [sp.get_mid] at h3
          cases h3
          refine ⟨fun hlt => by omega, fun _ => ?_⟩
          have := ih.1 (lt_length_of_getElem? sp.get_cur)
          rw [h4] at this
          exact this
      · have hc2 : y1 ∈ nn.children := h2
        have hcn : y1 ≠ z1 := (hw.child_ok z1 nn y1 sp.get_next hc2).1
        have hlt : y1 < h.length := by
          obtain ⟨-, cn, g1, -⟩ := hw.child_ok z1 nn y1 sp.get_next hc2
          exact lt_length_of_getElem? g1
        exact ⟨fun _ => old_edge nn sp.get_next hc2 hcn (lt_length_of_getElem? sp.get_next),
          fun e => by omega⟩
      · have hy : y1 = next := by simpa [newNode] using h2
        subst hy
        rw [sp.get_next_new] at h3
        cases h3
        have hlt := lt_length_of_getElem? sp.get_next
        refine ⟨fun _ => ?_, fun e => by omega⟩
        have h5 := ih.2 rfl
        rw [h4] at h5
        simp only at h5
        rw [← List.append_assoc, sp.take_drop] at h5
        exact h5.tail (Or.inl ⟨n, nn, sp.get_cur, sp.mem, sp.get_next, rfl⟩)
      · have hcn : y1 ≠ next := sp.child_ne_next e4 h2 e1
        have hlt : y1 < h.length := by
          obtain ⟨-, cn, g1, -⟩ := hw.child_ok z1 m' y1 e4 h2
          exact lt_length_of_getElem? g1
        exact ⟨fun _ => old_edge m' e4 h2 hcn (lt_length_of_getElem? e4), fun e => by omega⟩
    · cases hk

theorem Split.split_grows {h : Heap} {root cur next : Nat} {n nn : Node} {l : Nat} {pa : Str}
    (sp : Split h root cur next n nn l pa) : Grows h (splitHeap h cur next n nn l pa) where
  len := by simp [splitHeap]
  pres := sp.pres
  refl := fun x y hx hy hwk => (sp.walk_back x y hx hwk).1 hy
  old := fun a m hm => by
    obtain ⟨m', g1, -, g3, -⟩ := sp.split_fwd hm
    exact ⟨m', g1, g3⟩
  fresh := fun a m' ha hm => by
    rcases sp.split_inv hm with ⟨rfl, rfl⟩ | ⟨rfl, rfl⟩ | ⟨rfl, rfl⟩ | ⟨-, -, -, h4⟩
    · have := lt_length_of_getElem? sp.get_cur
      omega
    · have := lt_length_of_getElem? sp.get_next
      omega
    · rfl
    · have := lt_length_of_getElem? h4
      omega

/-! ### One pass of the loop of `insert` -/

theorem head?_take_of_pos (e : Str) {j : Nat} (hj : 0 < j) : (e.take j).head? = e.head? := by
  cases e with
  | nil => simp
  | cons x xs =>
    cases j with
    | zero => omega
    | succ k => simp

theorem length_drop_lt (e : Str) {j : Nat} (hj : 0 < j) (he : e ≠ []) :
    (e.drop j).length < e.length := by
  have : 0 < e.length := List.length_pos.mpr he
  simp
  omega

/-- In a well-formed heap, the child whose prefix starts the path is the one
`longestCommonChild` returns. -/
theorem longestCommonChild_of_child {h : Heap} {root cur c : Nat} {n cn : Node} {e r : Str}
    (hw : WF h root) (hn : h[cur]? = some n) (hc : c ∈ n.children) (hcn : h[c]? = some cn)
    (he : e = cn.pfx ++ r) : longestCommonChild h n e = some c := by
  obtain ⟨-, cn2, g1, -, -, g4, -⟩ := hw.child_ok cur n c hn hc
  rw [hcn] at g1
  cases g1
  have hl : lcpIndex e (pfxOf h c) = cn.pfx.length := by
    rw [pfxOf_eq hcn, he]
    exact lcpIndex_append_left _ _
  have hpos : 0 < lcpIndex e (pfxOf h c) := by
    rw [hl]
    exact List.length_pos.mpr g4
  refine longestCommonChildLoop_unique hc hpos ?_
  intro d hd hdc
  have hsym : Symmetric (fun c d : Nat => (pfxOf h c).head? ≠ (pfxOf h d).head?) :=
    fun _ _ hab => Ne.symm hab
  have hne := (hw.sibling cur n hn).forall hsym hd hc hdc
  rw [lcpIndex_eq_zero_iff]
  right
  have h1 := (lcpIndex_pos_iff e (pfxOf h c)).mp hpos
  rw [h1.2]
  exact Ne.symm hne

/-- A pass of the loop of `insert` that finds its edge in the tree follows it
and changes nothing. -/
theorem insertStep_of_step {h : Heap} {root cur c : Nat} {e r : Str} (hw : WF h root)
    (hs : Step true h (cur, e) (c, r)) : insertStep h cur e = Except.ok (h, c, r) := by
  rcases hs with ⟨n, cn, h1, h2, h3, h4⟩ | ⟨-, n, h1, h2, h3, h4⟩
  · simp only at h1 h2 h3 h4
    obtain ⟨-, cn2, g1, -, -, g4, g5, -⟩ := hw.child_ok cur n c h1 h2
    rw [h3] at g1
    cases g1
    have hhead : e.head? ≠ some colon := by
      rw [h4]
      cases hp : cn.pfx with
      | nil => exact absurd hp g4
      | cons y ys =>
        rw [hp] at g5
        simp only [List.mem_cons, not_or] at g5
        simpa using Ne.symm g5.1
    have hl := longestCommonChild_of_child hw h1 h2 h3 h4
    have hlen : lcpIndex e cn.pfx = cn.pfx.length := by
      rw [h4]; exact lcpIndex_append_left _ _
    have hdrop : e.drop cn.pfx.length = r := by
      rw [h4]; simp
    simp [insertStep, getNode, h1, h3, hhead, hl, hlen, hdrop, bind, Except.bind, pure,
      Except.pure]
  · simp only at h1 h2 h3 h4
    simp [insertStep, getNode, h1, h2, h3, h4, bind, Except.bind, pure, Except.pure]

/-- One pass of the loop of `insert` on a well-formed heap: it does not fail,
keeps the heap well-formed, only grows it, moves along an edge of the new heap
and consumes at least one byte. -/
theorem insertStep_spec {h : Heap} {root cur : Nat} {n : Node} {e : Str} (hw : WF h root)
    (hn : h[cur]? = some n) (he : e ≠ []) :
    ∃ h1 cur1 e1, insertStep h cur e = Except.ok (h1, cur1, e1) ∧ WF h1 root ∧ Grows h h1 ∧
      Step true h1 (cur, e) (cur1, e1) ∧ e1.length < e.length := by
  have hcur := lt_length_of_getElem? hn
  by_cases hhead : e.head? = some colon
  · -- a parameter segment
    have hj : 0 < indexByte slash e := by
      apply indexByte_pos _ _ he
      rw [hhead]
      simpa using colon_ne_slash
    cases hpc : n.paramChild with
    | some child =>
      refine ⟨h, child, e.drop (indexByte slash e), ?_, hw, Grows.rfl_grows h,
        Or.inr ⟨rfl, n, hn, hpc, hhead, rfl⟩, length_drop_lt e hj he⟩
      simp [insertStep, getNode, hn, hhead, hpc, bind, Except.bind, pure, Except.pure]
    | none =>
      have al : Alloc h cur n
          { newNode (some cur) (e.take (indexByte slash e)) nodeType.param with
            param := some { key := (e.take (indexByte slash e)).drop 1, value := [] } }
          { n with paramChild := some h.length } :=
        { get := hn, pfx_eq := rfl, parent_eq := rfl, type_eq := rfl, handlers_eq := rfl,
          param_eq := rfl, nd_parent := rfl, nd_children := rfl, nd_paramChild := rfl,
          nd_handlers := rfl,
          kind := Or.inl ⟨rfl, rfl, hpc, rfl, by simp⟩ }
      refine ⟨_, h.length, e.drop (indexByte slash e), ?_, al.alloc_wf hw, al.alloc_grows hw, ?_,
        length_drop_lt e hj he⟩
      · simp only [insertStep, getNode, hn, hhead, hpc, bind, Except.bind, pure, Except.pure,
          if_true]
        rw [modNode_alloc_eq hn]
      · have hc : ((h ++ [({ newNode (some cur) (e.take (indexByte slash e)) nodeType.param with
            param := some { key := (e.take (indexByte slash e)).drop 1, value := [] } } : Node)]).set
            cur { n with paramChild := some h.length })[cur]? =
              some { n with paramChild := some h.length } := by
          rw [lookup_alloc_set hn]; simp
        exact Or.inr ⟨rfl, { n with paramChild := some h.length }, hc, rfl, hhead, rfl⟩
  · -- a static run
    have hj : 0 < indexByte colon e := indexByte_pos _ _ he hhead
    cases hl : longestCommonChild h n e with
    | none =>
      have hz := longestCommonChild_none hl
      have k1 : e.take (indexByte colon e) ≠ [] := by
        intro hc
        have := head?_take_of_pos e hj
        rw [hc] at this
        cases e with
        | nil => exact he rfl
        | cons x xs => cases this
      have k2 : ∀ c ∈ n.children, (pfxOf h c).head? ≠ (e.take (indexByte colon e)).head? := by
        intro c hc
        rw [head?_take_of_pos e hj]
        rcases (lcpIndex_eq_zero_iff _ _).mp (hz c hc) with h1 | h1
        · exact absurd h1 he
        · exact Ne.symm h1
      have al : Alloc h cur n (newNode (some cur) (e.take (indexByte colon e)) nodeType.static)
          { n with children := n.children ++ [h.length] } :=
        { get := hn, pfx_eq := rfl, parent_eq := rfl, type_eq := rfl, handlers_eq := rfl,
          param_eq := rfl, nd_parent := rfl, nd_children := rfl, nd_paramChild := rfl,
          nd_handlers := rfl,
          kind := Or.inr ⟨rfl, rfl, rfl, k1, not_mem_take_indexByte colon e, k2⟩ }
      refine ⟨_, h.length, e.drop (indexByte colon e), ?_, al.alloc_wf hw, al.alloc_grows hw, ?_,
        length_drop_lt e hj he⟩
      · simp only [insertStep, getNode, hn, hhead, hl, bind, Except.bind, pure, Except.pure,
          if_false]
        rw [modNode_alloc_eq hn]
      · refine Or.inl ⟨{ n with children := n.children ++ [h.length] }, _, ?_, ?_, al.alloc_get_new, ?_⟩
        · rw [lookup_alloc_set hn]; simp
        · simp
        · show e = e.take (indexByte colon e) ++ e.drop (indexByte colon e)
          rw [List.take_append_drop]
    | some next =>
      obtain ⟨hmem, hpos⟩ := longestCommonChild_some hl
      obtain ⟨hne, nn, hnn, -⟩ := hw.child_ok cur n next hn hmem
      rw [pfxOf_eq hnn] at hpos
      by_cases hfull : nn.pfx.length = lcpIndex e nn.pfx
      · obtain ⟨t, ht⟩ := (lcpIndex_eq_length_iff e nn.pfx).mp hfull.symm
        refine ⟨h, next, e.drop (lcpIndex e nn.pfx), ?_, hw, Grows.rfl_grows h, ?_,
          length_drop_lt e hpos he⟩
        · simp [insertStep, getNode, hn, hhead, hl, hnn, hfull, bind, Except.bind, pure,
            Except.pure]
        · refine Or.inl ⟨n, nn, hn, hmem, hnn, ?_⟩
          show e = nn.pfx ++ e.drop (lcpIndex e nn.pfx)
          rw [← hfull]
          conv_lhs => rw [ht]
          rw [ht]
          simp
      · have hlt : lcpIndex e nn.pfx < nn.pfx.length :=
          lt_of_le_of_ne (lcpIndex_le_right e nn.pfx) (Ne.symm hfull)
        have sp : Split h root cur next n nn (lcpIndex e nn.pfx) (e.take (lcpIndex e nn.pfx)) :=
          { wf := hw, get_cur := hn, mem := hmem, get_next := hnn, l_pos := hpos, l_lt := hlt,
            pa_eq := take_lcpIndex e nn.pfx }
        have hfresh : h.length ∉ n.children := by
          intro hm
          obtain ⟨-, cn, g1, -⟩ := hw.child_ok cur n _ hn hm
          have := lt_length_of_getElem? g1
          omega
        refine ⟨splitHeap h cur next n nn (lcpIndex e nn.pfx) (e.take (lcpIndex e nn.pfx)),
          h.length, e.drop (lcpIndex e nn.pfx), ?_, sp.wf_after, sp.split_grows, ?_,
          length_drop_lt e hpos he⟩
        · simp only [insertStep, getNode, hn, hhead, hl, hnn, hfull, bind, Except.bind, pure,
            Except.pure, if_false]
          rw [split_chain_eq hn hnn (Ne.symm hne) (WF.children_nodup hw hn) hmem hfresh]
        · have := sp.new_step true (e.drop (lcpIndex e nn.pfx))
          rw [List.take_append_drop] at this
          exact this

/-! ### The loop of `insert` -/

theorem step_target {h : Heap} {root : Nat} (hw : WF h root) {k : Bool} {x y : Nat × Str}
    (hs : Step k h x y) :
    ∃ m : Node, h[y.1]? = some m ∧ m.parent = some x.1 ∧ m.handlers ≠ none := by
  rcases hs with ⟨n, cn, h1, h2, h3, -⟩ | ⟨-, n, h1, h2, -⟩
  · obtain ⟨-, cn2, g1, g2, -, -, -, g6⟩ := hw.child_ok _ n _ h1 h2
    exact ⟨cn2, g1, g2, g6⟩
  · obtain ⟨cn, g1, g2, -, g4, -⟩ := hw.param_ok _ n _ h1 h2
    exact ⟨cn, g1, g2, g4⟩

theorem step_source_ne_nil {h : Heap} {root : Nat} (hw : WF h root) {k : Bool} {x y : Nat × Str}
    (hs : Step k h x y) : x.2 ≠ [] := by
  rcases hs with ⟨n, cn, h1, h2, h3, h4⟩ | ⟨-, n, h1, h2, h3, -⟩
  · obtain ⟨-, cn2, g1, -, -, g4, -⟩ := hw.child_ok _ n _ h1 h2
    rw [h3] at g1
    cases g1
    rw [h4]
    simpa using fun hc => absurd hc g4
  · intro hc
    rw [hc] at h3
    cases h3

theorem insertLoop_nil (fuel : Nat) (h : Heap) (cur : Nat) :
    insertLoop fuel h cur [] = Except.ok (h, cur) := by
  cases fuel <;> rfl

theorem insertLoop_cons (fuel : Nat) (h : Heap) (cur : Nat) (e : Str) (he : e ≠ [])
    {h1 : Heap} {cur1 : Nat} {e1 : Str} (hs : insertStep h cur e = Except.ok (h1, cur1, e1)) :
    insertLoop (fuel + 1) h cur e = insertLoop fuel h1 cur1 e1 := by
  cases e with
  | nil => exact absurd rfl he
  | cons x xs => simp [insertLoop, hs, bind, Except.bind]

/-- The loop of `insert` on a well-formed heap, started at an allocated node
with a budget of `len(endpoint)` passes or more: it ends without failure, at a
node reached from the start along edges of the new heap that consume the whole
path. -/
theorem insertLoop_spec (fuel : Nat) {h : Heap} {root cur : Nat} {n : Node} {e : Str}
    (hw : WF h root) (hn : h[cur]? = some n) (hf : e.length ≤ fuel) :
    ∃ h1 cur1, insertLoop fuel h cur e = Except.ok (h1, cur1) ∧ WF h1 root ∧ Grows h h1 ∧
      Route h1 (cur, e) (cur1, []) := by
  induction fuel generalizing h cur n e with
  | zero =>
    have : e = [] := List.length_eq_zero.mp (Nat.le_zero.mp hf)
    subst this
    exact ⟨h, cur, insertLoop_nil _ _ _, hw, Grows.rfl_grows h, Relation.ReflTransGen.refl⟩
  | succ fuel ih =>
    by_cases he : e = []
    · subst he
      exact ⟨h, cur, insertLoop_nil _ _ _, hw, Grows.rfl_grows h, Relation.ReflTransGen.refl⟩
    · obtain ⟨h1, cur1, e1, s1, w1, g1, st1, l1⟩ := insertStep_spec hw hn he
      obtain ⟨m1, hm1, -⟩ := step_target w1 st1
      obtain ⟨h2, cur2, s2, w2, g2, r2⟩ := ih (e := e1) w1 hm1 (by omega)
      refine ⟨h2, cur2, ?_, w2, g1.trans_grows g2, ?_⟩
      · rw [insertLoop_cons fuel h cur e he s1, s2]
      · exact (g2.pres true _ _ st1).trans r2

/-- A registration whose whole descent is already in the tree follows it and
leaves the heap as it is. -/
theorem insertLoop_of_route (fuel : Nat) {h : Heap} {root cur b : Nat} {e : Str}
    (hw : WF h root) (hr : Route h (cur, e) (b, [])) (hf : e.length ≤ fuel) :
    insertLoop fuel h cur e = Except.ok (h, b) := by
  induction fuel generalizing cur e with
  | zero =>
    have : e = [] := List.length_eq_zero.mp (Nat.le_zero.mp hf)
    subst this
    rcases Relation.ReflTransGen.cases_head hr with h1 | ⟨c, h1, -⟩
    · cases h1
      exact insertLoop_nil _ _ _
    · exact absurd rfl (step_source_ne_nil hw h1)
  | succ fuel ih =>
    rcases Relation.ReflTransGen.cases_head hr with h1 | ⟨c, h1, h2⟩
    · cases h1
      exact insertLoop_nil _ _ _
    · obtain ⟨c1, c2⟩ := c
      have he : e ≠ [] := step_source_ne_nil hw h1
      have hs := insertStep_of_step hw h1
      obtain ⟨m, hm, -⟩ : ∃ m : Node, h[cur]? = some m ∧ True := by
        rcases h1 with ⟨n, cn, g1, -⟩ | ⟨-, n, g1, -⟩
        · exact ⟨n, g1, trivial⟩
        · exact ⟨n, g1, trivial⟩
      obtain ⟨h1', cur1, e1, s1, -, -, -, l1⟩ := insertStep_spec hw hm he
      rw [hs] at s1
      cases s1
      rw [insertLoop_cons fuel h cur e he hs]
      exact ih (e := c2) h2 (by omega)

/-! ### The assignment `currentNode.handlers[method] = handler` -/

theorem lookup_cons_eq (k ka : Str) (va : CustomHandler) (l : List (Str × CustomHandler)) :
    List.lookup k ((ka, va) :: l) = if k = ka then some va else List.lookup k l := by
  by_cases h : k = ka
  · subst h
    simp [List.lookup]
  · have hb : (k == ka) = false := by simpa using h
    simp [List.lookup, hb, h]

theorem mapGet_mapSet (l : List (Str × CustomHandler)) (k : Str) (v : CustomHandler)
    (k' : Str) :
    mapGet (some (mapSet l k v)) k' = if k' = k then v else mapGet (some l) k' := by
  induction l with
  | nil =>
    by_cases hk : k' = k
    · simp [mapGet, mapSet, lookup_cons_eq, hk]
    · simp [mapGet, mapSet, lookup_cons_eq, hk]
  | cons a rest ih =>
    obtain ⟨ka, va⟩ := a
    simp only [mapGet] at ih
    by_cases h1 : ka = k
    · by_cases hk : k' = k
      · simp [mapGet, mapSet, lookup_cons_eq, h1, hk]
      · simp [mapGet, mapSet, lookup_cons_eq, h1, hk]
    · by_cases h2 : k' = ka
      · have h3 : k' ≠ k := fun e => h1 (h2 ▸ e)
        simp [mapGet, mapSet, lookup_cons_eq, h1, h2, h3]
      · simp only [mapGet, mapSet, h1, if_false, lookup_cons_eq, h2]
        exact ih

theorem setHandlers_fwd {h : Heap} {cur : Nat} {n : Node} (hn : h[cur]? = some n)
    (hd : HandlerMap) {x : Nat} {m : Node} (hx : h[x]? = some m) :
    ∃ m' : Node, (h.set cur { n with handlers := hd })[x]? = some m' ∧ m'.pfx = m.pfx ∧
      m'.children = m.children ∧ m'.paramChild = m.paramChild ∧ m'.parent = m.parent ∧
      m'.nodeType = m.nodeType ∧ m'.param = m.param ∧ (x ≠ cur → m' = m) ∧
      (x = cur → m'.handlers = hd) := by
  by_cases h1 : x = cur
  · subst h1
    rw [hn] at hx
    cases hx
    exact ⟨_, getElem?_set_same hn _, rfl, rfl, rfl, rfl, rfl, rfl, fun hc => absurd rfl hc,
      fun _ => rfl⟩
  · refine ⟨m, ?_, rfl, rfl, rfl, rfl, rfl, rfl, fun _ => rfl, fun hc => absurd hc h1⟩
    rw [List.getElem?_set_ne (Ne.symm h1)]
    exact hx

theorem setHandlers_inv {h : Heap} {cur : Nat} {n : Node} (hn : h[cur]? = some n)
    (hd : HandlerMap) {x : Nat} {m' : Node}
    (hx : (h.set cur { n with handlers := hd })[x]? = some m') :
    ∃ m : Node, h[x]? = some m ∧ m'.pfx = m.pfx ∧
      m'.children = m.children ∧ m'.paramChild = m.paramChild ∧ m'.parent = m.parent ∧
      m'.nodeType = m.nodeType ∧ m'.param = m.param ∧ (x ≠ cur → m' = m) ∧
      (x = cur → m'.handlers = hd) := by
  by_cases h1 : x = cur
  · subst h1
    rw [getElem?_set_same hn] at hx
    cases hx
    exact ⟨n, hn, rfl, rfl, rfl, rfl, rfl, rfl, fun hc => absurd rfl hc, fun _ => rfl⟩
  · rw [List.getElem?_set_ne (Ne.symm h1)] at hx
    exact ⟨m', hx, rfl, rfl, rfl, rfl, rfl, rfl, fun _ => rfl, fun hc => absurd hc h1⟩

theorem setHandlers_step {h : Heap} {cur : Nat} {n : Node} (hn : h[cur]? = some n)
    (hd : HandlerMap) (k : Bool) (x y : Nat × Str) :
    Step k (h.set cur { n with handlers := hd }) x y ↔ Step k h x y := by
  constructor
  · apply step_of_mono
    intro a m' ha
    obtain ⟨m, g1, g2, g3, g4, -⟩ := setHandlers_inv hn hd ha
    exact ⟨m, g1, g2.symm, fun c hc => by rw [← g3]; exact hc, fun c hc => by rw [← g4]; exact hc⟩
  · apply step_of_mono
    intro a m ha
    obtain ⟨m', g1, g2, g3, g4, -⟩ := setHandlers_fwd hn hd ha
    exact ⟨m', g1, g2, fun c hc => by rw [g3]; exact hc, fun c hc => by rw [g4]; exact hc⟩

theorem setHandlers_rtc {h : Heap} {cur : Nat} {n : Node} (hn : h[cur]? = some n)
    (hd : HandlerMap) (k : Bool) (x y : Nat × Str) :
    Relation.ReflTransGen (Step k (h.set cur { n with handlers := hd })) x y ↔
      Relation.ReflTransGen (Step k h) x y := by
  constructor
  · intro hw
    exact rtc_of_pres (fun a b hs =>
      Relation.ReflTransGen.single ((setHandlers_step hn hd k a b).mp hs)) hw
  · intro hw
    exact rtc_of_pres (fun a b hs =>
      Relation.ReflTransGen.single ((setHandlers_step hn hd k a b).mpr hs)) hw

theorem setHandlers_pfxOf {h : Heap} {cur : Nat} {n : Node} (hn : h[cur]? = some n)
    (hd : HandlerMap) (x : Nat) :
    pfxOf (h.set cur { n with handlers := hd }) x = pfxOf h x := by
  cases hx : h[x]? with
  | none =>
    have : (h.set cur { n with handlers := hd })[x]? = none := by
      rw [List.getElem?_eq_none_iff] at hx ⊢
      simpa using hx
    simp [pfxOf, hx, this]
  | some m =>
    obtain ⟨m', g1, g2, -⟩ := setHandlers_fwd hn hd hx
    rw [pfxOf_eq g1, pfxOf_eq hx, g2]

theorem setHandlers_wf {h : Heap} {root cur : Nat} {n : Node} (hw : WF h root)
    (hn : h[cur]? = some n) (hd : HandlerMap) (hne : hd ≠ none) :
    WF (h.set cur { n with handlers := hd }) root := by
  have hh : ∀ {x : Nat} {m m' : Node}, h[x]? = some m →
      (h.set cur { n with handlers := hd })[x]? = some m' → m.handlers ≠ none →
      m'.handlers ≠ none := by
    intro x m m' h1 h2 h3
    obtain ⟨m2, g1, -, -, -, -, -, -, g8, g9⟩ := setHandlers_fwd hn hd h1
    rw [h2] at g1
    cases g1
    by_cases hx : x = cur
    · rw [g9 hx]; exact hne
    · rw [g8 hx]; exact h3
  constructor
  · obtain ⟨rn, h1, h2⟩ := hw.root_ok
    obtain ⟨m', g1, -, -, -, g5, -⟩ := setHandlers_fwd hn hd h1
    exact ⟨m', g1, by rw [g5, h2]⟩
  · intro x m' c hx hc
    obtain ⟨m, g1, -, g3, -⟩ := setHandlers_inv hn hd hx
    rw [g3] at hc
    obtain ⟨f0, cn, f1, f2, f3, f4, f5, f6⟩ := hw.child_ok x m c g1 hc
    obtain ⟨cn', e1, e2, -, -, e5, e6, -⟩ := setHandlers_fwd hn hd f1
    exact ⟨f0, cn', e1, by rw [e5, f2], by rw [e6, f3], by rw [e2]; exact f4,
      by rw [e2]; exact f5, hh f1 e1 f6⟩
  · intro x m' c hx hc
    obtain ⟨m, g1, -, -, g4, -⟩ := setHandlers_inv hn hd hx
    rw [g4] at hc
    obtain ⟨cn, f1, f2, f3, f4, f5⟩ := hw.param_ok x m c g1 hc
    obtain ⟨cn', e1, -, -, -, e5, e6, e7, -⟩ := setHandlers_fwd hn hd f1
    exact ⟨cn', e1, by rw [e5, f2], by rw [e6, f3], hh f1 e1 f4, by rw [e7]; exact f5⟩
  · intro x m' hx
    obtain ⟨m, g1, -, g3, -⟩ := setHandlers_inv hn hd hx
    rw [g3]
    refine List.Pairwise.imp ?_ (hw.sibling x m g1)
    intro c d hcd
    rw [setHandlers_pfxOf hn, setHandlers_pfxOf hn]
    exact hcd

/-! ### `insert` -/

theorem route_end {h : Heap} {root : Nat} (hw : WF h root) {a b : Nat} {q : Str} (hq : q ≠ [])
    (hr : Route h (a, q) (b, [])) :
    ∃ (z : Nat × Str) (m : Node), Step true h z (b, []) ∧ h[b]? = some m ∧
      m.parent = some z.1 ∧ m.handlers ≠ none := by
  rcases Relation.ReflTransGen.cases_tail hr with h1 | ⟨z, -, h2⟩
  · cases h1
    exact absurd rfl hq
  · obtain ⟨m, g1, g2, g3⟩ := step_target hw h2
    exact ⟨z, m, h2, g1, g2, g3⟩

/-- The method `insert` with a non-empty path on a well-formed heap does not
fail, and what it leaves is described by `Inserted`. -/
theorem insert_spec {h : Heap} {root : Nat} (hw : WF h root) (m q : Str) (H : CustomHandler)
    (hq : q ≠ []) :
    ∃ h2 cur, Router.insert { heap := h, tree := root } m q H
        = Except.ok { heap := h2, tree := root } ∧ Inserted h root m q H h2 cur := by
  obtain ⟨rn, hrn, hrp⟩ := hw.root_ok
  obtain ⟨h1, cur, s1, w1, g1, r1⟩ := insertLoop_spec q.length hw hrn (le_refl _)
  obtain ⟨z, m1, -, hm1, hp1, hh1⟩ := route_end w1 hq r1
  obtain ⟨hm, hhm⟩ : ∃ hm, m1.handlers = some hm := by
    cases hc : m1.handlers with
    | none => exact absurd hc hh1
    | some hm => exact ⟨hm, rfl⟩
  have hcr : cur ≠ root := by
    rintro rfl
    obtain ⟨rn1, e1, e2⟩ := w1.root_ok
    rw [hm1] at e1
    cases e1
    rw [hp1] at e2
    cases e2
  refine ⟨h1.set cur { m1 with handlers := some (mapSet hm m H) }, cur, ?_, ?_⟩
  · simp [Router.insert, s1, bindHandler, getNode, hm1, hhm, bind, Except.bind, pure,
      Except.pure]
  · exact
      { wf := setHandlers_wf w1 hm1 _ (by simp)
        route := (setHandlers_rtc hm1 _ true _ _).mpr r1
        len := by simpa using g1.len
        pres := fun k x y hs =>
          rtc_of_pres (fun a b hab =>
            Relation.ReflTransGen.single ((setHandlers_step hm1 _ k a b).mpr hab))
            (g1.pres k x y hs)
        refl := fun x y hx hy hwk =>
          g1.refl x y hx hy ((setHandlers_rtc hm1 _ false x y).mp hwk)
        cur_ne := hcr
        at_cur := by
          refine ⟨_, hm, getElem?_set_same hm1 _, rfl, ?_, ?_⟩
          · intro n hn
            obtain ⟨n', e1, e2⟩ := g1.old cur n hn
            rw [hm1] at e1
            cases e1
            rw [← e2, hhm]
          · intro hle
            have := g1.fresh cur m1 hle hm1
            rw [hhm] at this
            simpa using this
        old := fun a n ha hn => by
          obtain ⟨n', e1, e2⟩ := g1.old a n hn
          exact ⟨n', by rw [List.getElem?_set_ne (Ne.symm ha)]; exact e1, e2⟩
        fresh := fun a n2 ha hle hn => by
          rw [List.getElem?_set_ne (Ne.symm ha)] at hn
          exact g1.fresh a n2 hle hn }

/-! ### Static descents and `staticSearch` -/

theorem walk_nil {h : Heap} {root : Nat} (hw : WF h root) {k : Bool} {c : Nat} {y : Nat × Str}
    (hwk : Relation.ReflTransGen (Step k h) (c, []) y) : y = (c, []) := by
  rcases Relation.ReflTransGen.cases_head hwk with h1 | ⟨z, h1, -⟩
  · exact h1.symm
  · exact absurd rfl (step_source_ne_nil hw h1)

theorem walk_to_route {h : Heap} {x y : Nat × Str} (hwk : Walk h x y) : Route h x y := by
  induction hwk with
  | refl => exact Relation.ReflTransGen.refl
  | tail _ hs ih =>
    rcases hs with hs | ⟨hk, -⟩
    · exact ih.tail (Or.inl hs)
    · cases hk

theorem staticStep_colon {h : Heap} {root : Nat} (hw : WF h root) {x y : Nat × Str}
    (hs : StaticStep h x y) : x.2.head? ≠ some colon ∧ (colon ∉ y.2 → colon ∉ x.2) ∧
      (colon ∉ x.2 → colon ∉ y.2) := by
  obtain ⟨n, cn, h1, h2, h3, h4⟩ := hs
  obtain ⟨-, cn2, g1, -, -, g4, g5, -⟩ := hw.child_ok _ n _ h1 h2
  rw [h3] at g1
  cases g1
  rw [h4]
  refine ⟨?_, ?_, ?_⟩
  · cases hp : cn.pfx with
    | nil => exact absurd hp g4
    | cons a as =>
      rw [hp] at g5
      simp only [List.mem_cons, not_or] at g5
      simpa using Ne.symm g5.1
  · intro hy
    simp [g5, hy]
  · intro hx hy
    exact hx (List.mem_append_right _ hy)

theorem walk_colon {h : Heap} {root : Nat} (hw : WF h root) {x y : Nat × Str}
    (hwk : Walk h x y) (hy : colon ∉ y.2) : colon ∉ x.2 := by
  induction hwk with
  | refl => exact hy
  | tail _ hs ih =>
    rcases hs with hs | ⟨hk, -⟩
    · exact ih ((staticStep_colon hw hs).2.1 hy)
    · cases hk

theorem route_static {h : Heap} {root : Nat} (hw : WF h root) {x y : Nat × Str}
    (hr : Route h x y) (hx : colon ∉ x.2) : Walk h x y := by
  induction hr using Relation.ReflTransGen.head_induction_on with
  | refl => exact Relation.ReflTransGen.refl
  | head hs hrest ih =>
    rename_i a c
    rcases hs with hs | ⟨-, n, h1, h2, h3, h4⟩
    · exact Relation.ReflTransGen.head (Or.inl hs) (ih ((staticStep_colon hw hs).2.2 hx))
    · exfalso
      cases ha : a.2 with
      | nil => rw [ha] at h3; cases h3
      | cons b bs =>
        rw [ha] at h3 hx
        simp only [List.head?_cons, Option.some.injEq] at h3
        subst h3
        exact hx (List.mem_cons_self _ _)

theorem walk_target {h : Heap} {root : Nat} (hw : WF h root) {k : Bool} {p : Str}
    {y : Nat × Str} (hwk : Relation.ReflTransGen (Step k h) (root, p) y) :
    ∃ m : Node, h[y.1]? = some m := by
  rcases Relation.ReflTransGen.cases_tail hwk with h1 | ⟨z, -, h2⟩
  · obtain ⟨rn, g1, -⟩ := hw.root_ok
    rw [h1]
    exact ⟨rn, g1⟩
  · obtain ⟨m, g1, -⟩ := step_target hw h2
    exact ⟨m, g1⟩

/-- A node reached from the root by static edges is reached by no other
descent: its path is determined. -/
theorem walk_route_unique {h : Heap} {root : Nat} (hw : WF h root) {p : Str} {y : Nat × Str}
    (hwk : Walk h (root, p) y) : ∀ q, Route h (root, q) y → p = q := by
  obtain ⟨rn, hrn, hrp⟩ := hw.root_ok
  have root_not_target : ∀ (k : Bool) (z : Nat × Str) (s : Str), ¬ Step k h z (root, s) := by
    intro k z s hs
    obtain ⟨m, g1, g2, -⟩ := step_target hw hs
    rw [hrn] at g1
    cases g1
    rw [hrp] at g2
    cases g2
  induction hwk with
  | refl =>
    intro q hr
    rcases Relation.ReflTransGen.cases_tail hr with h1 | ⟨z, -, h2⟩
    · cases h1; rfl
    · exact absurd h2 (root_not_target _ _ _)
  | tail hprev hs ih =>
    rename_i z y
    intro q hr
    rcases hs with hs | ⟨hk, -⟩
    · rcases Relation.ReflTransGen.cases_tail hr with h1 | ⟨z', hr', h2⟩
      · rw [h1] at hs
        exact absurd (Or.inl hs : Step false h z (root, q)) (root_not_target _ _ _)
      · obtain ⟨n, cn, e1, e2, e3, e4⟩ := hs
        obtain ⟨-, cn2, f1, f2, f3, -⟩ := hw.child_ok _ n _ e1 e2
        rw [e3] at f1
        cases f1
        rcases h2 with ⟨n', cn', d1, d2, d3, d4⟩ | ⟨-, n', d1, d2, -⟩
        · obtain ⟨-, cn3, c1, c2, -⟩ := hw.child_ok _ n' _ d1 d2
          rw [e3] at c1 d3
          cases c1
          cases d3
          rw [f2] at c2
          have hz1 : z.1 = z'.1 := by simpa using c2
          have hz : z' = z := by
            obtain ⟨z1, z2⟩ := z
            obtain ⟨w1, w2⟩ := z'
            simp only at hz1 e4 d4
            rw [hz1, e4, d4]
          rw [hz] at hr'
          exact ih q hr'
        · obtain ⟨cn3, c1, -, c3, -⟩ := hw.param_ok _ n' _ d1 d2
          rw [e3] at c1
          cases c1
          rw [f3] at c3
          cases c3
    · cases hk

theorem staticSearchLoop_walk (fuel : Nat) {h : Heap} {root a b : Nat} {e : Str}
    (hw : WF h root) (hwk : Walk h (a, e) (b, [])) (he : e ≠ []) (hf : e.length < fuel) :
    staticSearchLoop fuel h a e = Except.ok (b, []) := by
  induction fuel generalizing a e with
  | zero => omega
  | succ fuel ih =>
    rcases Relation.ReflTransGen.cases_head hwk with h1 | ⟨c, h1, h2⟩
    · cases h1
      exact absurd rfl he
    · obtain ⟨c1, c2⟩ := c
      rcases h1 with ⟨n, cn, g1, g2, g3, g4⟩ | ⟨hk, -⟩
      · simp only at g1 g2 g3 g4
        have hl := longestCommonChild_of_child hw g1 g2 g3 g4
        obtain ⟨-, cn2, f1, -, -, f4, -⟩ := hw.child_ok _ n _ g1 g2
        rw [g3] at f1
        cases f1
        have hlen : lcpIndex e cn.pfx = cn.pfx.length := by
          rw [g4]; exact lcpIndex_append_left _ _
        have hdrop : e.drop cn.pfx.length = c2 := by
          rw [g4]; simp
        have hpos : 0 < cn.pfx.length := List.length_pos.mpr f4
        by_cases hc2 : c2 = []
        · subst hc2
          have := walk_nil hw h2
          cases this
          simp [staticSearchLoop, getNode, g1, g3, hl, hlen, hdrop, bind, Except.bind, pure,
            Except.pure]
        · have hlt : c2.length < fuel := by
            have : e.length = cn.pfx.length + c2.length := by rw [g4]; simp
            omega
          have hne : c2.length ≠ 0 := fun hz => hc2 (List.length_eq_zero.mp hz)
          simp only [staticSearchLoop, getNode, g1, g3, hl, hlen, hdrop, bind, Except.bind, hne,
            if_false]
          exact ih h2 hc2 hlt
      · cases hk

theorem walk_deterministic {h : Heap} {root a b b' : Nat} {e : Str} (hw : WF h root)
    (h1 : Walk h (a, e) (b, [])) (h2 : Walk h (a, e) (b', [])) : b = b' := by
  by_cases he : e = []
  · subst he
    have e1 := walk_nil hw h1
    have e2 := walk_nil hw h2
    cases e1
    cases e2
    rfl
  · have s1 := staticSearchLoop_walk (e.length + 1) hw h1 he (by omega)
    have s2 := staticSearchLoop_walk (e.length + 1) hw h2 he (by omega)
    rw [s1] at s2
    cases s2
    rfl

/-- The loop of `Search`, for a path that a static descent from the root consumes whole,
returns in its first pass, with the handler bound under the method at the node
reached and no parameters, and leaves the heap as it is. -/
theorem SearchLoop_walk (fuel : Nat) {h : Heap} {root b : Nat} {p : Str} {nb : Node}
    (hw : WF h root) (hwk : Walk h (root, p) (b, [])) (hp : p ≠ []) (hb : h[b]? = some nb)
    (m : Str) :
    SearchLoop (fuel + 1) h root m p [] = Except.ok ((mapGet nb.handlers m, []), h) := by
  have hs : staticSearch h root p = Except.ok (b, []) :=
    staticSearchLoop_walk (p.length + 1) hw hwk hp (by omega)
  simp [SearchLoop, hs, getNode, hb, bind, Except.bind, pure, Except.pure]

/-! ### A sequence of registrations -/

theorem lastHandler_append (regs : List (Str × Str × CustomHandler)) (m' q : Str)
    (H : CustomHandler) (m p : Str) :
    lastHandler (regs ++ [(m', q, H)]) m p =
      if m' = m ∧ q = p then H else lastHandler regs m p := by
  simp [lastHandler, List.foldl_append]

theorem lastHandler_mem (regs : List (Str × Str × CustomHandler)) (m p : Str)
    (hl : lastHandler regs m p ≠ none) : ∃ H, (m, p, H) ∈ regs := by
  induction regs using List.reverseRecOn with
  | nil => simp [lastHandler] at hl
  | append_singleton rest x ih =>
    obtain ⟨m', q, H⟩ := x
    rw [lastHandler_append] at hl
    by_cases hm : m' = m ∧ q = p
    · obtain ⟨rfl, rfl⟩ := hm
      exact ⟨H, by simp⟩
    · rw [if_neg hm] at hl
      obtain ⟨H', hH⟩ := ih hl
      exact ⟨H', List.mem_append_left _ hH⟩

theorem lastHandler_last (l1 l2 : List (Str × Str × CustomHandler)) (m p : Str)
    (H : CustomHandler) (hl2 : ∀ x ∈ l2, ¬ (x.1 = m ∧ x.2.1 = p)) :
    lastHandler (l1 ++ (m, p, H) :: l2) m p = H := by
  induction l2 using List.reverseRecOn with
  | nil => rw [lastHandler_append]; simp
  | append_singleton rest x ih =>
    obtain ⟨m', q, H'⟩ := x
    have h1 : l1 ++ (m, p, H) :: (rest ++ [(m', q, H')]) =
        (l1 ++ (m, p, H) :: rest) ++ [(m', q, H')] := by simp
    rw [h1, lastHandler_append]
    have h2 : ¬ (m' = m ∧ q = p) := hl2 (m', q, H') (by simp)
    rw [if_neg h2]
    exact ih (fun x hx => hl2 x (List.mem_append_left _ hx))

theorem lastHandler_none (regs : List (Str × Str × CustomHandler)) (m p : Str)
    (hn : ∀ x ∈ regs, ¬ (x.1 = m ∧ x.2.1 = p)) : lastHandler regs m p = none := by
  by_contra hc
  obtain ⟨H, hH⟩ := lastHandler_mem regs m p hc
  exact hn _ hH ⟨rfl, rfl⟩

theorem NewRouter_wf : WF NewRouter.heap NewRouter.tree := by
  constructor
  · exact ⟨_, rfl, rfl⟩
  · intro a n c ha hc
    cases a with
    | zero =>
      simp [NewRouter] at ha
      subst ha
      simp at hc
    | succ k => simp [NewRouter] at ha
  · intro a n c ha hc
    cases a with
    | zero =>
      simp [NewRouter] at ha
      subst ha
      simp at hc
    | succ k => simp [NewRouter] at ha
  · intro a n ha
    cases a with
    | zero =>
      simp [NewRouter] at ha
      subst ha
      simp
    | succ k => simp [NewRouter] at ha

theorem NewRouter_records : Records [] NewRouter.heap NewRouter.tree := by
  constructor
  · intro p b nb m hwk hb
    rcases Relation.ReflTransGen.cases_tail hwk with h1 | ⟨z, -, h2⟩
    · cases h1
      simp [NewRouter] at hb
      subst hb
      simp [mapGet, lastHandler]
    · exfalso
      rcases h2 with ⟨n, cn, g1, g2, -⟩ | ⟨hk, -⟩
      · have hz : z.1 = 0 := by
          have := lt_length_of_getElem? g1
          simp [NewRouter] at this
          exact this
        rw [hz] at g1
        simp [NewRouter] at g1
        subst g1
        simp at g2
      · cases hk
  · intro x hx
    cases hx

/-- One more registration keeps the record. -/
theorem Inserted.records {regs : List (Str × Str × CustomHandler)} {h h2 : Heap}
    {root cur : Nat} {m q : Str} {H : CustomHandler} (hw : WF h root)
    (rec : Records regs h root) (ins : Inserted h root m q H h2 cur) :
    Records (regs ++ [(m, q, H)]) h2 root := by
  obtain ⟨rn, hrn, -⟩ := hw.root_ok
  have hroot : root < h.length := lt_length_of_getElem? hrn
  have up : ∀ {p : Str} {b : Nat}, Walk h (root, p) (b, []) → Walk h2 (root, p) (b, []) :=
    fun hwk => rtc_of_pres (ins.pres false) hwk
  -- a static descent of the new heap along the registered path ends at `cur`
  have at_q : ∀ {b : Nat}, Walk h2 (root, q) (b, []) → b = cur := by
    intro b hwk
    have hc : colon ∉ q := walk_colon ins.wf hwk (by simp)
    exact walk_deterministic ins.wf hwk (route_static ins.wf ins.route hc)
  -- a path with a handler in the old record ends at an old object
  have old_end : ∀ {p : Str} {b : Nat} {m2 : Str}, Walk h2 (root, p) (b, []) →
      lastHandler regs m2 p ≠ none → b < h.length := by
    intro p b m2 hwk hl
    obtain ⟨H', hH⟩ := lastHandler_mem regs m2 p hl
    have hc : colon ∉ p := walk_colon ins.wf hwk (by simp)
    obtain ⟨b0, hb0⟩ := rec.present _ hH hc
    obtain ⟨m0, hm0⟩ := walk_target hw hb0
    have := walk_deterministic ins.wf hwk (up hb0)
    rw [this]
    exact lt_length_of_getElem? hm0
  constructor
  · intro p b nb m2 hwk hb
    rw [lastHandler_append]
    by_cases hbc : b = cur
    · subst hbc
      have hpq : p = q := walk_route_unique ins.wf hwk q ins.route
      subst hpq
      obtain ⟨n2, hm, e1, e2, e3, e4⟩ := ins.at_cur
      rw [hb] at e1
      cases e1
      rw [e2, mapGet_mapSet]
      by_cases hmm : m2 = m
      · subst hmm
        simp
      · have hmm2 : ¬ (m = m2 ∧ p = p) := fun hc => hmm hc.1.symm
        rw [if_neg hmm, if_neg hmm2]
        rcases Nat.lt_or_ge b h.length with hlt | hge
        · obtain ⟨n0, hn0⟩ : ∃ n0, h[b]? = some n0 := ⟨h[b], by simp [hlt]⟩
          rw [← e3 n0 hn0]
          exact rec.bound p b n0 m2 (ins.refl _ _ hroot hlt hwk) hn0
        · rw [e4 hge]
          by_contra hc
          have hl : lastHandler regs m2 p ≠ none := by
            intro hz
            rw [hz] at hc
            exact hc (by simp [mapGet])
          have := old_end hwk hl
          omega
    · have hpq : ¬ (m = m2 ∧ q = p) := by
        rintro ⟨-, rfl⟩
        exact hbc (at_q hwk)
      rw [if_neg hpq]
      rcases Nat.lt_or_ge b h.length with hlt | hge
      · obtain ⟨n0, hn0⟩ : ∃ n0, h[b]? = some n0 := ⟨h[b], by simp [hlt]⟩
        obtain ⟨n2, e1, e2⟩ := ins.old b n0 hbc hn0
        rw [hb] at e1
        cases e1
        rw [e2]
        exact rec.bound p b n0 m2 (ins.refl _ _ hroot hlt hwk) hn0
      · rw [ins.fresh b nb hbc hge hb]
        by_contra hc
        have hl : lastHandler regs m2 p ≠ none := by
          intro hz
          rw [hz] at hc
          exact hc (by simp [mapGet])
        have := old_end hwk hl
        omega
  · intro x hx hc
    rcases List.mem_append.mp hx with hx | hx
    · obtain ⟨b, hb⟩ := rec.present x hx hc
      exact ⟨b, up hb⟩
    · have : x = (m, q, H) := by simpa using hx
      subst this
      exact ⟨cur, route_static ins.wf ins.route hc⟩

/-- Registrations of non-empty paths on a well-formed heap with a record: they
all succeed and leave a well-formed heap with the record of all of them. -/
theorem registerAll_records (rest : List (Str × Str × CustomHandler)) :
    ∀ (done : List (Str × Str × CustomHandler)) (h : Heap) (root : Nat), WF h root →
      Records done h root → (∀ x ∈ rest, x.2.1 ≠ []) →
      ∃ h2, registerAll rest { heap := h, tree := root } = Except.ok { heap := h2, tree := root } ∧
        WF h2 root ∧ Records (done ++ rest) h2 root := by
  induction rest with
  | nil =>
    intro done h root hw rec _
    exact ⟨h, rfl, hw, by simpa using rec⟩
  | cons x rest ih =>
    intro done h root hw rec hne
    obtain ⟨m, q, H⟩ := x
    have hq : q ≠ [] := hne (m, q, H) (List.mem_cons_self _ _)
    obtain ⟨h1, cur, s1, ins⟩ := insert_spec hw m q H hq
    obtain ⟨h2, s2, w2, rec2⟩ := ih (done ++ [(m, q, H)]) h1 root ins.wf (ins.records hw rec)
      (fun y hy => hne y (List.mem_cons_of_mem _ hy))
    refine ⟨h2, ?_, w2, by simpa using rec2⟩
    simp [registerAll, s1, s2, bind, Except.bind]

theorem registerAll_NewRouter (regs : List (Str × Str × CustomHandler))
    (hne : ∀ x ∈ regs, x.2.1 ≠ []) :
    ∃ h, registerAll regs NewRouter = Except.ok { heap := h, tree := 0 } ∧ WF h 0 ∧
      Records regs h 0 := by
  obtain ⟨h, s, w, rec⟩ := registerAll_records regs [] NewRouter.heap NewRouter.tree
    NewRouter_wf NewRouter_records hne
  exact ⟨h, s, w, by simpa using rec⟩

/-- After registrations of non-empty paths, `Search` for a registered static
path returns in its first pass the handler last registered for the method and
the path (`nil` when the path was registered under other methods only), with no
parameters. -/
theorem Search_registered_static (regs : List (Str × Str × CustomHandler))
    (hne : ∀ x ∈ regs, x.2.1 ≠ []) (m' p : Str) (H' : CustomHandler)
    (hmem : (m', p, H') ∈ regs) (hp : colon ∉ p) (m : Str) (fuel : Nat) :
    ∃ r, registerAll regs NewRouter = Except.ok r ∧
      (r.Search (fuel + 1) m p).map Prod.fst = Except.ok (lastHandler regs m p, []) := by
  obtain ⟨h, s, w, rec⟩ := registerAll_NewRouter regs hne
  obtain ⟨b, hb⟩ := rec.present _ hmem hp
  obtain ⟨nb, hnb⟩ := walk_target w hb
  have hpne : p ≠ [] := hne _ hmem
  refine ⟨_, s, ?_⟩
  have := SearchLoop_walk fuel w hb hpne hnb m
  simp [Router.Search, this, bind, Except.bind, pure, Except.pure, Except.map,
    rec.bound p b nb m hb hnb]

/-! ### Every reachable router is well-formed -/

theorem WF_of_eraseValues_eq {h1 h2 : Heap} {root : Nat}
    (heq : eraseValues h1 = eraseValues h2) (hw : WF h1 root) : WF h2 root := by
  have back : ∀ {x : Nat} {m2 : Node}, h2[x]? = some m2 →
      ∃ m1 : Node, h1[x]? = some m1 ∧ m1.clearValue = m2.clearValue := by
    intro x m2 hx
    rcases getNode_of_eraseValues_eq heq x with ⟨n1, n2, e1, e2, hc⟩ | ⟨-, e2⟩
    · rw [hx] at e2
      cases e2
      exact ⟨n1, e1, hc⟩
    · rw [hx] at e2
      cases e2
  have fwd : ∀ {x : Nat} {m1 : Node}, h1[x]? = some m1 →
      ∃ m2 : Node, h2[x]? = some m2 ∧ m1.clearValue = m2.clearValue := by
    intro x m1 hx
    rcases getNode_of_eraseValues_eq heq x with ⟨n1, n2, e1, e2, hc⟩ | ⟨e1, -⟩
    · rw [hx] at e1
      cases e1
      exact ⟨n2, e2, hc⟩
    · rw [hx] at e1
      cases e1
  constructor
  · obtain ⟨rn, g1, g2⟩ := hw.root_ok
    obtain ⟨m2, f1, f2⟩ := fwd g1
    exact ⟨m2, f1, by rw [← (clearValue_eq f2).2.2.2.2.1, g2]⟩
  · intro x m2 c hx hc
    obtain ⟨m1, g1, g2⟩ := back hx
    rw [← (clearValue_eq g2).2.2.1] at hc
    obtain ⟨e0, cn, e1, e2, e3, e4, e5, e6⟩ := hw.child_ok x m1 c g1 hc
    obtain ⟨cn2, f1, f2⟩ := fwd e1
    obtain ⟨-, d2, -, -, d5, d6, d7, -⟩ := clearValue_eq f2
    exact ⟨e0, cn2, f1, by rw [← d5, e2], by rw [← d6, e3], by rw [← d2]; exact e4,
      by rw [← d2]; exact e5, by rw [← d7]; exact e6⟩
  · intro x m2 c hx hc
    obtain ⟨m1, g1, g2⟩ := back hx
    rw [← (clearValue_eq g2).2.2.2.1] at hc
    obtain ⟨cn, e1, e2, e3, e4, e5⟩ := hw.param_ok x m1 c g1 hc
    obtain ⟨cn2, f1, f2⟩ := fwd e1
    obtain ⟨-, -, -, -, d5, d6, d7, d8⟩ := clearValue_eq f2
    refine ⟨cn2, f1, by rw [← d5, e2], by rw [← d6, e3], by rw [← d7]; exact e4, ?_⟩
    intro hn
    rw [hn] at d8
    cases hp : cn.param with
    | none => exact e5 hp
    | some q => rw [hp] at d8; cases d8
  · intro x m2 hx
    obtain ⟨m1, g1, g2⟩ := back hx
    rw [← (clearValue_eq g2).2.2.1]
    refine List.Pairwise.imp ?_ (hw.sibling x m1 g1)
    intro c d hcd
    rw [← pfxOf_of_eraseValues_eq heq c, ← pfxOf_of_eraseValues_eq heq d]
    exact hcd

theorem Reachable.reachable_wf {r : Router} (hr : Reachable r) : WF r.heap r.tree := by
  induction hr with
  | new => exact NewRouter_wf
  | @insert r r1 m p H _ hp hi ih =>
    obtain ⟨h2, cur, s, ins⟩ := @insert_spec r.heap r.tree ih m p H hp
    have : r = { heap := r.heap, tree := r.tree } := rfl
    rw [this, s] at hi
    cases hi
    exact ins.wf
  | @search r r1 fuel m p res _ hs ih =>
    obtain ⟨ht, hh⟩ := Search_eraseValues fuel r r1 m p res hs
    rw [ht]
    exact WF_of_eraseValues_eq hh.symm ih

theorem registerAll_reachable (regs : List (Str × Str × CustomHandler)) :
    ∀ (r r1 : Router), Reachable r → (∀ x ∈ regs, x.2.1 ≠ []) →
      registerAll regs r = Except.ok r1 → Reachable r1 := by
  induction regs with
  | nil =>
    intro r r1 hr _ h
    cases h
    exact hr
  | cons x rest ih =>
    intro r r1 hr hne h
    obtain ⟨m, q, H⟩ := x
    cases hi : r.insert m q H with
    | error err => simp [registerAll, hi, bind, Except.bind] at h
    | ok r2 =>
      simp only [registerAll, hi, bind, Except.bind] at h
      exact ih r2 r1 (Reachable.insert m q H hr (hne _ (List.mem_cons_self _ _)) hi)
        (fun y hy => hne y (List.mem_cons_of_mem _ hy)) h

/-! ### Registered static routes, unbound methods, re-registration -/

/-- C2. Static routes resolve to their own handler: after any sequence of
registrations of non-empty paths (static or with params) on a new router, in
which `(m, p, H)` with a static `p` occurs and no later registration is for
`(m, p)` again, all registrations succeed and `Search(m, p)` returns in its
first pass the handler `H` with an empty parameter list, whatever was registered
before or after and whatever nodes were split. -/
theorem static_route_resolves (l1 l2 : List (Str × Str × CustomHandler)) (m p : Str)
    (H : CustomHandler) (fuel : Nat) (hne : ∀ x ∈ l1 ++ (m, p, H) :: l2, x.2.1 ≠ [])
    (hp : colon ∉ p) (hlast : ∀ x ∈ l2, ¬ (x.1 = m ∧ x.2.1 = p)) :
    ∃ r, registerAll (l1 ++ (m, p, H) :: l2) NewRouter = Except.ok r ∧
      (r.Search (fuel + 1) m p).map Prod.fst = Except.ok (H, []) := by
  obtain ⟨r, s, hs⟩ := Search_registered_static (l1 ++ (m, p, H) :: l2) hne m p H
    (by simp) hp m fuel
  rw [lastHandler_last l1 l2 m p H hlast] at hs
  exact ⟨r, s, hs⟩

/-- The theorem `static_route_resolves` at the registrations `/cat`, `/users/:id`,
`/car`, `/ca`, `/card`, for the route `/car`. -/
theorem static_route_resolves_witness :
    ∃ r, registerAll ([(MethodGet, bytes "/cat", some 1), (MethodGet, bytes "/users/:id", some 2)]
        ++ (MethodGet, bytes "/car", some 3) ::
          [(MethodGet, bytes "/ca", some 4), (MethodGet, bytes "/card", some 5)])
        NewRouter = Except.ok r ∧
      (r.Search (0 + 1) MethodGet (bytes "/car")).map Prod.fst = Except.ok (some 3, []) :=
  static_route_resolves
    [(MethodGet, bytes "/cat", some 1), (MethodGet, bytes "/users/:id", some 2)]
    [(MethodGet, bytes "/ca", some 4), (MethodGet, bytes "/card", some 5)]
    MethodGet (bytes "/car") (some 3) 0 (by decide) (by decide) (by decide)

/-- C8. Path matched but method unbound: after any sequence of registrations of
non-empty paths on a new router in which the static path `p` is registered under
a method `m'` (last with handler `H'`) and never under `m`, `Search(m, p)`
returns normally with an absent handler and no parameters, while `Search(m', p)`
returns `H'`. -/
theorem unbound_method_absent (l1 l2 : List (Str × Str × CustomHandler)) (m m' p : Str)
    (H' : CustomHandler) (fuel : Nat) (hne : ∀ x ∈ l1 ++ (m', p, H') :: l2, x.2.1 ≠ [])
    (hp : colon ∉ p) (hlast : ∀ x ∈ l2, ¬ (x.1 = m' ∧ x.2.1 = p))
    (hm : ∀ x ∈ l1 ++ (m', p, H') :: l2, ¬ (x.1 = m ∧ x.2.1 = p)) :
    ∃ r, registerAll (l1 ++ (m', p, H') :: l2) NewRouter = Except.ok r ∧
      (r.Search (fuel + 1) m p).map Prod.fst = Except.ok (none, []) ∧
      (r.Search (fuel + 1) m' p).map Prod.fst = Except.ok (H', []) := by
  obtain ⟨r, s, hs⟩ := Search_registered_static (l1 ++ (m', p, H') :: l2) hne m' p H'
    (by simp) hp m fuel
  obtain ⟨r', s', hs'⟩ := Search_registered_static (l1 ++ (m', p, H') :: l2) hne m' p H'
    (by simp) hp m' fuel
  rw [s] at s'
  cases s'
  rw [lastHandler_none _ m p hm] at hs
  rw [lastHandler_last l1 l2 m' p H' hlast] at hs'
  exact ⟨r, s, hs, hs'⟩

/-- The theorem `unbound_method_absent` at the registrations `GET /cat`,
`POST /car`, `GET /card`, for `GET /car`. -/
theorem unbound_method_absent_witness :
    ∃ r, registerAll ([(MethodGet, bytes "/cat", some 1)]
        ++ (bytes "POST", bytes "/car", some 2) :: [(MethodGet, bytes "/card", some 3)])
        NewRouter = Except.ok r ∧
      (r.Search (0 + 1) MethodGet (bytes "/car")).map Prod.fst = Except.ok (none, []) ∧
      (r.Search (0 + 1) (bytes "POST") (bytes "/car")).map Prod.fst = Except.ok (some 2, []) :=
  unbound_method_absent [(MethodGet, bytes "/cat", some 1)] [(MethodGet, bytes "/card", some 3)]
    MethodGet (bytes "POST") (bytes "/car") (some 2) 0 (by decide) (by decide) (by decide)
    (by decide)

/-- C7. Overwrite (last write wins): on every reachable router (built from
`NewRouter` by registrations of non-empty paths and by searches), registering
`(m, p, H1)` and then `(m, p, H2)` with a non-empty `p` both succeed and bind at
the same node `b`, the end of the descent along `p`; the router after the second
registration is the router after the first with nothing changed but the handler
map of `b`, in which `m` now maps to `H2` and every other method to what it
mapped to (so no node is created and no prefix changes); and when `p` is static,
`Search(m, p)` then returns `H2`. -/
theorem overwrite_last_write_wins (r : Router) (hr : Reachable r) (m p : Str) (hp : p ≠ [])
    (H1 H2 : CustomHandler) :
    ∃ (r1 r2 : Router) (b : Nat) (n1 : Node) (hm : List (Str × CustomHandler)),
      r.insert m p H1 = Except.ok r1 ∧ r1.insert m p H2 = Except.ok r2 ∧
      Route r1.heap (r1.tree, p) (b, []) ∧
      r1.heap[b]? = some n1 ∧ n1.handlers = some hm ∧ mapGet (some hm) m = H1 ∧
      r2 = { r1 with heap := r1.heap.set b { n1 with handlers := some (mapSet hm m H2) } } ∧
      mapGet (some (mapSet hm m H2)) m = H2 ∧
      (∀ m2, m2 ≠ m → mapGet (some (mapSet hm m H2)) m2 = mapGet (some hm) m2) ∧
      (colon ∉ p → ∀ fuel, (r2.Search (fuel + 1) m p).map Prod.fst = Except.ok (H2, [])) := by
  have w := hr.reachable_wf
  obtain ⟨h1, b, s1, ins⟩ := insert_spec w m p H1 hp
  obtain ⟨n1, hm0, e1, e2, -, -⟩ := ins.at_cur
  have w1 := ins.wf
  have hl : insertLoop p.length h1 r.tree p = Except.ok (h1, b) :=
    insertLoop_of_route p.length w1 ins.route (le_refl _)
  refine ⟨_, _, b, n1, mapSet hm0 m H1, s1, ?_, ins.route, e1, e2, ?_, rfl, ?_, ?_, ?_⟩
  · simp [Router.insert, hl, bindHandler, getNode, e1, e2, bind, Except.bind, pure,
      Except.pure]
  · rw [mapGet_mapSet]; simp
  · rw [mapGet_mapSet]; simp
  · intro m2 hm2
    rw [mapGet_mapSet, if_neg hm2]
  · intro hc fuel
    have w2 := setHandlers_wf w1 e1 (some (mapSet (mapSet hm0 m H1) m H2)) (by simp)
    have hwk : Walk (h1.set b { n1 with handlers := some (mapSet (mapSet hm0 m H1) m H2) })
        (r.tree, p) (b, []) :=
      route_static w2 ((setHandlers_rtc e1 _ true _ _).mpr ins.route) hc
    have := SearchLoop_walk fuel w2 hwk hp (getElem?_set_same e1 _) m
    simp only [Router.Search, this, bind, Except.bind, pure, Except.pure, Except.map]
    rw [mapGet_mapSet]
    simp

theorem catCarRouter_reachable : Reachable catCarRouter :=
  registerAll_reachable [(MethodGet, bytes "/cat", some 1), (MethodGet, bytes "/car", some 2)]
    NewRouter catCarRouter Reachable.new (by decide) (by decide)

/-- The theorem `overwrite_last_write_wins` at the router with the routes
`GET /cat` and `GET /car`, for `GET /cat` registered twice more. -/
theorem overwrite_last_write_wins_witness :
    ∃ (r1 r2 : Router) (b : Nat) (n1 : Node) (hm : List (Str × CustomHandler)),
      catCarRouter.insert MethodGet (bytes "/cat") (some 3) = Except.ok r1 ∧
      r1.insert MethodGet (bytes "/cat") (some 4) = Except.ok r2 ∧
      Route r1.heap (r1.tree, bytes "/cat") (b, []) ∧
      r1.heap[b]? = some n1 ∧ n1.handlers = some hm ∧ mapGet (some hm) MethodGet = some 3 ∧
      r2 = { r1 with
        heap := r1.heap.set b { n1 with handlers := some (mapSet hm MethodGet (some 4)) } } ∧
      mapGet (some (mapSet hm MethodGet (some 4))) MethodGet = some 4 ∧
      (∀ m2, m2 ≠ MethodGet →
        mapGet (some (mapSet hm MethodGet (some 4))) m2 = mapGet (some hm) m2) ∧
      (colon ∉ bytes "/cat" → ∀ fuel,
        (r2.Search (fuel + 1) MethodGet (bytes "/cat")).map Prod.fst = Except.ok (some 4, [])) :=
  overwrite_last_write_wins catCarRouter catCarRouter_reachable MethodGet (bytes "/cat")
    (by decide) (some 3) (some 4)

/-! ### The iteration budgets of `staticSearch` and `insert` are never exhausted -/

/-- Every pass of the loop of `staticSearch` consumes at least one byte, so a
budget above `len(endpoint)` is never used up, on any heap. -/
theorem staticSearchLoop_fuel (fuel : Nat) (h : Heap) (cur : Nat) (e : Str)
    (hf : e.length < fuel) : staticSearchLoop fuel h cur e ≠ Except.error Fault.outOfFuel := by
  induction fuel generalizing cur e with
  | zero => omega
  | succ fuel ih =>
    unfold staticSearchLoop
    cases hn : h[cur]? with
    | none => simp [getNode, hn, bind, Except.bind]
    | some n =>
      cases hl : longestCommonChild h n e with
      | none => simp [getNode, hn, hl, bind, Except.bind, pure, Except.pure]
      | some c =>
        obtain ⟨-, hpos⟩ := longestCommonChild_some hl
        cases hc : h[c]? with
        | none => simp [getNode, hn, hl, hc, bind, Except.bind]
        | some cn =>
          rw [pfxOf_eq hc] at hpos
          by_cases hz : (e.drop (lcpIndex e cn.pfx)).length = 0
          · simp only [getNode, hn, hl, hc, bind, Except.bind, hz, if_true, pure, Except.pure]
            intro hcon
            cases hcon
          · have he : e ≠ [] := by
              rintro rfl
              simp at hz
            have := length_drop_lt e hpos he
            simp only [getNode, hn, hl, hc, bind, Except.bind, hz, if_false]
            exact ih c _ (by omega)

/-- A pass of the loop of `insert` that does not fail consumes at least one
byte of a non-empty path, on any heap. -/
theorem insertStep_consumes {h h1 : Heap} {cur cur1 : Nat} {e e1 : Str} (he : e ≠ [])
    (hs : insertStep h cur e = Except.ok (h1, cur1, e1)) : e1.length < e.length := by
  unfold insertStep at hs
  cases hn : h[cur]? with
  | none => simp [getNode, hn, bind, Except.bind] at hs
  | some n =>
    by_cases hhead : e.head? = some colon
    · have hj : 0 < indexByte slash e := by
        apply indexByte_pos _ _ he
        rw [hhead]
        simpa using colon_ne_slash
      cases hpc : n.paramChild with
      | some child =>
        simp [getNode, hn, hhead, hpc, bind, Except.bind, pure, Except.pure] at hs
        rw [← hs.2.2]
        exact length_drop_lt e hj he
      | none =>
        simp [getNode, hn, hhead, hpc, bind, Except.bind, pure, Except.pure] at hs
        rw [← hs.2.2]
        exact length_drop_lt e hj he
    · have hj : 0 < indexByte colon e := indexByte_pos _ _ he hhead
      cases hl : longestCommonChild h n e with
      | none =>
        simp [getNode, hn, hhead, hl, bind, Except.bind, pure, Except.pure] at hs
        rw [← hs.2.2]
        exact length_drop_lt e hj he
      | some next =>
        obtain ⟨-, hpos⟩ := longestCommonChild_some hl
        cases hc : h[next]? with
        | none => simp [getNode, hn, hhead, hl, hc, bind, Except.bind] at hs
        | some nn =>
          rw [pfxOf_eq hc] at hpos
          by_cases hfull : nn.pfx.length = lcpIndex e nn.pfx
          · simp [getNode, hn, hhead, hl, hc, hfull, bind, Except.bind, pure, Except.pure] at hs
            rw [← hs.2.2]
            exact length_drop_lt e hpos he
          · simp [getNode, hn, hhead, hl, hc, hfull, bind, Except.bind, pure, Except.pure] at hs
            rw [← hs.2.2]
            exact length_drop_lt e hpos he

/-- A budget of `len(endpoint)` passes is never used up by the loop of `insert`,
on any heap. -/
theorem insertLoop_fuel (fuel : Nat) (h : Heap) (cur : Nat) (e : Str) (hf : e.length ≤ fuel) :
    insertLoop fuel h cur e ≠ Except.error Fault.outOfFuel := by
  induction fuel generalizing h cur e with
  | zero =>
    have : e = [] := List.length_eq_zero.mp (Nat.le_zero.mp hf)
    subst this
    simp [insertLoop_nil]
  | succ fuel ih =>
    by_cases he : e = []
    · subst he
      simp [insertLoop_nil]
    · cases hs : insertStep h cur e with
      | error err =>
        have hne : err ≠ Fault.outOfFuel := by
          rintro rfl
          unfold insertStep at hs
          cases hn : h[cur]? with
          | none => simp [getNode, hn, bind, Except.bind] at hs
          | some n =>
            by_cases hhead : e.head? = some colon
            · cases hpc : n.paramChild <;>
                simp [getNode, hn, hhead, hpc, bind, Except.bind, pure, Except.pure] at hs
            · cases hl : longestCommonChild h n e with
              | none => simp [getNode, hn, hhead, hl, bind, Except.bind, pure, Except.pure] at hs
              | some next =>
                cases hc : h[next]? with
                | none => simp [getNode, hn, hhead, hl, hc, bind, Except.bind] at hs
                | some nn =>
                  by_cases hfull : nn.pfx.length = lcpIndex e nn.pfx <;>
                    simp [getNode, hn, hhead, hl, hc, hfull, bind, Except.bind, pure,
                      Except.pure] at hs
        cases e with
        | nil => exact absurd rfl he
        | cons x xs =>
          simp only [insertLoop, hs, bind, Except.bind]
          intro hc
          cases hc
          exact hne rfl
      | ok v =>
        obtain ⟨h1, cur1, e1⟩ := v
        have := insertStep_consumes he hs
        rw [insertLoop_cons fuel h cur e he hs]
        exact ih h1 cur1 e1 (by omega)

/-! ### The root route -/

theorem bytes_slash : bytes "/" = [slash] := by decide

/-- C11, as the code has it: on a new router, registering `H` under `/`
succeeds and `Search` with the same method and `/` then returns `H` with no
parameters; the empty path is not accepted: the root's handler map is nil, and
registering under `""` fails on the assignment to it. -/
theorem root_route_slash (m : Str) (H : CustomHandler) (fuel : Nat) :
    (∃ r, NewRouter.insert m (bytes "/") H = Except.ok r ∧
      (r.Search (fuel + 1) m (bytes "/")).map Prod.fst = Except.ok (H, [])) ∧
    NewRouter.insert m [] H = Except.error Fault.nilMapWrite := by
  rw [bytes_slash]
  constructor
  · have hs : slash ≠ colon := fun h => colon_ne_slash h.symm
    simp [Router.insert, insertLoop, insertStep, NewRouter, getNode, hs, indexByte, bind,
      Except.bind, pure, Except.pure, modNode, newNode, bindHandler, mapSet,
      longestCommonChild, longestCommonChildLoop]
    simp [Router.Search, SearchLoop, staticSearch, staticSearchLoop, getNode,
      longestCommonChild, longestCommonChildLoop, bind, Except.bind, pure, Except.pure,
      Except.map, mapGet, pfxOf, lcpIndex]
  · simp [Router.insert, insertLoop, NewRouter, getNode, bind, Except.bind, pure, Except.pure,
      bindHandler]

/-- C11 as stated fails: on a new router, registering a handler under the empty
path panics (assignment to an entry of the root's nil handler map). -/
theorem root_route_empty_panics :
    NewRouter.insert MethodGet [] (some 1) = Except.error Fault.nilMapWrite := by
  decide

/-! ### `Context.Param` -/

theorem ParamLoop_eq (c : Context) (key : Str) (ps : List Param) :
    Context.ParamLoop c key ps =
      (((ps.find? (fun p => decide (p.key = key))).map Param.value).getD [], c) := by
  induction ps with
  | nil => rfl
  | cons p ps ih =>
    by_cases hp : p.key = key
    · simp [Context.ParamLoop, hp]
    · simp [Context.ParamLoop, hp, ih]

/-- C13. `Context.Param(key)` returns the value of the first entry of the
parameter list, in list order, whose key equals `key`, and the empty string when
there is none; the context after the call is the context before it. -/
theorem context_param_lookup (c : Context) (key : Str) :
    c.Param key =
      (((c.params.find? (fun p => decide (p.key = key))).map Param.value).getD [], c) :=
  ParamLoop_eq c key c.params

/-! ### `ServeHTTP` -/

/-- C14. Dispatch or 404: when `Search` returns for the request's method and
path, `ServeHTTP` does the following and nothing else before handing the context
back to the pool. With a present handler it calls that handler once, with a
context whose request, response writer and parameter list are those of this call
whatever the pooled context held, and writes no status. With an absent handler
it calls no handler and writes status 404 and then the body `404 Not Found`. -/
theorem serve_dispatch_or_404 (fuel : Nat) (r r1 : Router) (pooled : Context) (w : Nat)
    (req : Request) (handler : CustomHandler) (params : List Param)
    (hs : r.Search fuel req.method req.path = Except.ok ((handler, params), r1)) :
    (∀ hd, handler = some hd →
      r.ServeHTTP fuel pooled w req =
        Except.ok ([Effect.invoke hd { params := params, w := some w, r := some req },
          Effect.poolPut], r1)) ∧
    (handler = none →
      r.ServeHTTP fuel pooled w req =
        Except.ok ([Effect.writeHeader w 404, Effect.write w (bytes "404 Not Found"),
          Effect.poolPut], r1)) := by
  constructor
  · intro hd hh
    subst hh
    simp [Router.ServeHTTP, hs, bind, Except.bind, pure, Except.pure]
  · intro hh
    subst hh
    simp [Router.ServeHTTP, hs, bind, Except.bind, pure, Except.pure, StatusNotFound]

/-- The theorem `serve_dispatch_or_404` at `usersRouter`, the request
`GET /users/42` and a pooled context left over from another request. -/
theorem serve_dispatch_or_404_witness :
    (∀ hd, some 1 = some hd →
      usersRouter.ServeHTTP 1
          { params := [{ key := bytes "id", value := bytes "7" }], w := some 3,
            r := some { id := 8, method := MethodGet, path := bytes "/users/7" } }
          5 { id := 9, method := MethodGet, path := bytes "/users/42" } =
        Except.ok ([Effect.invoke hd
            { params := [{ key := bytes "id", value := bytes "42" }], w := some 5,
              r := some { id := 9, method := MethodGet, path := bytes "/users/42" } },
          Effect.poolPut], usersRouterAfter)) ∧
    (some 1 = none →
      usersRouter.ServeHTTP 1
          { params := [{ key := bytes "id", value := bytes "7" }], w := some 3,
            r := some { id := 8, method := MethodGet, path := bytes "/users/7" } }
          5 { id := 9, method := MethodGet, path := bytes "/users/42" } =
        Except.ok ([Effect.writeHeader 5 404, Effect.write 5 (bytes "404 Not Found"),
          Effect.poolPut], usersRouterAfter)) :=
  serve_dispatch_or_404 1 usersRouter usersRouterAfter
    { params := [{ key := bytes "id", value := bytes "7" }], w := some 3,
      r := some { id := 8, method := MethodGet, path := bytes "/users/7" } }
    5 { id := 9, method := MethodGet, path := bytes "/users/42" } (some 1)
    [{ key := bytes "id", value := bytes "42" }] (by decide)

/-! ### A request that goes past a param route -/

theorem usersRouter_heap : usersRouter.heap = usersHeapWith [] := by decide

/-- One pass of the loop of `Search` at the param node of `/users/:id` with
`/abc` left: static descent finds no child, `backTrack` puts the prefix `:id` of
the param node in front of the path and goes up to its parent, `paramSearch`
captures `:id` and comes back to the param node with `/abc` left. -/
theorem SearchLoop_users_pass (fuel : Nat) (v : Str) (ps : List Param) :
    SearchLoop (fuel + 1) (usersHeapWith v) 2 MethodGet [47, 97, 98, 99] ps =
      SearchLoop fuel (usersHeapWith [58, 105, 100]) 2 MethodGet [47, 97, 98, 99]
        (ps ++ [{ key := [105, 100], value := [58, 105, 100] }]) := by
  simp [SearchLoop, staticSearch, staticSearchLoop, usersHeapWith, getNode, longestCommonChild,
    longestCommonChildLoop, backTrack, backTrackLoop, paramSearch, indexByte, slash, bind,
    Except.bind, pure, Except.pure]

theorem SearchLoop_users_forever (fuel : Nat) :
    ∀ (v : Str) (ps : List Param),
      SearchLoop fuel (usersHeapWith v) 2 MethodGet [47, 97, 98, 99] ps =
        Except.error Fault.outOfFuel := by
  induction fuel with
  | zero => intro v ps; rfl
  | succ fuel ih =>
    intro v ps
    rw [SearchLoop_users_pass]
    exact ih _ _

/-- C17 at a failing input: on the router with the single route
`GET /users/:id`, `Search("GET", "/users/42/abc")` has not returned after any
number of passes of its loop: every budget is used up. -/
theorem search_users_never_returns (fuel : Nat) :
    usersRouter.Search fuel MethodGet (bytes "/users/42/abc") =
      Except.error Fault.outOfFuel := by
  have hb : bytes "/users/42/abc" = [47, 117, 115, 101, 114, 115, 47, 52, 50, 47, 97, 98, 99] := by
    decide
  have ht : usersRouter.tree = 0 := rfl
  unfold Router.Search
  rw [usersRouter_heap, hb, ht]
  cases fuel with
  | zero => rfl
  | succ fuel =>
    have h1 : SearchLoop (fuel + 1) (usersHeapWith []) 0 MethodGet
        [47, 117, 115, 101, 114, 115, 47, 52, 50, 47, 97, 98, 99] [] =
        SearchLoop fuel (usersHeapWith [52, 50]) 2 MethodGet [47, 97, 98, 99]
          [{ key := [105, 100], value := [52, 50] }] := by
      simp [SearchLoop, staticSearch, staticSearchLoop, usersHeapWith, getNode,
        longestCommonChild, longestCommonChildLoop, backTrack, backTrackLoop, paramSearch,
        indexByte, lcpIndex, pfxOf, slash, bind, Except.bind, pure, Except.pure]
    rw [h1, SearchLoop_users_forever]
    rfl

/-! ### What `backTrack` puts back -/

/-- C18 at a failing input: with the routes `GET /a/bc` and `GET /a/:id` and the
request `/a/bd`, static descent passes the node of `/a/` (address 2) with `bd`
left and stops in the node of `bc` (address 1) with `d` left; `backTrack` then
returns to address 2 with `bcd`, not `bd`; `Search` returns the value `bcd`,
which is no contiguous part of `/a/bd`. -/
theorem backTrack_prepends_whole_prefix :
    (registerAll [(MethodGet, bytes "/a/bc", some 1), (MethodGet, bytes "/a/:id", some 2)]
        NewRouter).map (fun r =>
      (staticSearch r.heap 0 (bytes "/a/"), staticSearch r.heap 0 (bytes "/a/bd"),
        backTrack r.heap (some 1) (bytes "d"),
        (r.Search 1 MethodGet (bytes "/a/bd")).map Prod.fst))
      = Except.ok (Except.ok (2, []), Except.ok (1, bytes "d"), Except.ok (some 2, bytes "bcd"),
          Except.ok (some 2, [{ key := bytes "id", value := bytes "bcd" }])) ∧
    ¬ (bytes "bcd" <:+: bytes "/a/bd") := by
  constructor
  · rfl
  · decide

/-! ### The sibling invariant and the totality of `insert` -/

theorem WF.siblingInv {h : Heap} {root : Nat} (hw : WF h root) : SiblingInv h := by
  intro a n hn
  refine ⟨?_, hw.sibling a n hn, ?_⟩
  · intro c hc
    obtain ⟨-, cn, g1, -, -, g4, g5, -⟩ := hw.child_ok a n c hn hc
    rw [pfxOf_eq g1]
    exact ⟨g4, g5⟩
  · intro c hc d hd hcd
    have hsym : Symmetric (fun c d : Nat => (pfxOf h c).head? ≠ (pfxOf h d).head?) :=
      fun _ _ hab => Ne.symm hab
    exact (hw.sibling a n hn).forall hsym hc hd hcd

/-- C16. Sibling invariant: every sequence of registrations of non-empty paths
on a new router succeeds and leaves a heap in which, at every node, every static
child has a non-empty prefix without `':'` and no two static children start with
the same byte; and one more registration of a non-empty path (whichever branch
it takes, the split included) succeeds and leaves such a heap again. -/
theorem sibling_invariant (regs : List (Str × Str × CustomHandler))
    (hne : ∀ x ∈ regs, x.2.1 ≠ []) :
    ∃ r, registerAll regs NewRouter = Except.ok r ∧ SiblingInv r.heap ∧
      ∀ (m p : Str) (H : CustomHandler), p ≠ [] →
        ∃ r1, r.insert m p H = Except.ok r1 ∧ SiblingInv r1.heap := by
  obtain ⟨h, s, w, -⟩ := registerAll_NewRouter regs hne
  refine ⟨_, s, w.siblingInv, ?_⟩
  intro m p H hp
  obtain ⟨h2, cur, s2, ins⟩ := insert_spec w m p H hp
  exact ⟨_, s2, ins.wf.siblingInv⟩

/-- The theorem `sibling_invariant` at the registrations `/cat`, `/users/:id`,
`/car`, `/ca`. -/
theorem sibling_invariant_witness :
    ∃ r, registerAll [(MethodGet, bytes "/cat", some 1), (MethodGet, bytes "/users/:id", some 2),
        (MethodGet, bytes "/car", some 3), (MethodGet, bytes "/ca", some 4)] NewRouter
        = Except.ok r ∧ SiblingInv r.heap ∧
      ∀ (m p : Str) (H : CustomHandler), p ≠ [] →
        ∃ r1, r.insert m p H = Except.ok r1 ∧ SiblingInv r1.heap :=
  sibling_invariant [(MethodGet, bytes "/cat", some 1), (MethodGet, bytes "/users/:id", some 2),
    (MethodGet, bytes "/car", some 3), (MethodGet, bytes "/ca", some 4)] (by decide)

/-- C20. Registration is total on non-empty paths: on every reachable router
(built from `NewRouter` by registrations of non-empty paths and by searches), for
every method, handler and non-empty path, well-formed or not, `insert` ends
within `len(path)` passes of its loop without failure and binds the handler at
the node where the descent along the whole path ends, a node other than the
root; and on any heap, a pass of the loop that does not fail leaves strictly
fewer bytes of the path than it found. -/
theorem insert_total (r : Router) (hr : Reachable r) (m p : Str) (H : CustomHandler)
    (hp : p ≠ []) :
    (∃ (r1 : Router) (b : Nat) (n1 : Node), r.insert m p H = Except.ok r1 ∧
      Route r1.heap (r1.tree, p) (b, []) ∧ b ≠ r1.tree ∧ r1.heap[b]? = some n1 ∧
      mapGet n1.handlers m = H) ∧
    (∀ (h h1 : Heap) (cur cur1 : Nat) (e e1 : Str), e ≠ [] →
      insertStep h cur e = Except.ok (h1, cur1, e1) → e1.length < e.length) := by
  constructor
  · obtain ⟨h2, b, s, ins⟩ := insert_spec hr.reachable_wf m p H hp
    obtain ⟨n2, hm, e1, e2, -, -⟩ := ins.at_cur
    refine ⟨_, b, n2, s, ins.route, ins.cur_ne, e1, ?_⟩
    rw [e2, mapGet_mapSet]
    simp
  · intro h h1 cur cur1 e e1 he hs
    exact insertStep_consumes he hs

/-- The theorem `insert_total` at the router with the routes `GET /cat` and
`GET /car` and the malformed path `/x/::y`. -/
theorem insert_total_witness :
    (∃ (r1 : Router) (b : Nat) (n1 : Node),
      catCarRouter.insert MethodGet (bytes "/x/::y") (some 9) = Except.ok r1 ∧
      Route r1.heap (r1.tree, bytes "/x/::y") (b, []) ∧ b ≠ r1.tree ∧ r1.heap[b]? = some n1 ∧
      mapGet n1.handlers MethodGet = some 9) ∧
    (∀ (h h1 : Heap) (cur cur1 : Nat) (e e1 : Str), e ≠ [] →
      insertStep h cur e = Except.ok (h1, cur1, e1) → e1.length < e.length) :=
  insert_total catCarRouter catCarRouter_reachable MethodGet (bytes "/x/::y") (some 9)
    (by decide)

/-- Two malformed paths on a new router: `:a:b` becomes one param node with the
capture name `a:b`, and `/x/::y` a static node `/x/` with a param child named
`:y`. -/
theorem insert_malformed_examples :
    (NewRouter.insert MethodGet (bytes ":a:b") (some 1)).map Router.heap =
      Except.ok
        [ { isRoot := true, paramChild := some 1 },
          { pfx := bytes ":a:b", parent := some 0, nodeType := nodeType.param,
            param := some { key := bytes "a:b", value := [] },
            handlers := some [(MethodGet, some 1)] } ] ∧
    (NewRouter.insert MethodGet (bytes "/x/::y") (some 1)).map Router.heap =
      Except.ok
        [ { isRoot := true, children := [1] },
          { pfx := bytes "/x/", paramChild := some 2, parent := some 0, handlers := some [] },
          { pfx := bytes "::y", parent := some 1, nodeType := nodeType.param,
            param := some { key := bytes ":y", value := [] },
            handlers := some [(MethodGet, some 1)] } ] := by
  decide

/-! ### Param children and capture names across registrations -/

theorem Keeps.rfl_keeps (h : Heap) : Keeps h h where
  len := le_refl _
  old := fun _ n hn => ⟨n, hn, rfl, fun _ hc => hc⟩
  fresh := fun a n' _ ha hn _ => by
    have := lt_length_of_getElem? hn
    omega

theorem Keeps.trans_keeps {h0 h1 h2 : Heap} (k1 : Keeps h0 h1) (k2 : Keeps h1 h2) :
    Keeps h0 h2 where
  len := le_trans k1.len k2.len
  old := fun a n hn => by
    obtain ⟨n1, q1, g1, f1⟩ := k1.old a n hn
    obtain ⟨n2, q2, g2, f2⟩ := k2.old a n1 q1
    exact ⟨n2, q2, g2.trans g1, fun c hc => f2 c (f1 c hc)⟩
  fresh := fun a n2 p ha hn hp => by
    rcases Nat.lt_or_ge a h1.length with hlt | hge
    · obtain ⟨n1, hn1⟩ : ∃ n1, h1[a]? = some n1 := ⟨h1[a], by simp [hlt]⟩
      obtain ⟨n3, q2, g2, -⟩ := k2.old a n1 hn1
      rw [hn] at q2
      cases q2
      rw [g2] at hp
      exact k1.fresh a n1 p ha hn1 hp
    · exact k2.fresh a n2 p hge hn hp

theorem Alloc.alloc_keeps {h : Heap} {cur : Nat} {n nd n' : Node} (al : Alloc h cur n nd n')
    (hp : ∀ p : Param, nd.param = some p → slash ∉ p.key) :
    Keeps h ((h ++ [nd]).set cur n') where
  len := by simp
  old := fun a m hm => by
    obtain ⟨m', g1, -, -, -, -, g6, -, g8⟩ := al.alloc_fwd hm
    exact ⟨m', g1, g6, g8⟩
  fresh := fun a m' p ha hm hpm => by
    rcases al.alloc_inv hm with ⟨rfl, rfl⟩ | ⟨rfl, rfl⟩ | ⟨-, -, h3⟩
    · have := lt_length_of_getElem? al.get
      omega
    · exact hp p hpm
    · have := lt_length_of_getElem? h3
      omega

theorem Split.split_keeps {h : Heap} {root cur next : Nat} {n nn : Node} {l : Nat} {pa : Str}
    (sp : Split h root cur next n nn l pa) : Keeps h (splitHeap h cur next n nn l pa) where
  len := by simp [splitHeap]
  old := fun a m hm => by
    obtain ⟨m', g1, -, -, g4, g5, -⟩ := sp.split_fwd hm
    exact ⟨m', g1, g4, fun c hc => by rw [g5]; exact hc⟩
  fresh := fun a m' p ha hm hpm => by
    rcases sp.split_inv hm with ⟨rfl, rfl⟩ | ⟨rfl, rfl⟩ | ⟨rfl, rfl⟩ | ⟨-, -, -, h4⟩
    · have := lt_length_of_getElem? sp.get_cur
      omega
    · have := lt_length_of_getElem? sp.get_next
      omega
    · simp [newNode] at hpm
    · have := lt_length_of_getElem? h4
      omega

theorem setHandlers_keeps {h : Heap} {cur : Nat} {n : Node} (hn : h[cur]? = some n)
    (hd : HandlerMap) : Keeps h (h.set cur { n with handlers := hd }) where
  len := by simp
  old := fun a m hm => by
    obtain ⟨m', g1, -, -, g4, -, -, g7, -⟩ := setHandlers_fwd hn hd hm
    exact ⟨m', g1, g7, fun c hc => by rw [g4]; exact hc⟩
  fresh := fun a m' p ha hm _ => by
    have := lt_length_of_getElem? hm
    simp at this
    omega

/-- One pass of the loop of `insert` on a well-formed heap keeps the param data
of the heap. -/
theorem insertStep_keeps {h : Heap} {root cur : Nat} {n : Node} {e : Str} (hw : WF h root)
    (hn : h[cur]? = some n) (he : e ≠ []) :
    ∃ h1 cur1 e1, insertStep h cur e = Except.ok (h1, cur1, e1) ∧ Keeps h h1 := by
  by_cases hhead : e.head? = some colon
  · cases hpc : n.paramChild with
    | some child =>
      refine ⟨h, child, e.drop (indexByte slash e), ?_, Keeps.rfl_keeps h⟩
      simp [insertStep, getNode, hn, hhead, hpc, bind, Except.bind, pure, Except.pure]
    | none =>
      have al : Alloc h cur n
          { newNode (some cur) (e.take (indexByte slash e)) nodeType.param with
            param := some { key := (e.take (indexByte slash e)).drop 1, value := [] } }
          { n with paramChild := some h.length } :=
        { get := hn, pfx_eq := rfl, parent_eq := rfl, type_eq := rfl, handlers_eq := rfl,
          param_eq := rfl, nd_parent := rfl, nd_children := rfl, nd_paramChild := rfl,
          nd_handlers := rfl,
          kind := Or.inl ⟨rfl, rfl, hpc, rfl, by simp⟩ }
      refine ⟨_, h.length, e.drop (indexByte slash e), ?_, al.alloc_keeps ?_⟩
      · simp only [insertStep, getNode, hn, hhead, hpc, bind, Except.bind, pure, Except.pure,
          if_true]
        rw [modNode_alloc_eq hn]
      · intro p hp
        have hp2 : p = { key := (e.take (indexByte slash e)).drop 1, value := [] } := by
          simpa using hp.symm
        rw [hp2]
        exact fun hm => not_mem_take_indexByte slash e (List.mem_of_mem_drop hm)
  · cases hl : longestCommonChild h n e with
    | none =>
      have hj : 0 < indexByte colon e := indexByte_pos _ _ he hhead
      have hz := longestCommonChild_none hl
      have k1 : e.take (indexByte colon e) ≠ [] := by
        intro hc
        have := head?_take_of_pos e hj
        rw [hc] at this
        cases e with
        | nil => exact he rfl
        | cons x xs => cases this
      have k2 : ∀ c ∈ n.children, (pfxOf h c).head? ≠ (e.take (indexByte colon e)).head? := by
        intro c hc
        rw [head?_take_of_pos e hj]
        rcases (lcpIndex_eq_zero_iff _ _).mp (hz c hc) with h1 | h1
        · exact absurd h1 he
        · exact Ne.symm h1
      have al : Alloc h cur n (newNode (some cur) (e.take (indexByte colon e)) nodeType.static)
          { n with children := n.children ++ [h.length] } :=
        { get := hn, pfx_eq := rfl, parent_eq := rfl, type_eq := rfl, handlers_eq := rfl,
          param_eq := rfl, nd_parent := rfl, nd_children := rfl, nd_paramChild := rfl,
          nd_handlers := rfl,
          kind := Or.inr ⟨rfl, rfl, rfl, k1, not_mem_take_indexByte colon e, k2⟩ }
      refine ⟨_, h.length, e.drop (indexByte colon e), ?_, al.alloc_keeps ?_⟩
      · simp only [insertStep, getNode, hn, hhead, hl, bind, Except.bind, pure, Except.pure,
          if_false]
        rw [modNode_alloc_eq hn]
      · intro p hp
        simp [newNode] at hp
    | some next =>
      obtain ⟨hmem, hpos⟩ := longestCommonChild_some hl
      obtain ⟨hne, nn, hnn, -⟩ := hw.child_ok cur n next hn hmem
      rw [pfxOf_eq hnn] at hpos
      by_cases hfull : nn.pfx.length = lcpIndex e nn.pfx
      · refine ⟨h, next, e.drop (lcpIndex e nn.pfx), ?_, Keeps.rfl_keeps h⟩
        simp [insertStep, getNode, hn, hhead, hl, hnn, hfull, bind, Except.bind, pure,
          Except.pure]
      · have hlt : lcpIndex e nn.pfx < nn.pfx.length :=
          lt_of_le_of_ne (lcpIndex_le_right e nn.pfx) (Ne.symm hfull)
        have sp : Split h root cur next n nn (lcpIndex e nn.pfx) (e.take (lcpIndex e nn.pfx)) :=
          { wf := hw, get_cur := hn, mem := hmem, get_next := hnn, l_pos := hpos, l_lt := hlt,
            pa_eq := take_lcpIndex e nn.pfx }
        have hfresh : h.length ∉ n.children := by
          intro hm
          obtain ⟨-, cn, g1, -⟩ := hw.child_ok cur n _ hn hm
          have := lt_length_of_getElem? g1
          omega
        refine ⟨splitHeap h cur next n nn (lcpIndex e nn.pfx) (e.take (lcpIndex e nn.pfx)),
          h.length, e.drop (lcpIndex e nn.pfx), ?_, sp.split_keeps⟩
        simp only [insertStep, getNode, hn, hhead, hl, hnn, hfull, bind, Except.bind, pure,
          Except.pure, if_false]
        rw [split_chain_eq hn hnn (Ne.symm hne) (WF.children_nodup hw hn) hmem hfresh]

theorem insertLoop_keeps (fuel : Nat) {h h1 : Heap} {root cur cur1 : Nat} {n : Node} {e : Str}
    (hw : WF h root) (hn : h[cur]? = some n)
    (hs : insertLoop fuel h cur e = Except.ok (h1, cur1)) : Keeps h h1 := by
  induction fuel generalizing h cur n e with
  | zero =>
    cases e with
    | nil =>
      rw [insertLoop_nil] at hs
      have h2 : h = h1 := by
        injection hs with hs
        exact (Prod.mk.inj hs).1
      rw [← h2]
      exact Keeps.rfl_keeps h
    | cons x xs => simp [insertLoop] at hs
  | succ fuel ih =>
    by_cases he : e = []
    · subst he
      rw [insertLoop_nil] at hs
      have h2 : h = h1 := by
        injection hs with hs
        exact (Prod.mk.inj hs).1
      rw [← h2]
      exact Keeps.rfl_keeps h
    · obtain ⟨g1, c1, e1, s1, w1, -, st1, -⟩ := insertStep_spec hw hn he
      obtain ⟨g2, c2, e2, s2, k2⟩ := insertStep_keeps hw hn he
      rw [s1] at s2
      cases s2
      obtain ⟨m1, hm1, -⟩ := step_target w1 st1
      rw [insertLoop_cons fuel h cur e he s1] at hs
      exact k2.trans_keeps (ih w1 hm1 hs)

/-- A registration with a non-empty path on a well-formed heap keeps the param
data of the heap. -/
theorem insert_keeps {h : Heap} {root : Nat} (hw : WF h root) (m q : Str) (H : CustomHandler)
    (hq : q ≠ []) {r1 : Router}
    (hs : Router.insert { heap := h, tree := root } m q H = Except.ok r1) :
    Keeps h r1.heap := by
  obtain ⟨rn, hrn, -⟩ := hw.root_ok
  obtain ⟨h1, cur, s1, w1, -, r1'⟩ := insertLoop_spec q.length hw hrn (le_refl _)
  have k1 := insertLoop_keeps q.length hw hrn s1
  obtain ⟨z, m1, -, hm1, -, hh1⟩ := route_end w1 hq r1'
  obtain ⟨hm, hhm⟩ : ∃ hm, m1.handlers = some hm := by
    cases hc : m1.handlers with
    | none => exact absurd hc hh1
    | some hm => exact ⟨hm, rfl⟩
  simp [Router.insert, s1, bindHandler, getNode, hm1, hhm, bind, Except.bind, pure,
    Except.pure] at hs
  rw [← hs]
  exact k1.trans_keeps (setHandlers_keeps hm1 _)

/-! ### Captured values and capture names -/

theorem paramSearch_at {h : Heap} {x c : Nat} {n cn : Node} {p : Param}
    (hx : h[x]? = some n) (hc : n.paramChild = some c) (hcn : h[c]? = some cn)
    (hp : cn.param = some p) (e : Str) :
    paramSearch h x e =
      Except.ok (h.set c { cn with param := some { p with value := e.take (indexByte slash e) } },
        c, e.drop (indexByte slash e)) := by
  simp [paramSearch, getNode, hx, hc, hcn, hp, bind, Except.bind, pure, Except.pure]

/-- The loop of `Search` only adds captured values without `'/'` to the
parameter list. -/
theorem SearchLoop_values (fuel : Nat) (h : Heap) (cur : Nat) (m e : Str)
    (ps : List Param) (res : CustomHandler × List Param) (h' : Heap)
    (hs : SearchLoop fuel h cur m e ps = Except.ok (res, h'))
    (hps : ∀ p ∈ ps, slash ∉ p.value) : ∀ p ∈ res.2, slash ∉ p.value := by
  induction fuel generalizing h cur e ps with
  | zero => simp [SearchLoop] at hs
  | succ fuel ih =>
    unfold SearchLoop at hs
    cases e1 : staticSearch h cur e with
    | error err => simp [e1, bind, Except.bind] at hs
    | ok v1 =>
      obtain ⟨cur1, r1⟩ := v1
      by_cases hr : r1 = []
      · cases e2 : getNode h cur1 with
        | error err => simp [e1, hr, e2, bind, Except.bind] at hs
        | ok n =>
          simp [e1, hr, e2, bind, Except.bind, pure, Except.pure] at hs
          rw [← hs.1]
          exact hps
      · cases e2 : backTrack h (some cur1) r1 with
        | error err => simp [e1, hr, e2, bind, Except.bind] at hs
        | ok v2 =>
          obtain ⟨cur2, r2⟩ := v2
          cases cur2 with
          | none =>
            simp [e1, hr, e2, bind, Except.bind, pure, Except.pure] at hs
            rw [← hs.1]
            exact hps
          | some a =>
            cases e3 : paramSearch h a r2 with
            | error err => simp [e1, hr, e2, e3, bind, Except.bind] at hs
            | ok v3 =>
              obtain ⟨h1, cur3, r3⟩ := v3
              obtain ⟨n0, pn, p0, -, -, g3, g4, g5, -⟩ := paramSearch_ok e3
              have e4 : getNode h1 cur3 = Except.ok
                  { pn with param := some { p0 with value := r2.take (indexByte slash r2) } } := by
                rw [g5]
                simp [getNode, getElem?_set_same g3]
              have hps2 : ∀ p ∈ ps ++ [Param.mk p0.key (r2.take (indexByte slash r2))],
                  slash ∉ p.value := by
                intro p hp
                rcases List.mem_append.mp hp with hp | hp
                · exact hps p hp
                · have : p = { key := p0.key, value := r2.take (indexByte slash r2) } := by
                    simpa using hp
                  rw [this]
                  exact not_mem_take_indexByte slash r2
              by_cases h3 : r3 = []
              · simp [e1, hr, e2, e3, e4, h3, bind, Except.bind, pure, Except.pure] at hs
                rw [← hs.1]
                exact hps2
              · simp [e1, hr, e2, e3, e4, h3, bind, Except.bind] at hs
                exact ih _ _ _ _ hs hps2

/-- C19. A parameter never crosses a separator: when `Search` returns, no value
in the parameter list it returns contains `'/'`; and when a registration on a
reachable router succeeds, every param stored on a node the registration
created has a capture name without `'/'`. -/
theorem param_never_crosses_separator (fuel : Nat) (r r1 : Router) (m e : Str)
    (handler : CustomHandler) (params : List Param)
    (hs : r.Search fuel m e = Except.ok ((handler, params), r1))
    (r2 r3 : Router) (hr : Reachable r2) (m2 q : Str) (H : CustomHandler)
    (hi : r2.insert m2 q H = Except.ok r3) :
    (∀ p ∈ params, slash ∉ p.value) ∧
    (∀ (a : Nat) (n : Node) (p : Param), r2.heap.length ≤ a → r3.heap[a]? = some n →
      n.param = some p → slash ∉ p.key) := by
  constructor
  · unfold Router.Search at hs
    cases f : SearchLoop fuel r.heap r.tree m e [] with
    | error err => simp [f, bind, Except.bind] at hs
    | ok v =>
      obtain ⟨res, h1⟩ := v
      simp [f, bind, Except.bind, pure, Except.pure] at hs
      have := SearchLoop_values fuel r.heap r.tree m e [] res h1 f (by simp)
      rw [hs.1] at this
      exact this
  · intro a n p ha hn hp
    by_cases hq : q = []
    · subst hq
      exfalso
      unfold Router.insert bindHandler at hi
      rw [insertLoop_nil] at hi
      cases hg : getNode r2.heap r2.tree with
      | error err => simp [hg, bind, Except.bind] at hi
      | ok rn =>
        cases hh : rn.handlers with
        | none => simp [hg, hh, bind, Except.bind] at hi
        | some hm =>
          simp [hg, hh, bind, Except.bind, pure, Except.pure] at hi
          rw [← hi] at hn
          have := lt_length_of_getElem? hn
          simp at this
          omega
    · exact (insert_keeps hr.reachable_wf m2 q H hq hi).fresh a n p ha hn hp

theorem usersRouter_reachable : Reachable usersRouter :=
  registerAll_reachable [(MethodGet, bytes "/users/:id", some 1)] NewRouter usersRouter
    Reachable.new (by decide) (by decide)

/-- The theorem `param_never_crosses_separator` at the search `GET /users/42` on
`usersRouter` and at the registration of `GET x/::y` on `usersRouter`. -/
theorem param_never_crosses_separator_witness :
    (∀ p ∈ [Param.mk (bytes "id") (bytes "42")], slash ∉ p.value) ∧
    (∀ (a : Nat) (n : Node) (p : Param), usersRouter.heap.length ≤ a →
      (usersRouter.heap.set 0 { isRoot := true, children := [1, 3] } ++
        [ { pfx := bytes "x/", paramChild := some 4, parent := some 0, handlers := some [] },
          { pfx := bytes "::y", parent := some 3, nodeType := nodeType.param,
            param := some { key := bytes ":y", value := [] },
            handlers := some [(MethodGet, some 2)] } ])[a]? = some n →
      n.param = some p → slash ∉ p.key) :=
  param_never_crosses_separator 1 usersRouter usersRouterAfter MethodGet (bytes "/users/42")
    (some 1) [{ key := bytes "id", value := bytes "42" }] (by decide)
    usersRouter
    { heap := usersRouter.heap.set 0 { isRoot := true, children := [1, 3] } ++
        [ { pfx := bytes "x/", paramChild := some 4, parent := some 0, handlers := some [] },
          { pfx := bytes "::y", parent := some 3, nodeType := nodeType.param,
            param := some { key := bytes ":y", value := [] },
            handlers := some [(MethodGet, some 2)] } ],
      tree := 0 }
    usersRouter_reachable MethodGet (bytes "x/::y") (some 2) (by decide)

/-! ### A second capture name for the same param child -/

theorem indexByte_segment (b rest : Str) (hb : slash ∉ b)
    (hrest : rest = [] ∨ rest.head? = some slash) :
    indexByte slash (colon :: (b ++ rest)) = b.length + 1 := by
  have h1 : indexByte slash (b ++ rest) = b.length := by
    rcases hrest with rfl | hr
    · simpa using indexByte_of_not_mem slash b hb
    · cases rest with
      | nil => cases hr
      | cons y ys =>
        have : y = slash := by simpa using hr
        subst this
        exact indexByte_append_of_not_mem slash b ys hb
  simp [indexByte, colon_ne_slash, h1]

/-- A descent leaves a final part of the path it started with. -/
theorem rtc_suffix {k : Bool} {h : Heap} {x y : Nat × Str}
    (hr : Relation.ReflTransGen (Step k h) x y) : ∃ t : Str, x.2 = t ++ y.2 := by
  induction hr with
  | refl => exact ⟨[], rfl⟩
  | tail _ hs ih =>
    obtain ⟨t, ht⟩ := ih
    rcases hs with ⟨n, cn, -, -, -, g4⟩ | ⟨-, n, -, -, -, g4⟩
    · exact ⟨t ++ cn.pfx, by rw [ht, g4]; simp⟩
    · rename_i b c _
      refine ⟨t ++ b.2.take (indexByte slash b.2), ?_⟩
      rw [ht, g4, List.append_assoc, List.take_append_drop]

/-- A descent that consumes a part `s` without `':'` of the path uses static
edges only, and the same edges consume `s` in front of any other rest. -/
theorem route_swap_rest {h : Heap} {x : Nat} {e : Str} (v : Str) {z : Nat × Str}
    (hr : Route h z (x, e)) :
    ∀ s : Str, z.2 = s ++ e → colon ∉ s → Walk h (z.1, s ++ v) (x, v) := by
  induction hr using Relation.ReflTransGen.head_induction_on with
  | refl =>
    intro s hs _
    have : s = [] := by
      have := congrArg List.length hs
      simpa using this
    subst this
    exact Relation.ReflTransGen.refl
  | head hs hrest ih =>
    rename_i a c
    intro s hse hcs
    obtain ⟨t, ht⟩ := rtc_suffix hrest
    simp only at ht
    rcases hs with ⟨n, cn, g1, g2, g3, g4⟩ | ⟨-, n, g1, g2, g3, g4⟩
    · have hst : s = cn.pfx ++ t := by
        have : s ++ e = (cn.pfx ++ t) ++ e := by
          rw [← hse, g4, ht, List.append_assoc]
        exact List.append_cancel_right this
      have hct : colon ∉ t := fun hm => hcs (by rw [hst]; exact List.mem_append_right _ hm)
      have hw := ih t ht hct
      have hstep : Step false h (a.1, s ++ v) (c.1, t ++ v) := by
        refine Or.inl ⟨n, cn, g1, g2, g3, ?_⟩
        show s ++ v = cn.pfx ++ (t ++ v)
        rw [hst, List.append_assoc]
      exact Relation.ReflTransGen.head hstep hw
    · exfalso
      have hs0 : s = [] := by
        cases s with
        | nil => rfl
        | cons y ys =>
          rw [hse] at g3
          simp only [List.cons_append, List.head?_cons, Option.some.injEq] at g3
          subst g3
          exact absurd (List.mem_cons_self _ _) hcs
      subst hs0
      simp only [List.nil_append] at hse
      have hne : a.2 ≠ [] := by
        intro h0
        rw [h0] at g3
        cases g3
      have hpos : 0 < indexByte slash a.2 := by
        apply indexByte_pos slash a.2 hne
        rw [g3]
        intro hc
        exact colon_ne_slash (Option.some.inj hc)
      have hl := congrArg List.length ht
      rw [g4, ← hse] at hl
      simp at hl
      have hlen : 0 < a.2.length := List.length_pos.mpr hne
      omega

/-- Static descent that stops with something left: along static edges from `a`
to `b` with `v` left over, where no child of `b` starts with the first byte of
`v`, `staticSearch` returns `b` and `v`. -/
theorem staticSearchLoop_walk_stop (fuel : Nat) {h : Heap} {root a b : Nat} {e v : Str}
    {nb : Node} (hw : WF h root) (hwk : Walk h (a, e) (b, v)) (hv : v ≠ [])
    (hb : h[b]? = some nb) (hl : longestCommonChild h nb v = none) (hf : e.length < fuel) :
    staticSearchLoop fuel h a e = Except.ok (b, v) := by
  induction fuel generalizing a e with
  | zero => omega
  | succ fuel ih =>
    rcases Relation.ReflTransGen.cases_head hwk with h1 | ⟨c, h1, h2⟩
    · cases h1
      simp [staticSearchLoop, getNode, hb, hl, bind, Except.bind, pure, Except.pure]
    · obtain ⟨c1, c2⟩ := c
      rcases h1 with ⟨n, cn, g1, g2, g3, g4⟩ | ⟨hk, -⟩
      · simp only at g1 g2 g3 g4
        have hl2 := longestCommonChild_of_child hw g1 g2 g3 g4
        obtain ⟨-, cn2, f1, -, -, f4, -⟩ := hw.child_ok _ n _ g1 g2
        rw [g3] at f1
        cases f1
        have hlen : lcpIndex e cn.pfx = cn.pfx.length := by
          rw [g4]; exact lcpIndex_append_left _ _
        have hdrop : e.drop cn.pfx.length = c2 := by
          rw [g4]; simp
        have hpos : 0 < cn.pfx.length := List.length_pos.mpr f4
        have hc2 : c2 ≠ [] := by
          intro h0
          subst h0
          have := walk_nil hw h2
          have h3 := congrArg Prod.snd this
          exact hv h3
        have hlt : c2.length < fuel := by
          have : e.length = cn.pfx.length + c2.length := by rw [g4]; simp
          omega
        have hne : c2.length ≠ 0 := fun hz => hc2 (List.length_eq_zero.mp hz)
        simp only [staticSearchLoop, getNode, g1, g3, hl2, hlen, hdrop, bind, Except.bind, hne,
          if_false]
        exact ih h2 hlt
      · cases hk

/-- The loop of `Search` only appends to the parameter list it is given. -/
theorem SearchLoop_params_prefix (fuel : Nat) (h : Heap) (cur : Nat) (m e : Str)
    (ps : List Param) (res : CustomHandler × List Param) (h' : Heap)
    (hs : SearchLoop fuel h cur m e ps = Except.ok (res, h')) : ∃ t, res.2 = ps ++ t := by
  induction fuel generalizing h cur e ps with
  | zero => simp [SearchLoop] at hs
  | succ fuel ih =>
    unfold SearchLoop at hs
    cases e1 : staticSearch h cur e with
    | error err => simp [e1, bind, Except.bind] at hs
    | ok v1 =>
      obtain ⟨cur1, r1⟩ := v1
      by_cases hr : r1 = []
      · cases e2 : getNode h cur1 with
        | error err => simp [e1, hr, e2, bind, Except.bind] at hs
        | ok n =>
          simp [e1, hr, e2, bind, Except.bind, pure, Except.pure] at hs
          rw [← hs.1]
          exact ⟨[], by simp⟩
      · cases e2 : backTrack h (some cur1) r1 with
        | error err => simp [e1, hr, e2, bind, Except.bind] at hs
        | ok v2 =>
          obtain ⟨cur2, r2⟩ := v2
          cases cur2 with
          | none =>
            simp [e1, hr, e2, bind, Except.bind, pure, Except.pure] at hs
            rw [← hs.1]
            exact ⟨[], by simp⟩
          | some a =>
            cases e3 : paramSearch h a r2 with
            | error err => simp [e1, hr, e2, e3, bind, Except.bind] at hs
            | ok v3 =>
              obtain ⟨h1, cur3, r3⟩ := v3
              obtain ⟨n0, pn, p0, -, -, g3, g4, g5, -⟩ := paramSearch_ok e3
              have e4 : getNode h1 cur3 = Except.ok
                  { pn with param := some { p0 with value := r2.take (indexByte slash r2) } } := by
                rw [g5]
                simp [getNode, getElem?_set_same g3]
              by_cases h3 : r3 = []
              · simp [e1, hr, e2, e3, e4, h3, bind, Except.bind, pure, Except.pure] at hs
                rw [← hs.1]
                exact ⟨_, rfl⟩
              · simp [e1, hr, e2, e3, e4, h3, bind, Except.bind] at hs
                obtain ⟨t, ht⟩ := ih _ _ _ _ hs
                exact ⟨Param.mk p0.key (r2.take (indexByte slash r2)) :: t, by rw [ht]; simp⟩

/-- One pass of the loop of `Search` that captures at the param child `c` of
`x`: static descent from `cur` stops at `cur1` with `e1` left, `backTrack` leads
to `x` with `e2`; the pass appends the captured value under the key stored on
`c` and either returns the handler of `c` or goes on from `c`. -/
theorem SearchLoop_capture {h : Heap} {x c : Nat} {n cn : Node} {p : Param}
    (hx : h[x]? = some n) (hc : n.paramChild = some c) (hcn : h[c]? = some cn)
    (hp : cn.param = some p) (fuel cur : Nat) (m e e1 e2 : Str) (cur1 : Nat) (ps : List Param)
    (hss : staticSearch h cur e = Except.ok (cur1, e1)) (he1 : e1 ≠ [])
    (hbt : backTrack h (some cur1) e1 = Except.ok (some x, e2)) :
    SearchLoop (fuel + 1) h cur m e ps =
      if e2.drop (indexByte slash e2) = [] then
        Except.ok ((mapGet cn.handlers m,
            ps ++ [Param.mk p.key (e2.take (indexByte slash e2))]),
          h.set c { cn with param := some { p with value := e2.take (indexByte slash e2) } })
      else
        SearchLoop fuel
          (h.set c { cn with param := some { p with value := e2.take (indexByte slash e2) } })
          c m (e2.drop (indexByte slash e2))
          (ps ++ [Param.mk p.key (e2.take (indexByte slash e2))]) := by
  have hps := paramSearch_at hx hc hcn hp e2
  by_cases h3 : e2.drop (indexByte slash e2) = []
  · simp [SearchLoop, hss, he1, hbt, hps, getNode, getElem?_set_same hcn, h3, bind,
      Except.bind, pure, Except.pure]
  · simp [SearchLoop, hss, he1, hbt, hps, getNode, getElem?_set_same hcn, h3, bind,
      Except.bind, pure, Except.pure]

/-- A pass of the loop of `Search` that captures at the param child `c` of `x`
puts the captured value, under the key stored on `c`, right after the parameters
it was given, whatever the later passes add. -/
theorem SearchLoop_capture_head {h : Heap} {x c : Nat} {n cn : Node} {p : Param}
    (hx : h[x]? = some n) (hc : n.paramChild = some c) (hcn : h[c]? = some cn)
    (hp : cn.param = some p) (fuel cur : Nat) (m e e1 e2 : Str) (cur1 : Nat) (ps : List Param)
    (hss : staticSearch h cur e = Except.ok (cur1, e1)) (he1 : e1 ≠ [])
    (hbt : backTrack h (some cur1) e1 = Except.ok (some x, e2))
    (res : CustomHandler × List Param) (h' : Heap)
    (hs : SearchLoop (fuel + 1) h cur m e ps = Except.ok (res, h')) :
    ∃ t, res.2 = ps ++ Param.mk p.key (e2.take (indexByte slash e2)) :: t := by
  rw [SearchLoop_capture hx hc hcn hp fuel cur m e e1 e2 cur1 ps hss he1 hbt] at hs
  by_cases h3 : e2.drop (indexByte slash e2) = []
  · rw [if_pos h3] at hs
    injection hs with hs
    have hres : res = (mapGet cn.handlers m,
        ps ++ [Param.mk p.key (e2.take (indexByte slash e2))]) := (Prod.mk.inj hs).1.symm
    rw [hres]
    exact ⟨[], rfl⟩
  · rw [if_neg h3] at hs
    obtain ⟨t, ht⟩ := SearchLoop_params_prefix _ _ _ _ _ _ _ _ hs
    exact ⟨t, by rw [ht]; simp⟩


/-- C12. First param name is kept: on a reachable router in which node `x` has
the param child `c` with the stored param `pa` (capture name `pa.key`), let a
registration of `q` descend through existing edges to `x` with a parameter
segment `:b` next (then the end of the path or a `'/'`). The registration
succeeds; `x` still has the param child `c` and `c` still stores `pa`, so the
name `b` is stored nowhere on it; the descent of `q` in the new tree goes
through `c`; when the segment ends the path the registration creates no node at
all and only writes the handler into the handler map of `c`; `paramSearch` at
`x` on the new tree moves to `c` and leaves there the captured value under the
key `pa.key`. A later `Search` on the new tree whose first pass captures at `x`
(static descent stops with `e1` left and `backTrack` leads to `x` with `e2`)
returns, whenever it returns, a parameter list that starts with the captured
value under the key `pa.key`, and it does return, with exactly that one entry
and the handler of `c`, when `e2` has no `'/'`. In particular, when the segment
ends the registered path `s ++ ":" ++ b` and `s` is static, `Search` for
`s ++ v` (with `v` non-empty, without `'/'`, and starting like no static child
of `x`) returns the handler just registered and the one parameter `pa.key = v`. -/
theorem first_param_name_kept (r : Router) (hr : Reachable r) (x c : Nat) (n cn : Node)
    (pa : Param) (hx : r.heap[x]? = some n) (hc : n.paramChild = some c)
    (hcn : r.heap[c]? = some cn) (hpa : cn.param = some pa) (m q b rest : Str)
    (H : CustomHandler) (hroute : Route r.heap (r.tree, q) (x, colon :: (b ++ rest)))
    (hb : slash ∉ b) (hrest : rest = [] ∨ rest.head? = some slash) :
    ∃ (r1 : Router) (n1 cn1 : Node), r.insert m q H = Except.ok r1 ∧
      r1.heap[x]? = some n1 ∧ n1.paramChild = some c ∧
      r1.heap[c]? = some cn1 ∧ cn1.param = some pa ∧
      Route r1.heap (r1.tree, q) (c, rest) ∧
      (rest = [] → ∃ hm, cn.handlers = some hm ∧
        r1.heap = r.heap.set c { cn with handlers := some (mapSet hm m H) }) ∧
      (∀ e2 : Str, ∃ (h3 : Heap) (cn3 : Node),
        paramSearch r1.heap x e2 = Except.ok (h3, c, e2.drop (indexByte slash e2)) ∧
        h3[c]? = some cn3 ∧
        cn3.param = some { key := pa.key, value := e2.take (indexByte slash e2) }) ∧
      (∀ (m2 e0 e1 e2 : Str) (cur1 : Nat),
        staticSearch r1.heap r1.tree e0 = Except.ok (cur1, e1) → e1 ≠ [] →
        backTrack r1.heap (some cur1) e1 = Except.ok (some x, e2) →
        (∀ (fuel : Nat) (handler : CustomHandler) (params : List Param),
          (r1.Search fuel m2 e0).map Prod.fst = Except.ok (handler, params) →
          params.head? = some (Param.mk pa.key (e2.take (indexByte slash e2)))) ∧
        (slash ∉ e2 → ∀ fuel : Nat, (r1.Search (fuel + 1) m2 e0).map Prod.fst =
          Except.ok (mapGet cn1.handlers m2, [Param.mk pa.key e2]))) ∧
      (rest = [] → ∀ s : Str, q = s ++ colon :: b → colon ∉ s →
        ∀ (fuel : Nat) (v : Str), v ≠ [] → slash ∉ v →
          (∀ d ∈ n.children, (pfxOf r.heap d).head? ≠ v.head?) →
          (r1.Search (fuel + 1) m (s ++ v)).map Prod.fst =
            Except.ok (H, [Param.mk pa.key v])) := by
  have w := hr.reachable_wf
  have hq : q ≠ [] := by
    rcases Relation.ReflTransGen.cases_head hroute with h1 | ⟨z, h1, -⟩
    · have : q = colon :: (b ++ rest) := by
        have := congrArg Prod.snd h1
        simpa using this
      rw [this]
      simp
    · exact step_source_ne_nil w h1
  have hj := indexByte_segment b rest hb hrest
  have hstep : Step true r.heap (x, colon :: (b ++ rest)) (c, rest) := by
    refine Or.inr ⟨rfl, n, hx, hc, by simp, ?_⟩
    show rest = (colon :: (b ++ rest)).drop (indexByte slash (colon :: (b ++ rest)))
    rw [hj]
    simp
  have hroute2 : Route r.heap (r.tree, q) (c, rest) := hroute.tail hstep
  obtain ⟨h2, cur, s, ins⟩ := insert_spec w m q H hq
  have keeps := insert_keeps w m q H hq s
  obtain ⟨n1, a1, -, a3⟩ := keeps.old x n hx
  obtain ⟨cn1, b1, b2, -⟩ := keeps.old c cn hcn
  have a1 : h2[x]? = some n1 := a1
  have b1 : h2[c]? = some cn1 := b1
  have a4 : n1.paramChild = some c := a3 c hc
  have b3 : cn1.param = some pa := by rw [b2, hpa]
  have hheap : rest = [] → ∃ hm, cn.handlers = some hm ∧
      h2 = r.heap.set c { cn with handlers := some (mapSet hm m H) } := by
    intro hr0
    subst hr0
    obtain ⟨cn2, g1, -, -, g4, -⟩ := w.param_ok x n c hx hc
    rw [hcn] at g1
    cases g1
    obtain ⟨hm, hhm⟩ : ∃ hm, cn.handlers = some hm := by
      cases hh : cn.handlers with
      | none => exact absurd hh g4
      | some hm => exact ⟨hm, rfl⟩
    refine ⟨hm, hhm, ?_⟩
    have hl := insertLoop_of_route q.length w hroute2 (le_refl _)
    have s2 : Router.insert { heap := r.heap, tree := r.tree } m q H =
        Except.ok (Router.mk (r.heap.set c { cn with handlers := some (mapSet hm m H) })
          r.tree) := by
      simp [Router.insert, hl, bindHandler, getNode, hcn, hhm, bind, Except.bind, pure,
        Except.pure]
    rw [s] at s2
    injection s2 with s2
    exact congrArg Router.heap s2
  have hS1 : ∀ (m2 e0 e1 e2 : Str) (cur1 : Nat),
      staticSearch h2 r.tree e0 = Except.ok (cur1, e1) → e1 ≠ [] →
      backTrack h2 (some cur1) e1 = Except.ok (some x, e2) →
      (∀ (fuel : Nat) (handler : CustomHandler) (params : List Param),
        (Router.Search fuel (Router.mk h2 r.tree) m2 e0).map Prod.fst =
          Except.ok (handler, params) →
        params.head? = some (Param.mk pa.key (e2.take (indexByte slash e2)))) ∧
      (slash ∉ e2 → ∀ fuel : Nat,
        (Router.Search (fuel + 1) (Router.mk h2 r.tree) m2 e0).map Prod.fst =
          Except.ok (mapGet cn1.handlers m2, [Param.mk pa.key e2])) := by
    intro m2 e0 e1 e2 cur1 hss he1 hbt
    have hcap := fun fuel =>
      SearchLoop_capture a1 a4 b1 b3 fuel r.tree m2 e0 e1 e2 cur1 [] hss he1 hbt
    constructor
    · intro fuel handler params hsr
      cases hsl : SearchLoop fuel h2 r.tree m2 e0 [] with
      | error err => simp [Router.Search, hsl, Except.map, bind, Except.bind] at hsr
      | ok res =>
        obtain ⟨res, h'⟩ := res
        simp [Router.Search, hsl, Except.map, bind, Except.bind, pure, Except.pure] at hsr
        have hp2 : params = res.2 := by rw [hsr]
        cases fuel with
        | zero => simp [SearchLoop] at hsl
        | succ fuel =>
          obtain ⟨t, ht⟩ := SearchLoop_capture_head a1 a4 b1 b3 fuel r.tree m2 e0 e1 e2 cur1 []
            hss he1 hbt res h' hsl
          rw [hp2, ht]
          rfl
    · intro hsv fuel
      have h3 : e2.drop (indexByte slash e2) = [] := drop_indexByte_of_not_mem slash e2 hsv
      have h4 : e2.take (indexByte slash e2) = e2 := take_indexByte_of_not_mem slash e2 hsv
      simp [Router.Search, hcap, h3, h4, Except.map, bind, Except.bind, pure, Except.pure]
  refine ⟨Router.mk h2 r.tree, n1, cn1, s, a1, a4, b1, b3,
    rtc_of_pres (ins.pres true) hroute2, hheap, ?_, hS1, ?_⟩
  · intro e2
    exact ⟨_, _, paramSearch_at a1 a4 b1 b3 e2, getElem?_set_same b1 _, rfl⟩
  · intro hr0 s0 hqs hcs fuel v hv hsv hch
    subst hr0
    obtain ⟨hm, hhm, hh2⟩ := hheap rfl
    have hroute3 : Route r.heap (r.tree, q) (x, colon :: b) := by simpa using hroute
    have hwk : Walk r.heap (r.tree, s0 ++ v) (x, v) := route_swap_rest v hroute3 s0 hqs hcs
    have hwk1 : Walk h2 (r.tree, s0 ++ v) (x, v) := rtc_of_pres (ins.pres false) hwk
    obtain ⟨n1', f1, -, f3, -⟩ := setHandlers_fwd hcn (some (mapSet hm m H)) hx
    rw [← hh2, a1] at f1
    cases f1
    have hlcc : longestCommonChild h2 n1 v = none := by
      unfold longestCommonChild
      apply longestCommonChildLoop_all_zero
      intro d hd
      rw [lcpIndex_eq_zero_iff]
      right
      rw [hh2, setHandlers_pfxOf hcn]
      rw [f3] at hd
      exact Ne.symm (hch d hd)
    have hss : staticSearch h2 r.tree (s0 ++ v) = Except.ok (x, v) :=
      staticSearchLoop_walk_stop ((s0 ++ v).length + 1) ins.wf hwk1 hv a1 hlcc (by omega)
    have hbt : backTrack h2 (some x) v = Except.ok (some x, v) := by
      simp [backTrack, backTrackLoop, getNode, a1, a4, bind, Except.bind, pure, Except.pure]
    have hres := (hS1 m (s0 ++ v) v v x hss hv hbt).2 hsv fuel
    have hcn1 : cn1.handlers = some (mapSet hm m H) := by
      have := getElem?_set_same hcn { cn with handlers := some (mapSet hm m H) }
      rw [← hh2, b1] at this
      cases this
      rfl
    rw [hres, hcn1, mapGet_mapSet]
    simp

/-- The theorem `first_param_name_kept` at `usersRouter` (route `/users/:id`)
and the registration of `/users/:name`: the registration succeeds, node 1 keeps
its param child 2, which still stores the name `id`, and the later search for
`/users/42` returns the handler of `/users/:name` with the value under `id`. -/
theorem first_param_name_kept_witness :
    ∃ (r1 : Router) (n1 cn1 : Node),
      usersRouter.insert MethodGet (bytes "/users/:name") (some 5) = Except.ok r1 ∧
      r1.heap[1]? = some n1 ∧ n1.paramChild = some 2 ∧
      r1.heap[2]? = some cn1 ∧ cn1.param = some (Param.mk (bytes "id") []) ∧
      Route r1.heap (r1.tree, bytes "/users/:name") (2, []) ∧
      (r1.Search 1 MethodGet (bytes "/users/42")).map Prod.fst =
        Except.ok (some 5, [Param.mk (bytes "id") (bytes "42")]) := by
  obtain ⟨r1, n1, cn1, g1, g2, g3, g4, g5, g6, -, -, -, g10⟩ :=
    first_param_name_kept usersRouter usersRouter_reachable 1 2
      { pfx := bytes "/users/", paramChild := some 2, parent := some 0, handlers := some [] }
      { pfx := bytes ":id", parent := some 1, nodeType := nodeType.param,
        param := some { key := bytes "id", value := [] },
        handlers := some [(MethodGet, some 1)] }
      { key := bytes "id", value := [] } (by decide) (by decide) (by decide) (by decide)
      MethodGet (bytes "/users/:name") (bytes "name") [] (some 5)
      (Relation.ReflTransGen.single (Or.inl
        ⟨{ isRoot := true, children := [1] },
          { pfx := bytes "/users/", paramChild := some 2, parent := some 0,
            handlers := some [] },
          by decide, by decide, by decide, by decide⟩))
      (by decide) (Or.inl rfl)
  have g11 := g10 rfl (bytes "/users/") (by decide) (by decide) 0 (bytes "42") (by decide)
    (by decide) (by intro d hd; cases hd)
  have e1 : bytes "/users/" ++ bytes "42" = bytes "/users/42" := by decide
  rw [e1] at g11
  exact ⟨r1, n1, cn1, g1, g2, g3, g4, g5, g6, g11⟩

/-- After `/users/:id` and then `/users/:name` have been registered, the search
for `/users/42` reports the value under the key `id` and returns the handler of
the second registration. -/
theorem first_param_name_example :
    (registerAll [(MethodGet, bytes "/users/:id", some 1),
        (MethodGet, bytes "/users/:name", some 5)] NewRouter).map (fun r =>
      (r.Search 1 MethodGet (bytes "/users/42")).map Prod.fst) =
      Except.ok (Except.ok (some 5, [{ key := bytes "id", value := bytes "42" }])) := by
  rfl

end MyRouter
